import Mathlib

/-!
# Control-flow graph of the phc optimizer (`src/optimize/CFG.cpp`)

A shallow embedding of the graph builder, the graph editor, the clean-up pass
and the linearizer, followed by theorems about them.

Modelling conventions.

* The Boost graph `bs` is an `adjacency_list<listS, listS, bidirectionalS>`: a
  directed multigraph whose vertex list and edge lists are kept in insertion
  order.  `vertices (bs)` is the field `blocks`; `edges (bs)` is the field
  `edges`; `out_edges (v, bs)` and `in_edges (v, bs)` are the edges with source
  (target) `v`, in insertion order.
* A `Basic_block*` that is in the graph is named by its vertex descriptor.
  Descriptors and edge identities are drawn from two counters and never reused.
* Vertex descriptors (`vertex_t`), edge identities (`edge_t`, `Edge*`), the
  values of label names and of variable names are natural numbers: the program
  only ever compares them for equality.
* A tribool direction is an `Option Bool`: `none` is `indeterminate`.
* A failed `assert` is `Err.assertion`; reading through a null or dangling
  pointer (an undefined label, a vertex that is not in the graph) is
  `Err.undefined`; `Err.fuel` is not a behaviour of the program: it is what a
  bounded loop of the model returns when its bound is too small, and is shown
  not to occur.
-/

namespace PHC

/-! ## Data model -/

/-- The ways a run can stop without a result. -/
inductive Err where
  | assertion
  | undefined
  | fuel
  deriving DecidableEq, Repr

/-- The statement kinds the graph builder tells apart by `classid ()`:
`Label`, `Goto`, `Branch`, and everything else.  `Assign_var` is the kind of
the copies made when leaving SSA form; `Other` stands for every remaining
statement kind, none of which holds a label name. -/
inductive Statement where
  | Label (label_name : Nat)
  | Goto (label_name : Nat)
  | Branch (variable_name : Nat) (iftrue : Nat) (iffalse : Nat)
  | Assign_var (lhs : Nat) (rhs : Nat)
  | Other (id : Nat)
  deriving DecidableEq, Repr

/-- Is the statement one of the three control statements the builder turns
into Empty or Branch blocks? -/
def Statement.is_control : Statement → Bool
  | .Label _ => true
  | .Goto _ => true
  | .Branch _ _ _ => true
  | _ => false

/-- A phi node: the variable it defines and its arguments, each keyed by the
identity of an incoming edge. -/
structure Phi where
  lhs : Nat
  args : List (Nat × Nat)
  deriving DecidableEq, Repr

/-- The five kinds of basic block, with the statement a Statement block or a
Branch block holds. -/
inductive BB_kind where
  | Entry_block
  | Exit_block
  | Empty_block
  | Branch_block (variable_name : Nat) (iftrue : Nat) (iffalse : Nat)
  | Statement_block (statement : Statement)
  deriving DecidableEq, Repr

/-- A block object that is not (yet) attached to a graph. -/
structure New_block where
  kind : BB_kind
  phis : List Phi
  deriving DecidableEq, Repr

/-- A block of the graph: `vb[vertex]`, with `bb->vertex = vertex`. -/
structure Basic_block where
  vertex : Nat
  kind : BB_kind
  phis : List Phi
  deriving DecidableEq, Repr

/-- An `Edge` object: `ee[edge]`. -/
structure Edge where
  edge : Nat
  source : Nat
  target : Nat
  direction : Option Bool
  deriving DecidableEq, Repr

/-- The graph: its blocks and edges in insertion order, the two distinguished
vertices, and the counters the next vertex descriptor and the next edge
identity are taken from. -/
structure CFG where
  blocks : List Basic_block
  edges : List Edge
  entry : Nat
  exit : Nat
  next_vertex : Nat
  next_edge : Nat
  deriving DecidableEq, Repr

/-- `isa<...>`: is the block an Entry block? -/
def BB_kind.is_entry : BB_kind → Bool
  | .Entry_block => true
  | _ => false

/-- `isa<...>`: is the block an Exit block? -/
def BB_kind.is_exit : BB_kind → Bool
  | .Exit_block => true
  | _ => false

/-- `isa<...>`: is the block an Empty block? -/
def BB_kind.is_empty : BB_kind → Bool
  | .Empty_block => true
  | _ => false

/-- `isa<...>`: is the block a Branch block? -/
def BB_kind.is_branch : BB_kind → Bool
  | .Branch_block _ _ _ => true
  | _ => false

/-! ## Queries -/

/-- The property map `vb`: the block of a vertex, if the vertex is in the graph. -/
def CFG.vb (g : CFG) (v : Nat) : Option Basic_block :=
  g.blocks.find? (fun b => b.vertex == v)

/-- Boost `out_edges (v, bs)`. -/
def CFG.out_edges (g : CFG) (v : Nat) : List Edge :=
  g.edges.filter (fun e => e.source == v)

/-- Boost `in_edges (v, bs)`. -/
def CFG.in_edges (g : CFG) (v : Nat) : List Edge :=
  g.edges.filter (fun e => e.target == v)

/-- `CFG::get_all_bbs`: the blocks in vertex order. -/
def CFG.get_all_bbs (g : CFG) : List Nat :=
  g.blocks.map (fun b => b.vertex)

/-- `CFG::get_bb_successors`. -/
def CFG.get_bb_successors (g : CFG) (bb : Nat) : List Nat :=
  (g.out_edges bb).map (fun e => e.target)

/-- `CFG::get_bb_predecessors`. -/
def CFG.get_bb_predecessors (g : CFG) (bb : Nat) : List Nat :=
  (g.in_edges bb).map (fun e => e.source)

/-- `CFG::get_edge`: the first out-edge of `bb1` whose target is `bb2`;
`assert (0)` when there is none. -/
def CFG.get_edge (g : CFG) (bb1 bb2 : Nat) : Except Err Edge :=
  match (g.out_edges bb1).find? (fun e => e.target == bb2) with
  | some e => .ok e
  | none => .error .assertion

/-- Modelled from the spec: `Basic_block::get_successor_edge` is not in the
sources at hand; the block has a single successor edge ("the single
successor") and anything else is a failed assertion. -/
def CFG.get_successor_edge (g : CFG) (bb : Nat) : Except Err Edge :=
  match g.out_edges bb with
  | [e] => .ok e
  | _ => .error .assertion

/-- Modelled from the spec: `Basic_block::get_successor` is not in the sources
at hand; it is the target of the single successor edge. -/
def CFG.get_successor (g : CFG) (bb : Nat) : Except Err Nat :=
  match g.get_successor_edge bb with
  | .ok e => .ok e.target
  | .error x => .error x

/-- Modelled from the spec: `Branch_block::get_true_successor` is not in the
sources at hand; it is the target of the outgoing edge tagged True, and a
Branch block without one is a failed assertion. -/
def CFG.get_true_successor (g : CFG) (bb : Nat) : Except Err Nat :=
  match (g.out_edges bb).find? (fun e => e.direction == some true) with
  | some e => .ok e.target
  | none => .error .assertion

/-- Modelled from the spec: `Branch_block::get_false_successor` is not in the
sources at hand; it is the target of the outgoing edge tagged False. -/
def CFG.get_false_successor (g : CFG) (bb : Nat) : Except Err Nat :=
  match (g.out_edges bb).find? (fun e => e.direction == some false) with
  | some e => .ok e.target
  | none => .error .assertion

/-! ## Structural additions and removals -/

/-- `CFG::add_bb`: `add_vertex` appends a vertex with a new descriptor. -/
def CFG.add_bb (g : CFG) (b : New_block) : CFG × Nat :=
  ({ g with
      blocks := g.blocks ++ [{ vertex := g.next_vertex, kind := b.kind, phis := b.phis }],
      next_vertex := g.next_vertex + 1 },
   g.next_vertex)

/-- The edge-adding core of `CFG::add_edge` and `CFG::add_branch`: Boost
`add_edge` appends the edge, and `ee[e]` is a new `Edge` with the direction
given. -/
def CFG.add_edge_dir (g : CFG) (source target : Nat) (direction : Option Bool) :
    CFG × Edge :=
  let e : Edge :=
    { edge := g.next_edge, source := source, target := target, direction := direction }
  ({ g with edges := g.edges ++ [e], next_edge := g.next_edge + 1 }, e)

/-- `CFG::add_edge`: the new `Edge` has an indeterminate direction. -/
def CFG.add_edge (g : CFG) (source target : Nat) : CFG × Edge :=
  g.add_edge_dir source target none

/-- `CFG::add_branch`: the True edge first, then the False edge. -/
def CFG.add_branch (g : CFG) (source target1 target2 : Nat) : CFG :=
  ((g.add_edge_dir source target1 (some true)).1.add_edge_dir source target2 (some false)).1

/-- Assignment to `ee[e]->direction`. -/
def CFG.set_direction (g : CFG) (e : Nat) (direction : Option Bool) : CFG :=
  { g with edges := g.edges.map (fun x => if x.edge == e then { x with direction := direction } else x) }

/-- Boost `remove_edge (e, bs)`. -/
def CFG.boost_remove_edge (g : CFG) (e : Nat) : CFG :=
  { g with edges := g.edges.filter (fun x => !(x.edge == e)) }

/-- `CFG::remove_bb`: `clear_vertex` drops every edge at the vertex, and
`remove_vertex` drops the vertex. -/
def CFG.remove_bb (g : CFG) (bb : Nat) : CFG :=
  { g with
      edges := g.edges.filter (fun e => !(e.source == bb) && !(e.target == bb)),
      blocks := g.blocks.filter (fun b => !(b.vertex == bb)) }

/-- Replace the phi nodes of one block. -/
def CFG.set_phis (g : CFG) (bb : Nat) (f : List Phi → List Phi) : CFG :=
  { g with blocks := g.blocks.map (fun b => if b.vertex == bb then { b with phis := f b.phis } else b) }

/-- `Basic_block::get_phi_nodes`; a block that is not in the graph has none to
show. -/
def CFG.get_phi_nodes (g : CFG) (bb : Nat) : List Phi :=
  match g.vb bb with
  | some b => b.phis
  | none => []

/-- Modelled from the spec: `Phi::replace_edge` is not in the sources at hand;
it remaps the edge reference of the arguments keyed by the old edge. -/
def Phi.replace_edge (phi : Phi) (old_edge new_edge : Nat) : Phi :=
  { phi with args := phi.args.map (fun a => if a.1 == old_edge then (new_edge, a.2) else a) }

/-- Modelled from the spec: `Phi::remove_arg_for_edge` is not in the sources
at hand; it strips the argument keyed by the edge. -/
def Phi.remove_arg_for_edge (phi : Phi) (edge : Nat) : Phi :=
  { phi with args := phi.args.filter (fun a => !(a.1 == edge)) }

/-- Modelled from the spec: `Basic_block::merge_phi_nodes` is not in the
sources at hand; the phi nodes of the other block are added to this one. -/
def CFG.merge_phi_nodes (g : CFG) (bb : Nat) (other : List Phi) : CFG :=
  g.set_phis bb (fun ps => ps ++ other)

/-- Modelled from the spec: `Basic_block::fix_solo_phi_args` is not in the
sources at hand; a phi node left with exactly one argument is degenerate and
is taken out of the block. -/
def CFG.fix_solo_phi_args (g : CFG) (bb : Nat) : CFG :=
  g.set_phis bb (fun ps => ps.filter (fun p => !(p.args.length == 1)))

/-- `CFG::add_bb_between`. -/
def CFG.add_bb_between (g : CFG) (source target : Nat) (new_bb : New_block) :
    Except Err CFG :=
  let (g1, n) := g.add_bb new_bb
  match g1.get_edge source target with
  | .error x => .error x
  | .ok current_edge =>
    let (g2, e1) := g1.add_edge source n
    let g3 := g2.set_direction e1.edge current_edge.direction
    let (g4, _) := g3.add_edge n target
    .ok (g4.boost_remove_edge current_edge.edge)

/-- An element of a replacement sequence: a block that is in the graph, named
by its vertex, or a block object that is not attached to the graph. -/
inductive BB_ref where
  | attached (v : Nat)
  | detached (b : New_block)
  deriving DecidableEq, Repr

/-- The block object behind a reference, as it is when the call is made. -/
def CFG.deref (g : CFG) : BB_ref → Except Err New_block
  | .attached v =>
    match g.vb v with
    | some b => .ok { kind := b.kind, phis := b.phis }
    | none => .error .undefined
  | .detached b => .ok b

/-- The loop over the predecessors in the empty-sequence path of
`CFG::replace_bb`: an edge from the predecessor to the successor, tagged with
the direction of `get_edge (pred, bb)`, and the successor's phi nodes remapped
from the successor edge to the new edge. -/
def CFG.reroute_predecessors (bb succ : Nat) (succ_edge : Edge) :
    List Nat → CFG → Except Err CFG
  | [], g => .ok g
  | pred :: rest, g =>
    let (g1, e) := g.add_edge pred succ
    match g1.get_edge pred bb with
    | .error x => .error x
    | .ok old =>
      let g2 := g1.set_direction e.edge old.direction
      let g3 := g2.set_phis succ (fun ps => ps.map (fun p => p.replace_edge succ_edge.edge e.edge))
      CFG.reroute_predecessors bb succ succ_edge rest g3

/-- The loop over the predecessors in the non-empty path of `CFG::replace_bb`:
an edge from each predecessor to the front block, tagged with the direction of
the old edge it stands for, and the old phi nodes remapped to the new edge. -/
def CFG.attach_predecessors (front : Nat) :
    List Edge → CFG → List Phi → CFG × List Phi
  | [], g, old_phis => (g, old_phis)
  | old_edge :: rest, g, old_phis =>
    let (g1, e) := g.add_edge old_edge.source front
    let g2 := g1.set_direction e.edge old_edge.direction
    CFG.attach_predecessors front rest g2
      (old_phis.map (fun p => p.replace_edge old_edge.edge e.edge))

/-- The loop along the chain in the non-empty path of `CFG::replace_bb`; it
returns the last block of the chain. -/
def CFG.add_chain : List New_block → CFG → Nat → Except Err (CFG × Nat)
  | [], g, prev => .ok (g, prev)
  | new_bb :: rest, g, prev =>
    if new_bb.kind.is_branch then .error .assertion
    else
      let (g1, v) := g.add_bb new_bb
      let (g2, _) := g1.add_edge prev v
      CFG.add_chain rest g2 v

/-- All the block objects behind a replacement sequence. -/
def CFG.deref_all (g : CFG) : List BB_ref → Except Err (List New_block)
  | [] => .ok []
  | r :: rest =>
    match g.deref r, CFG.deref_all g rest with
    | .ok b, .ok bs => .ok (b :: bs)
    | .error x, _ => .error x
    | _, .error x => .error x

/-- `CFG::replace_bb`.  In the non-empty path the block is removed before its
predecessors are attached to the front block, so a block that is its own
predecessor or its own successor would have an edge added at a removed vertex:
that is `Err.undefined`. -/
def CFG.replace_bb (g : CFG) (bb : Nat) (replacements : List BB_ref) : Except Err CFG :=
  if replacements = [.attached bb] then
    .ok g
  else
    match replacements with
    | [] =>
      match g.get_successor bb, g.get_successor_edge bb with
      | .error x, _ => .error x
      | _, .error x => .error x
      | .ok succ, .ok succ_edge =>
        match CFG.reroute_predecessors bb succ succ_edge (g.get_bb_predecessors bb) g with
        | .error x => .error x
        | .ok g1 =>
          let g2 :=
            if (g1.get_bb_predecessors bb).length == 0 then
              g1.set_phis succ (fun ps => ps.map (fun p => p.remove_arg_for_edge succ_edge.edge))
            else g1
          let g3 := g2.merge_phi_nodes succ (g2.get_phi_nodes bb)
          let g4 := g3.remove_bb bb
          .ok (g4.fix_solo_phi_args succ)
    | front_ref :: rest_refs =>
      let pred_edges := g.in_edges bb
      let old_phis := g.get_phi_nodes bb
      match g.get_successor bb with
      | .error x => .error x
      | .ok succ =>
        match g.deref front_ref, g.deref_all rest_refs with
        | .error x, _ => .error x
        | _, .error x => .error x
        | .ok front_bb, .ok rest =>
          if (pred_edges.any (fun e => e.source == bb)) || succ == bb then .error .undefined
          else
            let g1 := g.remove_bb bb
            let (g2, front) := g1.add_bb front_bb
            let (g3, phis) := CFG.attach_predecessors front pred_edges g2 old_phis
            let g4 := g3.merge_phi_nodes front phis
            match CFG.add_chain rest g4 front with
            | .error x => .error x
            | .ok (g5, prev) => .ok (g5.add_edge prev succ).1

/-- Modelled from the spec: `Basic_block::remove` is not in the sources at
hand; the block is removed "via the empty-sequence path" of `replace_bb`. -/
def CFG.remove (g : CFG) (bb : Nat) : Except Err CFG :=
  g.replace_bb bb []

/-- One pass of the `foreach` in `CFG::tidy_up` over the blocks listed when the
pass began; the flag is `repeat`. -/
def CFG.tidy_sweep : List Nat → CFG → Bool → Except Err (CFG × Bool)
  | [], g, again => .ok (g, again)
  | v :: rest, g, again =>
    match g.vb v with
    | none => .error .undefined
    | some bb =>
      if bb.kind.is_entry || bb.kind.is_exit then CFG.tidy_sweep rest g again
      else if bb.phis.length > 0 then CFG.tidy_sweep rest g again
      else if bb.kind.is_empty
          || (g.get_bb_predecessors v).length == 0
          || (g.get_bb_successors v).length == 0 then
        if bb.kind.is_branch then .error .assertion
        else
          match g.remove v with
          | .error x => .error x
          | .ok g1 => CFG.tidy_sweep rest g1 true
      else CFG.tidy_sweep rest g again

/-- The `while (repeat)` loop of `CFG::tidy_up`, with a bound on the number of
passes. -/
def CFG.tidy_loop : Nat → CFG → Except Err CFG
  | 0, _ => .error .fuel
  | n + 1, g =>
    match CFG.tidy_sweep g.get_all_bbs g false with
    | .error x => .error x
    | .ok (g1, true) => CFG.tidy_loop n g1
    | .ok (g1, false) => .ok g1

/-- `CFG::tidy_up`.  A pass that sets `repeat` removes a block and no pass adds
one, so one pass more than there are blocks is enough. -/
def CFG.tidy_up (g : CFG) : Except Err CFG :=
  CFG.tidy_loop (g.blocks.length + 1) g

/-- `CFG::consistency_check`: `vb[v]->vertex == v` for every vertex. -/
def CFG.consistency_check (g : CFG) : Bool :=
  g.get_all_bbs.all (fun v =>
    match g.vb v with
    | some b => b.vertex == v
    | none => false)

/-! ## Graph builder -/

/-- The first pass of `CFG::add_statements`: a block for every statement.  It
returns the graph, the map `labels` (the latest entry for a name comes first)
and the vertex of every statement, in order (the map `nodes`: the statements
of a list are distinct objects). -/
def CFG.create_nodes : List Statement → CFG → List (Nat × Nat) →
    CFG × List (Nat × Nat) × List Nat
  | [], g, labels => (g, labels, [])
  | s :: rest, g, labels =>
    match s with
    | .Label l =>
      let (g1, v) := g.add_bb { kind := .Empty_block, phis := [] }
      let (g2, labels2, nodes) := CFG.create_nodes rest g1 ((l, v) :: labels)
      (g2, labels2, v :: nodes)
    | .Goto _ =>
      let (g1, v) := g.add_bb { kind := .Empty_block, phis := [] }
      let (g2, labels2, nodes) := CFG.create_nodes rest g1 labels
      (g2, labels2, v :: nodes)
    | .Branch c t f =>
      let (g1, v) := g.add_bb { kind := .Branch_block c t f, phis := [] }
      let (g2, labels2, nodes) := CFG.create_nodes rest g1 labels
      (g2, labels2, v :: nodes)
    | s =>
      let (g1, v) := g.add_bb { kind := .Statement_block s, phis := [] }
      let (g2, labels2, nodes) := CFG.create_nodes rest g1 labels
      (g2, labels2, v :: nodes)

/-- The second pass of `CFG::add_statements`: the edges.  The state is the
graph, `parent` and `use_parent`.  A label that is not in the map reads as a
null vertex. -/
def CFG.create_edges (labels : List (Nat × Nat)) :
    List (Statement × Nat) → CFG → Nat → Bool → Except Err (CFG × Nat × Bool)
  | [], g, parent, use_parent => .ok (g, parent, use_parent)
  | (s, v) :: rest, g, parent, use_parent =>
    let g1 := if use_parent then (g.add_edge parent v).1 else g
    match s with
    | .Goto l =>
      match labels.lookup l with
      | none => .error .undefined
      | some target =>
        CFG.create_edges labels rest (g1.add_edge v target).1 parent false
    | .Branch _ t f =>
      match labels.lookup t, labels.lookup f with
      | some iftrue, some iffalse =>
        CFG.create_edges labels rest (g1.add_branch v iftrue iffalse) parent false
      | _, _ => .error .undefined
    | _ => CFG.create_edges labels rest g1 v true

/-- `CFG::add_statements`. -/
def CFG.add_statements (g : CFG) (statements : List Statement) : Except Err CFG :=
  let (g1, labels, nodes) := CFG.create_nodes statements g []
  match CFG.create_edges labels (statements.zip nodes) g1 g1.entry true with
  | .error x => .error x
  | .ok (g2, parent, use_parent) =>
    if !use_parent then .error .assertion
    else
      match (g2.add_edge parent g2.exit).1.tidy_up with
      | .error x => .error x
      | .ok g3 => if g3.consistency_check then .ok g3 else .error .assertion

/-- The graph before any block is added. -/
def CFG.empty : CFG :=
  { blocks := [], edges := [], entry := 0, exit := 0, next_vertex := 0, next_edge := 0 }

/-- The constructor `CFG::CFG`: the entry block, the exit block, then the
statements of the method. -/
def CFG.build (statements : List Statement) : Except Err CFG :=
  let (g1, entry) := CFG.empty.add_bb { kind := .Entry_block, phis := [] }
  let (g2, exit) := g1.add_bb { kind := .Exit_block, phis := [] }
  CFG.add_statements { g2 with entry := entry, exit := exit } statements

/-! ## Linearizer -/

/-- The `initialize_vertex` calls of the depth-first search, in vertex order:
`(*labels)[v] = fresh_label_name ()`.  The latest entry for a vertex comes
first.

Modelled from the spec: `fresh_label_name` is not in the sources at hand; it
gives "a fresh label to every block", here the value of a counter that is
then advanced. -/
def Linearizer.initialize_vertex :
    List Nat → Nat → List (Nat × Nat) → List (Nat × Nat)
  | [], _, labels => labels
  | v :: rest, counter, labels =>
    Linearizer.initialize_vertex rest (counter + 1) ((v, counter) :: labels)

/-- The statements `Linearizer::discover_vertex` pushes for a block.  Reading
`(*labels)[v]` for a vertex without a label reads a null pointer. -/
def Linearizer.emit (g : CFG) (labels : List (Nat × Nat)) (bb : Basic_block) :
    Except Err (List Statement) :=
  let label : Except Err (List Statement) :=
    if bb.kind.is_exit then .ok []
    else
      match labels.lookup bb.vertex with
      | some l => .ok [.Label l]
      | none => .error .undefined
  let body : Except Err (List Statement) :=
    match bb.kind with
    | .Statement_block s => .ok [s]
    | .Branch_block c _ _ =>
      match g.get_true_successor bb.vertex, g.get_false_successor bb.vertex with
      | .error x, _ => .error x
      | _, .error x => .error x
      | .ok t, .ok f =>
        match labels.lookup t, labels.lookup f with
        | some lt, some lf => .ok [.Branch c lt lf]
        | _, _ => .error .undefined
    | _ => .ok []
  let jump : Except Err (List Statement) :=
    if !bb.kind.is_branch && !bb.kind.is_exit then
      match g.get_successor bb.vertex with
      | .error x => .error x
      | .ok next =>
        match labels.lookup next with
        | some l => .ok [.Goto l]
        | none => .error .undefined
    else .ok []
  match label, body, jump with
  | .error x, _, _ => .error x
  | _, .error x, _ => .error x
  | _, _, .error x => .error x
  | .ok a, .ok b, .ok c => .ok (a ++ b ++ c)

/-- `Linearizer::discover_vertex`: the statements of the block are pushed at
the back of `statements`. -/
def Linearizer.discover_vertex (g : CFG) (labels : List (Nat × Nat))
    (v : Nat) (statements : List Statement) : Except Err (List Statement) :=
  match g.vb v with
  | none => .error .undefined
  | some bb =>
    match Linearizer.emit g labels bb with
    | .error x => .error x
    | .ok out => .ok (statements ++ out)

/-- The loop over the out-edges of a vertex in Boost `depth_first_visit`: a
white target is visited, any other is passed over.  The state is the list of
the vertices that are no longer white, and the statements pushed so far. -/
def visit_out_edges
    (visit : Nat → List Nat × List Statement → Except Err (List Nat × List Statement)) :
    List Edge → List Nat × List Statement → Except Err (List Nat × List Statement)
  | [], st => .ok st
  | e :: rest, st =>
    if e.target ∈ st.1 then visit_out_edges visit rest st
    else
      match visit e.target st with
      | .error x => .error x
      | .ok st1 => visit_out_edges visit rest st1

/-- Boost `depth_first_visit` with the Linearizer as its visitor: the vertex is
coloured, `discover_vertex` runs, then the out-edges are followed in order.
The first argument bounds the depth of the recursion. -/
def depth_first_visit (g : CFG) (labels : List (Nat × Nat)) :
    Nat → Nat → List Nat × List Statement →
      Except Err (List Nat × List Statement)
  | 0, _, _ => .error .fuel
  | n + 1, u, st =>
    match Linearizer.discover_vertex g labels u st.2 with
    | .error x => .error x
    | .ok statements =>
      visit_out_edges (depth_first_visit g labels n) (g.out_edges u) (u :: st.1, statements)

/-- The loop of Boost `depth_first_search` over all the vertices: a search is
started at every vertex that is still white.  The default start vertex is the
first vertex, so the loop is the whole search. -/
def depth_first_loop (g : CFG) (labels : List (Nat × Nat)) :
    List Nat → List Nat × List Statement →
      Except Err (List Nat × List Statement)
  | [], st => .ok st
  | u :: rest, st =>
    if u ∈ st.1 then depth_first_loop g labels rest st
    else
      match depth_first_visit g labels (g.blocks.length + 1) u st with
      | .error x => .error x
      | .ok st1 => depth_first_loop g labels rest st1

/-- Do a statement and the one after it match `Goto (ln)` and
`Label (ln->value)`? -/
def is_redundant_goto (s next : Statement) : Bool :=
  match s, next with
  | .Goto l, .Label m => l == m
  | _, _ => false

/-- The first clean-up loop of `CFG::get_linear_statements`: the iterator
walks the list up to its last element, and a goto followed by its own label is
erased. -/
def remove_redundant_gotos : List Statement → List Statement
  | s :: next :: rest =>
    if is_redundant_goto s next then remove_redundant_gotos (next :: rest)
    else s :: remove_redundant_gotos (next :: rest)
  | l => l

/-- What `Label_counter::pre_label_name` adds to the count of a name for one
statement: one for every `LABEL_NAME` node of the statement with that value. -/
def Statement.label_count (name : Nat) : Statement → Nat
  | .Label l => if l == name then 1 else 0
  | .Goto l => if l == name then 1 else 0
  | .Branch _ t f => (if t == name then 1 else 0) + (if f == name then 1 else 0)
  | _ => 0

/-- The entry `label_counts[name]` after `Label_counter` has visited the
list. -/
def label_counts (results : List Statement) (name : Nat) : Nat :=
  (results.map (Statement.label_count name)).sum

/-- The second clean-up loop of `CFG::get_linear_statements`: a `Label` whose
name is counted once is erased. -/
def remove_unused_labels (results : List Statement) : List Statement :=
  results.filter (fun s =>
    match s with
    | .Label l => !(label_counts results l == 1)
    | _ => true)

/-- The list `linearizer.statements` after the depth-first search and
`add_exit_label`.  The argument `counter` is the state of the fresh-name
counter when the call is made. -/
def CFG.linearize (g : CFG) (counter : Nat) : Except Err (List Statement) :=
  let labels := Linearizer.initialize_vertex g.get_all_bbs counter []
  match depth_first_loop g labels g.get_all_bbs ([], []) with
  | .error x => .error x
  | .ok st =>
    match labels.lookup g.exit with
    | some l => .ok (st.2 ++ [.Label l])
    | none => .error .undefined

/-- `CFG::get_linear_statements`. -/
def CFG.get_linear_statements (g : CFG) (counter : Nat) : Except Err (List Statement) :=
  match g.linearize counter with
  | .error x => .error x
  | .ok results => .ok (remove_unused_labels (remove_redundant_gotos results))

/-! ## The blocks in topological order -/

/-- The loop over the out-edges of a vertex in Boost `depth_first_visit`, run
on the `filtered_graph` of `CFG::get_all_bbs_top_down`.  `gray` holds the
vertices that are gray, the vertices pushed so far are the black ones, any
other vertex is white.  `filter_back_edges::operator()` hides an edge whose
target is gray; the constructor of the source initialises its member with
`cfg (cfg)`, the model reads the colour map of the graph the filter is made
for.  An edge to a black target is passed over and a white target is
visited. -/
def topological_out_edges (visit : Nat → List Nat → Except Err (List Nat))
    (gray : List Nat) : List Edge → List Nat → Except Err (List Nat)
  | [], vertices => .ok vertices
  | e :: rest, vertices =>
    if e.target ∈ gray then topological_out_edges visit gray rest vertices
    else if e.target ∈ vertices then topological_out_edges visit gray rest vertices
    else
      match visit e.target vertices with
      | .error x => .error x
      | .ok vertices1 => topological_out_edges visit gray rest vertices1

/-- Boost `depth_first_visit` with `topo_sort_visitor`: the vertex turns gray,
its out-edges are followed in order, then it turns black and `finish_vertex`
writes it to the output iterator, here the `back_inserter` of `vertices`.  The
first argument bounds the depth of the recursion; a vertex that is not in the
graph has no colour to read. -/
def topological_visit (g : CFG) : Nat → List Nat → Nat → List Nat → Except Err (List Nat)
  | 0, _, _, _ => .error .fuel
  | n + 1, gray, u, vertices =>
    match g.vb u with
    | none => .error .undefined
    | some _ =>
      match topological_out_edges (topological_visit g n (u :: gray)) (u :: gray)
          (g.out_edges u) vertices with
      | .error x => .error x
      | .ok vertices1 => .ok (vertices1 ++ [u])

/-- Boost `topological_sort`: a depth-first search over all the vertices, a
visit being started at every vertex that is still white. -/
def topological_sort (g : CFG) : List Nat → List Nat → Except Err (List Nat)
  | [], vertices => .ok vertices
  | u :: rest, vertices =>
    if u ∈ vertices then topological_sort g rest vertices
    else
      match topological_visit g (g.blocks.length + 1) [] u vertices with
      | .error x => .error x
      | .ok vertices1 => topological_sort g rest vertices1

/-- `CFG::get_all_bbs_top_down`: the vertices in the order `topological_sort`
wrote them, each standing for its block `vb[v]`. -/
def CFG.get_all_bbs_top_down (g : CFG) : Except Err (List Nat) :=
  topological_sort g g.get_all_bbs []

/-- `CFG::get_all_bbs_bottom_up`: the top-down list reversed. -/
def CFG.get_all_bbs_bottom_up (g : CFG) : Except Err (List Nat) :=
  match g.get_all_bbs_top_down with
  | .error x => .error x
  | .ok result => .ok result.reverse

/-! ## Out of SSA form -/

/-- Modelled from the spec: `Phi::get_args` is not in the sources at hand; a
phi node maps incoming edges to source variables, and its arguments are those
variables in order. -/
def Phi.get_args (phi : Phi) : List Nat :=
  phi.args.map (fun a => a.2)

/-- Modelled from the spec: `Basic_block::remove_phi_nodes` is not in the
sources at hand; it strips the phi nodes of the block entirely. -/
def CFG.remove_phi_nodes (g : CFG) (bb : Nat) : CFG :=
  g.set_phis bb (fun _ => [])

/-- The loop over the arguments of one phi node in
`CFG::convert_out_of_ssa_form`: a Statement block with the copy is put between
the front of `preds` and the block, and the front is popped.  `front ()` of an
empty list is `Err.undefined`. -/
def CFG.insert_copies (bb lhs : Nat) : List Nat → List Nat → CFG → Except Err CFG
  | [], _, g => .ok g
  | _ :: _, [], _ => .error .undefined
  | var_name :: args, pred :: preds, g =>
    match g.add_bb_between pred bb ⟨.Statement_block (.Assign_var lhs var_name), []⟩ with
    | .error x => .error x
    | .ok g1 => CFG.insert_copies bb lhs args preds g1

/-- The loop over the phi nodes of one block in `CFG::convert_out_of_ssa_form`;
the predecessors are read anew for every phi node. -/
def CFG.eliminate_phis (bb : Nat) : List Phi → CFG → Except Err CFG
  | [], g => .ok g
  | phi :: rest, g =>
    match CFG.insert_copies bb phi.lhs phi.get_args (g.get_bb_predecessors bb) g with
    | .error x => .error x
    | .ok g1 => CFG.eliminate_phis bb rest g1

/-- The loop of `CFG::convert_out_of_ssa_form` over the blocks listed when it
began. -/
def CFG.out_of_ssa_loop : List Nat → CFG → Except Err CFG
  | [], g => .ok g
  | bb :: rest, g =>
    match CFG.eliminate_phis bb (g.get_phi_nodes bb) g with
    | .error x => .error x
    | .ok g1 => CFG.out_of_ssa_loop rest (g1.remove_phi_nodes bb)

/-- `CFG::convert_out_of_ssa_form`. -/
def CFG.convert_out_of_ssa_form (g : CFG) : Except Err CFG :=
  CFG.out_of_ssa_loop g.get_all_bbs g

/-! ## Phi insertion -/

/-- Modelled from the spec: `Basic_block::has_phi_function` is not in the
sources at hand; the block has a phi node for the variable when one of its phi
nodes has the variable as its target. -/
def CFG.has_phi_function (g : CFG) (bb var_name : Nat) : Bool :=
  (g.get_phi_nodes bb).any (fun p => p.lhs == var_name)

/-- Modelled from the spec: `Basic_block::add_phi_function` is not in the
sources at hand; the block gets a new phi node for the variable, which has no
argument yet. -/
def CFG.add_phi_function (g : CFG) (bb var_name : Nat) : CFG :=
  g.set_phis bb (fun ps => ps ++ [⟨var_name, []⟩])

/-- The variables a block defines, as the worklist loop of
`CFG::convert_to_ssa_form` collects them in `def_list`: the definitions before
SSA form (`get_pre_ssa_defs`, a result of the def-use web, here the parameter
`defs`) and the targets of the phi nodes of the block. -/
def CFG.def_list (g : CFG) (defs : Nat → List Nat) (bb : Nat) : List Nat :=
  defs bb ++ (g.get_phi_nodes bb).map (fun p => p.lhs)

/-- The loop over `def_list` for one frontier block: a phi node is added for
every variable that has none there; the flag is `def_added`. -/
def CFG.add_phis (frontier : Nat) : List Nat → CFG → Bool → CFG × Bool
  | [], g, def_added => (g, def_added)
  | var_name :: rest, g, def_added =>
    if g.has_phi_function frontier var_name then CFG.add_phis frontier rest g def_added
    else CFG.add_phis frontier rest (g.add_phi_function frontier var_name) true

/-- The loop over the dominance frontier of the block `bb`; it returns the
graph and the blocks pushed at the back of the worklist. -/
def CFG.visit_frontier (defs : Nat → List Nat) (bb : Nat) :
    List Nat → CFG → List Nat → CFG × List Nat
  | [], g, pushed => (g, pushed)
  | frontier :: rest, g, pushed =>
    let (g1, def_added) := CFG.add_phis frontier (g.def_list defs bb) g false
    CFG.visit_frontier defs bb rest g1 (if def_added then pushed ++ [frontier] else pushed)

/-- The `while (i != worklist->end ())` loop of `CFG::convert_to_ssa_form`; the
list is the worklist from the iterator on, `df` is the dominance frontier of
every block (`get_dominance_frontier`, a result of the dominance computation),
and the first argument bounds the number of blocks taken from the worklist. -/
def CFG.phi_worklist (df : Nat → List Nat) (defs : Nat → List Nat) :
    Nat → List Nat → CFG → Except Err CFG
  | _, [], g => .ok g
  | 0, _ :: _, _ => .error .fuel
  | n + 1, bb :: rest, g =>
    let (g1, pushed) := CFG.visit_frontier defs bb (df bb) g []
    CFG.phi_worklist df defs n (rest ++ pushed) g1

/-- The variables that can get a phi node: the variables the blocks define when
the loop starts. -/
def CFG.defined_vars (g : CFG) (defs : Nat → List Nat) : List Nat :=
  g.get_all_bbs.flatMap (fun b => g.def_list defs b)

/-- The phi insertion of `CFG::convert_to_ssa_form`: the worklist starts as
`get_all_bbs_top_down ()`.  A block is pushed only when a phi node was added,
and a block gets at most one phi node for a variable, so the loop takes at most
as many blocks from the worklist as the worklist has at the start, plus one for
every pair of a block and a variable. -/
def CFG.insert_phi_functions (g : CFG) (df : Nat → List Nat) (defs : Nat → List Nat) :
    Except Err CFG :=
  match g.get_all_bbs_top_down with
  | .error x => .error x
  | .ok worklist =>
    CFG.phi_worklist df defs
      (worklist.length + g.get_all_bbs.length * (g.defined_vars defs).length) worklist g

/-! ## Definitions used to state and prove the theorems

Explicit graphs and lists for the inputs the theorems are about, and the
predicates the proofs go through. -/

/-- The Statement blocks the builder makes for a list without control
statements, the first at vertex `v0`. -/
def stmt_blocks : Nat → List Statement → List Basic_block
  | _, [] => []
  | v0, s :: rest => { vertex := v0, kind := .Statement_block s, phis := [] } :: stmt_blocks (v0 + 1) rest

/-- The fall-through edges the builder makes for a list without control
statements: from `parent` to the block at `v0`, and so on, the last one to
`exit`. -/
def chain_edges (exit : Nat) : Nat → Nat → Nat → List Statement → List Edge
  | e0, parent, _, [] => [{ edge := e0, source := parent, target := exit, direction := none }]
  | e0, parent, v0, _ :: rest =>
    { edge := e0, source := parent, target := v0, direction := none } ::
      chain_edges exit (e0 + 1) v0 (v0 + 1) rest

/-- The vertex a fall-through edge leads to: the block at `v0` when a
statement is left, `exit` otherwise. -/
def next_vertex_of (exit v0 : Nat) : List Statement → Nat
  | [] => exit
  | _ :: _ => v0

/-- The graph the builder makes for a list without control statements. -/
def straight_graph (ss : List Statement) : CFG where
  blocks := { vertex := 0, kind := .Entry_block, phis := [] } ::
    { vertex := 1, kind := .Exit_block, phis := [] } :: stmt_blocks 2 ss
  edges := chain_edges 1 0 0 2 ss
  entry := 0
  exit := 1
  next_vertex := 2 + ss.length
  next_edge := ss.length + 1

/-- The graph `CFG::CFG` hands to `add_statements`: the entry block and the
exit block, no edge. -/
def initial_graph : CFG where
  blocks := [{ vertex := 0, kind := .Entry_block, phis := [] },
    { vertex := 1, kind := .Exit_block, phis := [] }]
  edges := []
  entry := 0
  exit := 1
  next_vertex := 2
  next_edge := 0

/-- Does the sweep of `tidy_up` leave the block alone?  It does when the block
is the entry or the exit block, has a phi node, or is not Empty and has a
predecessor and a successor. -/
def CFG.keeps (g : CFG) (v : Nat) : Bool :=
  match g.vb v with
  | none => false
  | some bb =>
    bb.kind.is_entry || bb.kind.is_exit || decide (bb.phis.length > 0)
      || !(bb.kind.is_empty || (g.get_bb_predecessors v).length == 0
            || (g.get_bb_successors v).length == 0)

/-- What the depth-first search pushes for the Statement blocks of a
straight-line graph, from the block at `v0` on; `c0` is the first label. -/
def straight_emit (c0 : Nat) : Nat → List Statement → List Statement
  | _, [] => []
  | v0, s :: rest =>
    .Label (c0 + v0) :: s :: .Goto (c0 + next_vertex_of 1 (v0 + 1) rest) ::
      straight_emit c0 (v0 + 1) rest

/-- The list of `straight_emit` without its gotos. -/
def straight_strip (c0 : Nat) : Nat → List Statement → List Statement
  | _, [] => []
  | v0, s :: rest => .Label (c0 + v0) :: s :: straight_strip c0 (v0 + 1) rest

/-- Is the statement a `Label`? -/
def Statement.is_label : Statement → Bool
  | .Label _ => true
  | _ => false

/-- The part of `CFG::add_statements` that comes before `tidy_up ()`: the two
passes, the assertion and the edge to the exit block. -/
def CFG.add_statements_edges (g : CFG) (statements : List Statement) : Except Err CFG :=
  let (g1, labels, nodes) := CFG.create_nodes statements g []
  match CFG.create_edges labels (statements.zip nodes) g1 g1.entry true with
  | .error x => .error x
  | .ok (g2, parent, use_parent) =>
    if !use_parent then .error .assertion
    else .ok (g2.add_edge parent g2.exit).1

/-- The graph of the scenario before `tidy_up`. -/
def scenario_untidied (cond L1 L2 : Nat) : CFG where
  blocks := [⟨0, .Entry_block, []⟩, ⟨1, .Exit_block, []⟩, ⟨2, .Empty_block, []⟩,
    ⟨3, .Branch_block cond L2 L1, []⟩, ⟨4, .Empty_block, []⟩]
  edges := [⟨0, 0, 2, none⟩, ⟨1, 2, 3, none⟩, ⟨2, 3, 4, some true⟩, ⟨3, 3, 2, some false⟩,
    ⟨4, 4, 1, none⟩]
  entry := 0
  exit := 1
  next_vertex := 5
  next_edge := 5

/-- The graph of the scenario as built. -/
def scenario_built (cond L1 L2 : Nat) : CFG where
  blocks := [⟨0, .Entry_block, []⟩, ⟨1, .Exit_block, []⟩, ⟨3, .Branch_block cond L2 L1, []⟩]
  edges := [⟨5, 0, 3, none⟩, ⟨6, 3, 3, some false⟩, ⟨7, 3, 1, some true⟩]
  entry := 0
  exit := 1
  next_vertex := 5
  next_edge := 8

/-- A Branch block with both of its edges into the same Empty block, as the
builder makes it for `[Branch (c, L, L), Label L]` before `tidy_up`. -/
def parallel_branch_graph : CFG where
  blocks := [⟨0, .Entry_block, []⟩, ⟨1, .Exit_block, []⟩, ⟨2, .Branch_block 0 5 5, []⟩,
    ⟨3, .Empty_block, []⟩]
  edges := [⟨0, 0, 2, none⟩, ⟨1, 2, 3, some true⟩, ⟨2, 2, 3, some false⟩, ⟨3, 3, 1, none⟩]
  entry := 0
  exit := 1
  next_vertex := 4
  next_edge := 4

/-- The statements `discover_vertex` pushes for a vertex. -/
def Linearizer.emit_of (g : CFG) (labels : List (Nat × Nat)) (v : Nat) :
    Except Err (List Statement) :=
  match g.vb v with
  | none => .error .undefined
  | some bb => Linearizer.emit g labels bb

/-- The statements pushed for a list of vertices, discovered in that order. -/
def Linearizer.emit_all (g : CFG) (labels : List (Nat × Nat)) :
    List Nat → Except Err (List Statement)
  | [] => .ok []
  | v :: vs =>
    match Linearizer.emit_of g labels v, Linearizer.emit_all g labels vs with
    | .ok a, .ok b => .ok (a ++ b)
    | .error x, _ => .error x
    | _, .error x => .error x

/-- The search went from one state to another by discovering the vertices of
`order`, none of which was coloured before, one after the other. -/
def Traced (g : CFG) (labels : List (Nat × Nat)) (order : List Nat)
    (st st2 : List Nat × List Statement) : Prop :=
  ∃ out, Linearizer.emit_all g labels order = .ok out ∧ st2.2 = st.2 ++ out
    ∧ st2.1 = order.reverse ++ st.1 ∧ order.Nodup ∧ ∀ v ∈ order, v ∉ st.1

/-- The four shapes of what `discover_vertex` pushes for a vertex. -/
inductive Chunk (g : CFG) (labels : List (Nat × Nat)) (v : Nat) : List Statement → Prop where
  | exit (bb : Basic_block) (hb : g.vb v = some bb) (hk : bb.kind = .Exit_block) :
      Chunk g labels v []
  | jump (bb : Basic_block) (lv n ln : Nat) (hb : g.vb v = some bb)
      (hk : bb.kind = .Entry_block ∨ bb.kind = .Empty_block)
      (hlv : labels.lookup v = some lv) (hn : g.get_successor v = .ok n)
      (hln : labels.lookup n = some ln) :
      Chunk g labels v [.Label lv, .Goto ln]
  | stmt (bb : Basic_block) (s : Statement) (lv n ln : Nat) (hb : g.vb v = some bb)
      (hk : bb.kind = .Statement_block s)
      (hlv : labels.lookup v = some lv) (hn : g.get_successor v = .ok n)
      (hln : labels.lookup n = some ln) :
      Chunk g labels v [.Label lv, s, .Goto ln]
  | branch (bb : Basic_block) (c t0 f0 lv t f lt lf : Nat) (hb : g.vb v = some bb)
      (hk : bb.kind = .Branch_block c t0 f0)
      (hlv : labels.lookup v = some lv)
      (ht : g.get_true_successor v = .ok t) (hf : g.get_false_successor v = .ok f)
      (hlt : labels.lookup t = some lt) (hlf : labels.lookup f = some lf) :
      Chunk g labels v [.Label lv, .Branch c lt lf]

/-- Is the statement a `Goto`? -/
def Statement.is_goto : Statement → Bool
  | .Goto _ => true
  | _ => false

/-- Every goto of the list is followed by a label, and the list does not end
in a goto. -/
def goto_then_label : List Statement → Prop
  | [] => True
  | [x] => x.is_goto = false
  | x :: y :: r => (x.is_goto = true → y.is_label = true) ∧ goto_then_label (y :: r)

/-- The references to a label name in a statement: those of `label_count`
that are not the declaration of the label. -/
def Statement.ref_count (name : Nat) : Statement → Nat
  | .Goto l => if l == name then 1 else 0
  | .Branch _ t f => (if t == name then 1 else 0) + (if f == name then 1 else 0)
  | _ => 0

/-- The names of the `Label` statements of a list, in order. -/
def declared_labels (l : List Statement) : List Nat :=
  l.filterMap (fun s => match s with
    | .Label m => some m
    | _ => none)

/-- Statement blocks hold no `Label`, `Goto` or `Branch`: the builder turns
those into Empty and Branch blocks. -/
def CFG.statements_plain (g : CFG) : Bool :=
  g.blocks.all (fun b =>
    match b.kind with
    | .Statement_block s => !s.is_control
    | _ => true)

/-- The vertex `exit` is in the graph and its block is an Exit block. -/
def CFG.exit_is_exit (g : CFG) : Bool :=
  match g.vb g.exit with
  | some b => b.kind.is_exit
  | none => false

/-- The label `discover_vertex` declares for a vertex: none for an Exit
block. -/
def Linearizer.declared (g : CFG) (labels : List (Nat × Nat)) (v : Nat) : Option Nat :=
  match g.vb v with
  | some bb => if bb.kind.is_exit then none else labels.lookup v
  | none => none

/-- The entry block is the first vertex of the graph, and it is an Entry
block. -/
def CFG.entry_first (g : CFG) : Bool :=
  g.get_all_bbs.head? == some g.entry &&
    match g.vb g.entry with
    | some b => b.kind.is_entry
    | none => false

/-- The source of every edge is a vertex of the graph. -/
def CFG.sources_in_graph (g : CFG) : Bool :=
  g.edges.all (fun e => g.get_all_bbs.contains e.source)

/-- Every block except the entry block has an incoming edge. -/
def CFG.reached (g : CFG) : Bool :=
  g.get_all_bbs.all (fun v => v == g.entry || !(g.in_edges v).isEmpty)

/-- An Exit block has no outgoing edge. -/
def CFG.exits_closed (g : CFG) : Bool :=
  g.blocks.all (fun b => !b.kind.is_exit || (g.out_edges b.vertex).isEmpty)

/-- A Branch block has exactly two outgoing edges, one tagged True and one
tagged False. -/
def CFG.branches_two_way (g : CFG) : Bool :=
  g.blocks.all (fun b => !b.kind.is_branch ||
    ((g.out_edges b.vertex).map (fun e => e.direction) == [some true, some false]
      || (g.out_edges b.vertex).map (fun e => e.direction) == [some false, some true]))

/-- Does the list begin with a `Label`? -/
def head_is_label : List Statement → Bool
  | .Label _ :: _ => true
  | _ => false

/-- A graph with an Empty block that nothing leads to: `Entry → x → Exit`, and
an Empty block with an edge to the exit block. -/
def stray_block_graph : CFG where
  blocks := [⟨0, .Entry_block, []⟩, ⟨1, .Exit_block, []⟩, ⟨2, .Statement_block (.Other 7), []⟩,
    ⟨3, .Empty_block, []⟩]
  edges := [⟨0, 0, 2, none⟩, ⟨1, 2, 1, none⟩, ⟨2, 3, 1, none⟩]
  entry := 0
  exit := 1
  next_vertex := 4
  next_edge := 3

/-- The graph built for
`[Branch (0, 1, 2), Label 1, x, Goto 3, Label 2, y, Label 3]`: a Branch block
whose two successors both lead to the exit block. -/
def diamond_graph : CFG where
  blocks := [⟨0, .Entry_block, []⟩, ⟨1, .Exit_block, []⟩, ⟨2, .Branch_block 0 1 2, []⟩,
    ⟨4, .Statement_block (.Other 8), []⟩, ⟨7, .Statement_block (.Other 9), []⟩]
  edges := [⟨0, 0, 2, none⟩, ⟨9, 2, 4, some true⟩, ⟨11, 2, 7, some false⟩, ⟨12, 7, 1, none⟩,
    ⟨13, 4, 1, none⟩]
  entry := 0
  exit := 1
  next_vertex := 9
  next_edge := 14

/-- The coloured vertices are vertices of the graph, each listed once. -/
def Coloured (g : CFG) (col : List Nat) : Prop :=
  col.Nodup ∧ ∀ v ∈ col, v ∈ g.get_all_bbs

/-- The graph built from `[a, Goto L, b, Label L, c]` before `tidy_up`: the
block of `b` (vertex 4) has no incoming edge. -/
def jump_over_untidied (a b c : Statement) : CFG where
  blocks := [⟨0, .Entry_block, []⟩, ⟨1, .Exit_block, []⟩, ⟨2, .Statement_block a, []⟩,
    ⟨3, .Empty_block, []⟩, ⟨4, .Statement_block b, []⟩, ⟨5, .Empty_block, []⟩,
    ⟨6, .Statement_block c, []⟩]
  edges := [⟨0, 0, 2, none⟩, ⟨1, 2, 3, none⟩, ⟨2, 3, 5, none⟩, ⟨3, 4, 5, none⟩,
    ⟨4, 5, 6, none⟩, ⟨5, 6, 1, none⟩]
  entry := 0
  exit := 1
  next_vertex := 7
  next_edge := 6

/-- The graph built from `[a, Goto L, b, Label L, c]`. -/
def jump_over_built (a c : Statement) : CFG where
  blocks := [⟨0, .Entry_block, []⟩, ⟨1, .Exit_block, []⟩, ⟨2, .Statement_block a, []⟩,
    ⟨6, .Statement_block c, []⟩]
  edges := [⟨0, 0, 2, none⟩, ⟨5, 6, 1, none⟩, ⟨7, 2, 6, none⟩]
  entry := 0
  exit := 1
  next_vertex := 7
  next_edge := 8

/-- Descriptors are never reused: every vertex in use is below the next vertex,
every edge in use is below the next edge and joins two such vertices, and no
two edges share a descriptor. -/
def CFG.ids_fresh (g : CFG) : Prop :=
  (∀ b ∈ g.blocks, b.vertex < g.next_vertex)
    ∧ (∀ e ∈ g.edges, e.edge < g.next_edge ∧ e.source < g.next_vertex ∧ e.target < g.next_vertex)
    ∧ (g.edges.map (fun e => e.edge)).Nodup

instance (g : CFG) : Decidable g.ids_fresh := by
  unfold CFG.ids_fresh
  infer_instance

/-- The graph `add_bb_between` makes when `current_edge` is the edge it finds. -/
def CFG.with_bb_between (g : CFG) (source target : Nat) (new_bb : New_block)
    (current_edge : Edge) : CFG where
  blocks := g.blocks ++ [⟨g.next_vertex, new_bb.kind, new_bb.phis⟩]
  edges := g.edges.filter (fun x => !(x.edge == current_edge.edge))
    ++ [⟨g.next_edge, source, g.next_vertex, current_edge.direction⟩,
        ⟨g.next_edge + 1, g.next_vertex, target, none⟩]
  entry := g.entry
  exit := g.exit
  next_vertex := g.next_vertex + 1
  next_edge := g.next_edge + 2

/-- Is the block a Statement block? -/
def BB_kind.is_statement : BB_kind → Bool
  | .Statement_block _ => true
  | _ => false

/-- The number of arguments of all the phi nodes of a list of blocks. -/
def phi_arg_count (blocks : List Basic_block) : Nat :=
  (blocks.map (fun b => (b.phis.map (fun p => p.args.length)).sum)).sum

/-- The graph `g2` is `g` with the blocks `ins` spliced into edges: the
descriptors of `g2` are not reused, its blocks are those of `g` followed by
`ins`, every block of `ins` is a Statement block without phi nodes with one
incoming and one outgoing edge, and the blocks of `g` have kept their
degrees. -/
def Grown (g g2 : CFG) (ins : List Basic_block) : Prop :=
  g2.ids_fresh
    ∧ g2.blocks = g.blocks ++ ins
    ∧ g2.next_vertex = g.next_vertex + ins.length
    ∧ (∀ b ∈ ins, b.phis = [] ∧ b.kind.is_statement = true ∧ g.next_vertex ≤ b.vertex)
    ∧ (∀ v, v < g.next_vertex →
        (g2.in_edges v).length = (g.in_edges v).length
          ∧ (g2.out_edges v).length = (g.out_edges v).length)
    ∧ (∀ v, g.next_vertex ≤ v → v < g2.next_vertex →
        (g2.in_edges v).length = 1 ∧ (g2.out_edges v).length = 1)

/-- The number of edges from `p` to `bb`. -/
def CFG.edge_count (g : CFG) (p bb : Nat) : Nat :=
  (g.edges.filter (fun x => x.source == p && x.target == bb)).length

/-- The graph with the phi nodes of the blocks at `vs` stripped. -/
def CFG.strip_phis (g : CFG) (vs : List Nat) : CFG :=
  { g with blocks := g.blocks.map (fun b => if b.vertex ∈ vs then { b with phis := [] } else b) }

/-- A diamond in SSA form: the Branch block 2 goes to the blocks 3 and 4, which
meet in block 5; block 5 holds one phi node with an argument for each of its
two incoming edges. -/
def phi_join_graph : CFG where
  blocks := [⟨0, .Entry_block, []⟩, ⟨1, .Exit_block, []⟩, ⟨2, .Branch_block 0 7 8, []⟩,
    ⟨3, .Statement_block (.Assign_var 11 1), []⟩, ⟨4, .Statement_block (.Assign_var 12 2), []⟩,
    ⟨5, .Statement_block (.Other 9), [⟨13, [(3, 11), (4, 12)]⟩]⟩]
  edges := [⟨0, 0, 2, none⟩, ⟨1, 2, 3, some true⟩, ⟨2, 2, 4, some false⟩, ⟨3, 3, 5, none⟩,
    ⟨4, 4, 5, none⟩, ⟨5, 5, 1, none⟩]
  entry := 0
  exit := 1
  next_vertex := 6
  next_edge := 6

/-- Two blocks lead to block 4, which holds two phi nodes with an argument for
each incoming edge; block 3 has no predecessor. -/
def stray_phi_graph : CFG where
  blocks := [⟨0, .Entry_block, []⟩, ⟨1, .Exit_block, []⟩, ⟨2, .Statement_block (.Other 7), []⟩,
    ⟨3, .Statement_block (.Other 8), []⟩,
    ⟨4, .Statement_block (.Other 9), [⟨20, [(1, 21), (2, 22)]⟩, ⟨30, [(1, 31), (2, 32)]⟩]⟩]
  edges := [⟨0, 0, 2, none⟩, ⟨1, 2, 4, none⟩, ⟨2, 3, 4, none⟩, ⟨3, 4, 1, none⟩]
  entry := 0
  exit := 1
  next_vertex := 5
  next_edge := 4

/-- Three blocks lead to block 5, which holds two phi nodes with an argument
for each incoming edge; block 4 has no predecessor. -/
def stray_phi_graph3 : CFG where
  blocks := [⟨0, .Entry_block, []⟩, ⟨1, .Exit_block, []⟩, ⟨2, .Branch_block 0 5 6, []⟩,
    ⟨3, .Statement_block (.Other 7), []⟩, ⟨4, .Statement_block (.Other 8), []⟩,
    ⟨5, .Statement_block (.Other 9),
      [⟨20, [(2, 21), (3, 22), (4, 23)]⟩, ⟨30, [(2, 31), (3, 32), (4, 33)]⟩]⟩]
  edges := [⟨0, 0, 2, none⟩, ⟨1, 2, 3, some true⟩, ⟨2, 2, 5, some false⟩, ⟨3, 3, 5, none⟩,
    ⟨4, 4, 5, none⟩, ⟨5, 5, 1, none⟩]
  entry := 0
  exit := 1
  next_vertex := 6
  next_edge := 6

/-- Is the statement a Goto or a Branch? -/
def Statement.is_jump : Statement → Bool
  | .Goto _ => true
  | .Branch _ _ _ => true
  | _ => false

/-- The labels a statement jumps to. -/
def Statement.targets : Statement → List Nat
  | .Goto l => [l]
  | .Branch _ t f => [t, f]
  | _ => []

/-- Every label a Goto or a Branch of the list names is the label of a Label
statement of the list. -/
def labels_defined (ss : List Statement) : Prop :=
  ∀ s ∈ ss, ∀ l ∈ s.targets, Statement.Label l ∈ ss

instance (ss : List Statement) : Decidable (labels_defined ss) := by
  unfold labels_defined
  infer_instance

/-- The edge pass of `CFG::add_statements`, on the graph and the maps of the
node pass: the graph, `parent` and `use_parent` when the loop is left. -/
def CFG.edge_pass (g : CFG) (statements : List Statement) : Except Err (CFG × Nat × Bool) :=
  CFG.create_edges (CFG.create_nodes statements g []).2.1
    (statements.zip (CFG.create_nodes statements g []).2.2)
    (CFG.create_nodes statements g []).1 (CFG.create_nodes statements g []).1.entry true

/-- The value of `use_parent` after the edge pass over the statements. -/
def final_use_parent : List (Statement × Nat) → Bool → Bool
  | [], use_parent => use_parent
  | (s, _) :: rest, _ => final_use_parent rest (!s.is_jump)

/-- The value of `parent` after the edge pass over the statements. -/
def final_parent : List (Statement × Nat) → Nat → Nat
  | [], parent => parent
  | (s, v) :: rest, parent => final_parent rest (if s.is_jump then parent else v)

/-- The edges the loop over the predecessors adds in the non-empty path of
`replace_bb`: one for every old edge, in order, from the same source and with
the same direction, into the front block. -/
def attached_edges (front : Nat) : Nat → List Edge → List Edge
  | _, [] => []
  | e0, old_edge :: rest =>
    ⟨e0, old_edge.source, front, old_edge.direction⟩ :: attached_edges front (e0 + 1) rest

/-- The edges along a chain of `m + 1` blocks that starts at the vertex `v` and
ends with an edge to `succ`. -/
def link_edges (succ : Nat) : Nat → Nat → Nat → List Edge
  | e0, v, 0 => [⟨e0, v, succ, none⟩]
  | e0, v, m + 1 => ⟨e0, v, v + 1, none⟩ :: link_edges succ (e0 + 1) (v + 1) m

/-- The blocks `add_bb` makes for a list of block objects, from the vertex `v0`
on. -/
def chain_blocks : Nat → List New_block → List Basic_block
  | _, [] => []
  | v0, r :: rest => ⟨v0, r.kind, r.phis⟩ :: chain_blocks (v0 + 1) rest

/-- The targets of the phi nodes of a block. -/
def CFG.phi_targets (g : CFG) (bb : Nat) : List Nat :=
  (g.get_phi_nodes bb).map (fun p => p.lhs)

/-- The number of the pairs of a block and a variable for which the block has
no phi node. -/
def CFG.missing_phis (g : CFG) (pairs : List (Nat × Nat)) : Nat :=
  (pairs.filter (fun p => !(g.has_phi_function p.1 p.2))).length

/-- What the worklist loop keeps true, between two blocks taken from the
worklist: `g0` is the graph at the start, `g` the graph now, `remaining` the
worklist from the iterator on. -/
def Worklist_inv (g0 : CFG) (df defs : Nat → List Nat) (g : CFG) (remaining : List Nat) :
    Prop :=
  g.get_all_bbs = g0.get_all_bbs
    ∧ g.edges = g0.edges
    ∧ (∀ b ∈ remaining, b ∈ g0.get_all_bbs)
    ∧ (∀ b ∈ g0.get_all_bbs, ∀ v ∈ g.def_list defs b, v ∈ g0.defined_vars defs)
    ∧ (∀ b ∈ g0.get_all_bbs, b ∈ remaining
        ∨ ∀ v ∈ g.def_list defs b, ∀ f ∈ df b, v ∈ g.phi_targets f)
    ∧ (∀ f v, v ∈ g.phi_targets f →
        v ∈ g0.phi_targets f ∨ ∃ b ∈ g0.get_all_bbs, f ∈ df b ∧ v ∈ g.def_list defs b)
    ∧ (∀ b v, v ∈ g0.phi_targets b → v ∈ g.phi_targets b)

/-- The only Exit block of the graph is the block at the vertex `exit`: the
constructor makes the one Exit block there is. -/
def CFG.exit_only (g : CFG) : Bool :=
  g.blocks.all (fun b => !b.kind.is_exit || b.vertex == g.exit)

/-! # Theorems -/

/-! ## The builder on straight-line code -/

theorem create_nodes_plain (ss : List Statement) (h : ∀ s ∈ ss, s.is_control = false)
    (g : CFG) (labels : List (Nat × Nat)) :
    CFG.create_nodes ss g labels =
      ({ g with blocks := g.blocks ++ stmt_blocks g.next_vertex ss,
                next_vertex := g.next_vertex + ss.length },
       labels, List.range' g.next_vertex ss.length) := by
  induction ss generalizing g with
  | nil => simp [CFG.create_nodes, stmt_blocks]
  | cons s rest ih =>
    have hs : s.is_control = false := h s (by simp)
    have hr : ∀ x ∈ rest, x.is_control = false := fun x hx => h x (by simp [hx])
    cases s <;> simp [Statement.is_control] at hs <;>
      simp [CFG.create_nodes, ih hr, CFG.add_bb, stmt_blocks, List.range'] <;> omega

theorem create_edges_plain (labels : List (Nat × Nat)) (ss : List Statement)
    (h : ∀ s ∈ ss, s.is_control = false) (g : CFG) (parent v0 : Nat) :
    ∃ g2 p, CFG.create_edges labels (ss.zip (List.range' v0 ss.length)) g parent true
        = .ok (g2, p, true)
      ∧ ∀ ex, (g2.add_edge p ex).1 =
          { g with edges := g.edges ++ chain_edges ex g.next_edge parent v0 ss,
                   next_edge := g.next_edge + ss.length + 1 } := by
  induction ss generalizing g parent v0 with
  | nil =>
    exact ⟨g, parent, by simp [CFG.create_edges], by
      intro ex; simp [chain_edges, CFG.add_edge, CFG.add_edge_dir]⟩
  | cons s rest ih =>
    have hs : s.is_control = false := h s (by simp)
    have hr : ∀ x ∈ rest, x.is_control = false := fun x hx => h x (by simp [hx])
    obtain ⟨g2, p, h1, h2⟩ := ih hr (g.add_edge parent v0).1 v0 (v0 + 1)
    refine ⟨g2, p, ?_, ?_⟩
    · cases s <;> simp [Statement.is_control] at hs <;>
        (simp only [List.length_cons, List.range'_succ, List.zip_cons_cons, CFG.create_edges]
         exact h1)
    · intro ex
      rw [h2 ex]
      simp [chain_edges, CFG.add_edge, CFG.add_edge_dir]
      omega

theorem stmt_blocks_vertex_ge (v0 : Nat) (ss : List Statement) :
    ∀ b ∈ stmt_blocks v0 ss, v0 ≤ b.vertex := by
  induction ss generalizing v0 with
  | nil => simp [stmt_blocks]
  | cons s rest ih =>
    intro b hb
    simp only [stmt_blocks, List.mem_cons] at hb
    rcases hb with hb | hb
    · simp [hb]
    · have := ih (v0 + 1) b hb
      omega

theorem stmt_blocks_find (pre : List Statement) (s : Statement) (rest : List Statement)
    (v0 : Nat) :
    (stmt_blocks v0 (pre ++ s :: rest)).find? (fun b => b.vertex == v0 + pre.length)
      = some { vertex := v0 + pre.length, kind := .Statement_block s, phis := [] } := by
  induction pre generalizing v0 with
  | nil => simp [stmt_blocks]
  | cons a pre ih =>
    have h := ih (v0 + 1)
    simp only [List.cons_append, stmt_blocks, List.length_cons]
    rw [List.find?_cons_of_neg]
    · rw [show v0 + (pre.length + 1) = v0 + 1 + pre.length by omega]
      exact h
    · simp

theorem stmt_blocks_map_vertex (v0 : Nat) (ss : List Statement) :
    (stmt_blocks v0 ss).map (fun b => b.vertex) = List.range' v0 ss.length := by
  induction ss generalizing v0 with
  | nil => simp [stmt_blocks]
  | cons s rest ih => simp [stmt_blocks, ih, List.range'_succ]

theorem chain_edges_source (ex e0 p v0 : Nat) (ss : List Statement) :
    ∀ e ∈ chain_edges ex e0 p v0 ss, e.source = p ∨ v0 ≤ e.source := by
  induction ss generalizing e0 p v0 with
  | nil => simp [chain_edges]
  | cons s rest ih =>
    intro e he
    simp only [chain_edges, List.mem_cons] at he
    rcases he with he | he
    · simp [he]
    · rcases ih (e0 + 1) v0 (v0 + 1) e he with h | h
      · right; omega
      · right; omega

theorem chain_edges_out_head (ex e0 p v0 : Nat) (ss : List Statement) (hp : p < v0) :
    (chain_edges ex e0 p v0 ss).filter (fun e => e.source == p)
      = [{ edge := e0, source := p, target := next_vertex_of ex v0 ss, direction := none }] := by
  cases ss with
  | nil => simp [chain_edges, next_vertex_of]
  | cons s rest =>
    simp only [chain_edges, next_vertex_of]
    rw [List.filter_cons_of_pos (by simp)]
    congr 1
    rw [List.filter_eq_nil_iff]
    intro e he
    rcases chain_edges_source ex (e0 + 1) v0 (v0 + 1) rest e he with h | h <;>
      simp <;> omega

theorem chain_edges_out_mid (ex : Nat) (pre : List Statement) (s : Statement)
    (rest : List Statement) (e0 p v0 : Nat) (hp : p < v0) :
    (chain_edges ex e0 p v0 (pre ++ s :: rest)).filter (fun e => e.source == v0 + pre.length)
      = [{ edge := e0 + pre.length + 1, source := v0 + pre.length,
           target := next_vertex_of ex (v0 + pre.length + 1) rest, direction := none }] := by
  induction pre generalizing e0 p v0 with
  | nil =>
    simp only [List.nil_append, chain_edges, List.length_nil, Nat.add_zero]
    rw [List.filter_cons_of_neg (by simp; omega)]
    exact chain_edges_out_head ex (e0 + 1) v0 (v0 + 1) rest (by omega)
  | cons a pre ih =>
    simp only [List.cons_append, chain_edges, List.length_cons]
    rw [List.filter_cons_of_neg (by simp; omega)]
    have h := ih (e0 + 1) v0 (v0 + 1) (by omega)
    rw [show v0 + (pre.length + 1) = v0 + 1 + pre.length by omega,
      show e0 + (pre.length + 1) + 1 = e0 + 1 + pre.length + 1 by omega]
    exact h

theorem chain_edges_in_mid (ex : Nat) (pre : List Statement) (s : Statement)
    (rest : List Statement) (e0 p v0 : Nat) :
    ∃ e ∈ chain_edges ex e0 p v0 (pre ++ s :: rest), e.target = v0 + pre.length := by
  induction pre generalizing e0 p v0 with
  | nil =>
    exact ⟨{ edge := e0, source := p, target := v0, direction := none },
      by simp [chain_edges], rfl⟩
  | cons a pre ih =>
    obtain ⟨e, he, ht⟩ := ih (e0 + 1) v0 (v0 + 1)
    refine ⟨e, ?_, ?_⟩
    · simp only [List.cons_append, chain_edges, List.mem_cons]
      exact Or.inr he
    · simp only [List.length_cons]; omega

theorem build_eq (ss : List Statement) : CFG.build ss = initial_graph.add_statements ss := rfl

theorem add_statements_plain (ss : List Statement) (h : ∀ s ∈ ss, s.is_control = false) :
    initial_graph.add_statements ss =
      match (straight_graph ss).tidy_up with
      | .error x => .error x
      | .ok g3 => if g3.consistency_check then .ok g3 else .error .assertion := by
  unfold CFG.add_statements
  rw [create_nodes_plain ss h]
  obtain ⟨g2, p, h1, h2⟩ := create_edges_plain [] ss h
    { initial_graph with
      blocks := initial_graph.blocks ++ stmt_blocks initial_graph.next_vertex ss,
      next_vertex := initial_graph.next_vertex + ss.length } 0 2
  have hex : g2.exit = 1 := by
    have := congrArg CFG.exit (h2 0)
    simpa [CFG.add_edge, CFG.add_edge_dir, initial_graph] using this
  have h3 : (g2.add_edge p g2.exit).1 = straight_graph ss := by
    rw [hex, h2 1]
    simp [straight_graph, initial_graph]
  simp only []
  have h1b : CFG.create_edges [] (ss.zip (List.range' initial_graph.next_vertex ss.length))
      { initial_graph with
        blocks := initial_graph.blocks ++ stmt_blocks initial_graph.next_vertex ss,
        next_vertex := initial_graph.next_vertex + ss.length } initial_graph.entry true
      = .ok (g2, p, true) := h1
  rw [h1b]
  simp only [Bool.not_true, Bool.false_eq_true, if_false, h3]

/-! ## The clean-up pass -/

theorem consistency_check_true (g : CFG) : g.consistency_check = true := by
  unfold CFG.consistency_check
  rw [List.all_eq_true]
  intro v hv
  simp only [CFG.get_all_bbs, List.mem_map] at hv
  obtain ⟨b, hb, hbv⟩ := hv
  cases h : g.vb v with
  | none =>
    unfold CFG.vb at h
    rw [List.find?_eq_none] at h
    exact absurd (by simp [hbv]) (h b hb)
  | some b2 =>
    unfold CFG.vb at h
    simpa using List.find?_some h

theorem tidy_sweep_keeps (vs : List Nat) (g : CFG) (again : Bool)
    (h : ∀ v ∈ vs, g.keeps v = true) : CFG.tidy_sweep vs g again = .ok (g, again) := by
  induction vs with
  | nil => rfl
  | cons v rest ih =>
    have hv := h v (by simp)
    have hr := ih (fun x hx => h x (by simp [hx]))
    unfold CFG.keeps at hv
    unfold CFG.tidy_sweep
    cases hb : g.vb v with
    | none => simp [hb] at hv
    | some bb =>
      simp only [hb] at hv ⊢
      by_cases h1 : (bb.kind.is_entry || bb.kind.is_exit) = true
      · simp only [h1, if_true]; exact hr
      · simp only [h1, if_false]
        by_cases h2 : bb.phis.length > 0
        · simp only [h2, if_true]; exact hr
        · simp only [h2, if_false]
          have h3 : (bb.kind.is_empty || (g.get_bb_predecessors v).length == 0
              || (g.get_bb_successors v).length == 0) = false := by
            simp only [Bool.not_eq_true] at h1
            simp only [h1, h2, decide_False, Bool.false_or, Bool.not_eq_true'] at hv
            exact hv
          simp only [h3, Bool.false_eq_true, if_false]
          exact hr

theorem tidy_sweep_again (vs : List Nat) (g g2 : CFG) (b : Bool)
    (h : CFG.tidy_sweep vs g true = .ok (g2, b)) : b = true := by
  induction vs generalizing g with
  | nil => simp [CFG.tidy_sweep] at h; exact h.2
  | cons v rest ih =>
    unfold CFG.tidy_sweep at h
    cases hb : g.vb v with
    | none => simp [hb] at h
    | some bb =>
      simp only [hb] at h
      split at h
      · exact ih g h
      · split at h
        · exact ih g h
        · split at h
          · split at h
            · simp at h
            · cases hr : g.remove v with
              | error x => simp [hr] at h
              | ok g1 => simp only [hr] at h; exact ih g1 h
          · exact ih g h

theorem tidy_sweep_unchanged (vs : List Nat) (g g2 : CFG)
    (h : CFG.tidy_sweep vs g false = .ok (g2, false)) :
    g2 = g ∧ ∀ v ∈ vs, g.keeps v = true := by
  induction vs with
  | nil => simp [CFG.tidy_sweep] at h; exact ⟨h.symm, by simp⟩
  | cons v rest ih =>
    unfold CFG.tidy_sweep at h
    cases hb : g.vb v with
    | none => simp [hb] at h
    | some bb =>
      simp only [hb] at h
      split at h
      · rename_i h1
        obtain ⟨e, hk⟩ := ih h
        refine ⟨e, ?_⟩
        intro x hx
        rcases List.mem_cons.1 hx with hx | hx
        · subst hx; unfold CFG.keeps; simp only [hb]; simp only [Bool.or_eq_true] at h1 ⊢; tauto
        · exact hk x hx
      · split at h
        · rename_i h1 h2
          obtain ⟨e, hk⟩ := ih h
          refine ⟨e, ?_⟩
          intro x hx
          rcases List.mem_cons.1 hx with hx | hx
          · subst hx; unfold CFG.keeps; simp only [hb]; simp [h2]
          · exact hk x hx
        · split at h
          · split at h
            · simp at h
            · cases hr : g.remove v with
              | error x => simp [hr] at h
              | ok g1 =>
                simp only [hr] at h
                exact absurd (tidy_sweep_again rest g1 g2 false h) (by simp)
          · rename_i h1 h2 h3
            obtain ⟨e, hk⟩ := ih h
            refine ⟨e, ?_⟩
            intro x hx
            rcases List.mem_cons.1 hx with hx | hx
            · subst hx; unfold CFG.keeps; simp only [hb]
              simp only [Bool.not_eq_true] at h3
              simp [h3]
            · exact hk x hx

theorem tidy_up_keeps (g : CFG) (h : ∀ v ∈ g.get_all_bbs, g.keeps v = true) :
    g.tidy_up = .ok g := by
  unfold CFG.tidy_up CFG.tidy_loop
  rw [tidy_sweep_keeps _ _ _ h]

/-! ## The builder on straight-line code: result -/

theorem list_split_at (ss : List Statement) (k : Nat) (hk : k < ss.length) :
    ∃ pre s rest, ss = pre ++ s :: rest ∧ pre.length = k := by
  induction ss generalizing k with
  | nil => simp at hk
  | cons a r ih =>
    cases k with
    | zero => exact ⟨[], a, r, rfl, rfl⟩
    | succ k =>
      obtain ⟨pre, s, rest, h1, h2⟩ := ih k (by simpa using hk)
      exact ⟨a :: pre, s, rest, by simp [h1], by simp [h2]⟩

theorem straight_get_all_bbs (ss : List Statement) :
    (straight_graph ss).get_all_bbs = 0 :: 1 :: List.range' 2 ss.length := by
  simp [CFG.get_all_bbs, straight_graph, stmt_blocks_map_vertex]

theorem straight_vb_entry (ss : List Statement) :
    (straight_graph ss).vb 0 = some { vertex := 0, kind := .Entry_block, phis := [] } := by
  simp [CFG.vb, straight_graph]

theorem straight_vb_exit (ss : List Statement) :
    (straight_graph ss).vb 1 = some { vertex := 1, kind := .Exit_block, phis := [] } := by
  simp [CFG.vb, straight_graph]

theorem straight_vb_mid (pre : List Statement) (s : Statement) (rest : List Statement) :
    (straight_graph (pre ++ s :: rest)).vb (2 + pre.length)
      = some { vertex := 2 + pre.length, kind := .Statement_block s, phis := [] } := by
  simp only [CFG.vb, straight_graph]
  have h0 : ((0 : Nat) == 2 + pre.length) = false := by
    rw [beq_eq_false_iff_ne]; omega
  have h1 : ((1 : Nat) == 2 + pre.length) = false := by
    rw [beq_eq_false_iff_ne]; omega
  simp only [List.find?_cons, h0, h1]
  exact stmt_blocks_find pre s rest 2

theorem straight_out_entry (ss : List Statement) :
    (straight_graph ss).out_edges 0
      = [{ edge := 0, source := 0, target := next_vertex_of 1 2 ss, direction := none }] := by
  simp only [CFG.out_edges, straight_graph]
  exact chain_edges_out_head 1 0 0 2 ss (by omega)

theorem straight_out_exit (ss : List Statement) : (straight_graph ss).out_edges 1 = [] := by
  simp only [CFG.out_edges, straight_graph]
  rw [List.filter_eq_nil_iff]
  intro e he
  rcases chain_edges_source 1 0 0 2 ss e he with h | h <;> simp <;> omega

theorem straight_out_mid (pre : List Statement) (s : Statement) (rest : List Statement) :
    (straight_graph (pre ++ s :: rest)).out_edges (2 + pre.length)
      = [{ edge := pre.length + 1, source := 2 + pre.length,
           target := next_vertex_of 1 (2 + pre.length + 1) rest, direction := none }] := by
  simp only [CFG.out_edges, straight_graph]
  have h := chain_edges_out_mid 1 pre s rest 0 0 2 (by omega)
  simpa using h

theorem straight_keeps (ss : List Statement) :
    ∀ v ∈ (straight_graph ss).get_all_bbs, (straight_graph ss).keeps v = true := by
  intro v hv
  rw [straight_get_all_bbs] at hv
  simp only [List.mem_cons, List.mem_range'_1] at hv
  rcases hv with hv | hv | hv
  · subst hv; simp [CFG.keeps, straight_vb_entry, BB_kind.is_entry]
  · subst hv; simp [CFG.keeps, straight_vb_exit, BB_kind.is_exit, BB_kind.is_entry]
  · obtain ⟨pre, s, rest, h1, h2⟩ := list_split_at ss (v - 2) (by omega)
    have hv2 : v = 2 + pre.length := by omega
    subst h1
    subst hv2
    unfold CFG.keeps
    rw [straight_vb_mid]
    simp only [BB_kind.is_entry, BB_kind.is_exit, BB_kind.is_empty, CFG.get_bb_successors,
      straight_out_mid, CFG.get_bb_predecessors]
    obtain ⟨e, he, ht⟩ := chain_edges_in_mid 1 pre s rest 0 0 2
    have hin : e ∈ (straight_graph (pre ++ s :: rest)).in_edges (2 + pre.length) := by
      simp only [CFG.in_edges, straight_graph, List.mem_filter]
      exact ⟨he, by simp [ht]⟩
    have hlen : ((straight_graph (pre ++ s :: rest)).in_edges (2 + pre.length)).length ≠ 0 := by
      intro h0
      rw [List.length_eq_zero] at h0
      rw [h0] at hin
      simp at hin
    simp [hlen]

theorem straight_tidy_up (ss : List Statement) :
    (straight_graph ss).tidy_up = .ok (straight_graph ss) :=
  tidy_up_keeps _ (straight_keeps ss)

theorem build_plain (ss : List Statement) (h : ∀ s ∈ ss, s.is_control = false) :
    CFG.build ss = .ok (straight_graph ss) := by
  rw [build_eq, add_statements_plain ss h, straight_tidy_up]
  simp [consistency_check_true]

/-! ## The linearizer on straight-line code -/

theorem initialize_vertex_range (m a c : Nat) (acc : List (Nat × Nat)) (v : Nat) :
    (Linearizer.initialize_vertex (List.range' a m) c acc).lookup v
      = if a ≤ v ∧ v < a + m then some (c + (v - a)) else acc.lookup v := by
  induction m generalizing a c acc with
  | zero =>
    simp only [List.range'_zero, Linearizer.initialize_vertex]
    rw [if_neg (by omega)]
  | succ m ih =>
    simp only [List.range'_succ, Linearizer.initialize_vertex]
    rw [ih]
    by_cases h1 : a + 1 ≤ v ∧ v < a + 1 + m
    · rw [if_pos h1, if_pos (by omega)]
      congr 1
      omega
    · rw [if_neg h1]
      by_cases h2 : v = a
      · subst h2
        rw [if_pos (by omega)]
        simp [List.lookup]
      · rw [if_neg (by omega)]
        simp only [List.lookup]
        have : (v == a) = false := by rw [beq_eq_false_iff_ne]; exact h2
        simp [this]

theorem straight_labels (ss : List Statement) (c0 v : Nat) (hv : v < 2 + ss.length) :
    (Linearizer.initialize_vertex (straight_graph ss).get_all_bbs c0 []).lookup v
      = some (c0 + v) := by
  have h : (straight_graph ss).get_all_bbs = List.range' 0 (2 + ss.length) := by
    rw [straight_get_all_bbs, show 2 + ss.length = ss.length + 1 + 1 by omega,
      List.range'_succ, List.range'_succ]
  rw [h, initialize_vertex_range, if_pos (by omega)]
  simp

theorem straight_visit (c0 : Nat) (labels : List (Nat × Nat)) (rest : List Statement) :
    ∀ (pre : List Statement) (v0 fuel : Nat) (col : List Nat) (stmts : List Statement),
      v0 = 2 + pre.length → rest.length + 1 ≤ fuel →
      (∀ v ∈ col, v ≠ 1 ∧ v < v0) →
      (∀ v, v < v0 + rest.length → labels.lookup v = some (c0 + v)) →
      ∃ col2, depth_first_visit (straight_graph (pre ++ rest)) labels fuel
            (next_vertex_of 1 v0 rest) (col, stmts)
          = .ok (col2, stmts ++ straight_emit c0 v0 rest)
        ∧ 1 ∈ col2 ∧ (∀ v ∈ col, v ∈ col2)
        ∧ (∀ v, v0 ≤ v → v < v0 + rest.length → v ∈ col2) := by
  induction rest with
  | nil =>
    intro pre v0 fuel col stmts hv0 hfuel hcol hlab
    obtain ⟨f, rfl⟩ : ∃ f, fuel = f + 1 := ⟨fuel - 1, by simp at hfuel; omega⟩
    refine ⟨1 :: col, ?_, by simp, fun v hv => by simp [hv], fun v h1 h2 => by simp at h2; omega⟩
    simp [depth_first_visit, next_vertex_of, Linearizer.discover_vertex, straight_vb_exit,
      Linearizer.emit, BB_kind.is_exit, BB_kind.is_branch, straight_out_exit, visit_out_edges,
      straight_emit]
  | cons s r ih =>
    intro pre v0 fuel col stmts hv0 hfuel hcol hlab
    obtain ⟨f, rfl⟩ : ∃ f, fuel = f + 1 := ⟨fuel - 1, by simp at hfuel; omega⟩
    subst hv0
    have hl1 : labels.lookup (2 + pre.length) = some (c0 + (2 + pre.length)) :=
      hlab _ (by simp)
    have hnext : next_vertex_of 1 (2 + pre.length + 1) r < 2 + pre.length + (s :: r).length := by
      cases r <;> simp [next_vertex_of]
    have hl2 := hlab _ hnext
    have hnotin : next_vertex_of 1 (2 + pre.length + 1) r ∉ (2 + pre.length) :: col := by
      intro hmem
      rcases List.mem_cons.1 hmem with hm | hm
      · cases r
        · simp [next_vertex_of] at hm; omega
        · simp [next_vertex_of] at hm
      · have := hcol _ hm
        cases r
        · simp [next_vertex_of] at this
        · simp [next_vertex_of] at this
    have hih := ih (pre ++ [s]) (2 + pre.length + 1) f ((2 + pre.length) :: col)
      (stmts ++ [.Label (c0 + (2 + pre.length)), s,
        .Goto (c0 + next_vertex_of 1 (2 + pre.length + 1) r)])
      (by simp; omega) (by simp at hfuel; omega)
      (by
        intro v hv
        rcases List.mem_cons.1 hv with hm | hm
        · subst hm; omega
        · have := hcol _ hm; omega)
      (by intro v hv; apply hlab; simp; omega)
    obtain ⟨col2, hvis, h1, hsub, hall⟩ := hih
    rw [List.append_assoc, List.singleton_append] at hvis
    refine ⟨col2, ?_, h1, fun v hv => hsub v (by simp [hv]), ?_⟩
    · have hnv : next_vertex_of 1 (2 + pre.length) (s :: r) = 2 + pre.length := rfl
      have hem : straight_emit c0 (2 + pre.length) (s :: r)
          = .Label (c0 + (2 + pre.length)) :: s ::
              .Goto (c0 + next_vertex_of 1 (2 + pre.length + 1) r) ::
              straight_emit c0 (2 + pre.length + 1) r := rfl
      rw [hnv, hem]
      simp only [depth_first_visit, Linearizer.discover_vertex, straight_vb_mid,
        Linearizer.emit, BB_kind.is_exit, BB_kind.is_branch, straight_out_mid, visit_out_edges,
        CFG.get_successor, CFG.get_successor_edge, hl1, hl2]
      simp only [Bool.false_eq_true, if_false, Bool.not_false, Bool.and_self, if_true,
        List.append_assoc, List.cons_append, List.nil_append, hnotin] at hvis ⊢
      rw [hvis]
    · intro v hv1 hv2
      by_cases hv : v = 2 + pre.length
      · subst hv; exact hsub _ (by simp)
      · exact hall v (by omega) (by simp at hv2; omega)

theorem depth_first_loop_skip (g : CFG) (labels : List (Nat × Nat)) (us : List Nat)
    (st : List Nat × List Statement) (h : ∀ u ∈ us, u ∈ st.1) :
    depth_first_loop g labels us st = .ok st := by
  induction us with
  | nil => rfl
  | cons u rest ih =>
    unfold depth_first_loop
    rw [if_pos (h u (by simp))]
    exact ih (fun x hx => h x (by simp [hx]))

theorem straight_linearize (ss : List Statement) (c0 : Nat) :
    (straight_graph ss).linearize c0
      = .ok (.Label c0 :: .Goto (c0 + next_vertex_of 1 2 ss) ::
          (straight_emit c0 2 ss ++ [.Label (c0 + 1)])) := by
  have hlab : ∀ v, v < 2 + ss.length →
      (Linearizer.initialize_vertex (straight_graph ss).get_all_bbs c0 []).lookup v
        = some (c0 + v) := fun v hv => straight_labels ss c0 v hv
  have hnext : next_vertex_of 1 2 ss < 2 + ss.length := by
    cases ss <;> simp [next_vertex_of]
  obtain ⟨col2, hvis, h1, hsub, hall⟩ := straight_visit c0
    (Linearizer.initialize_vertex (straight_graph ss).get_all_bbs c0 []) ss [] 2
    (ss.length + 2) [0] [.Label c0, .Goto (c0 + next_vertex_of 1 2 ss)] rfl (by omega)
    (by simp) hlab
  have hnotin : next_vertex_of 1 2 ss ∉ [0] := by
    cases ss <;> simp [next_vertex_of]
  have hlen : (straight_graph ss).blocks.length + 1 = ss.length + 2 + 1 := by
    have := congrArg List.length (straight_get_all_bbs ss)
    simp [CFG.get_all_bbs] at this
    omega
  have hvis0 : depth_first_visit (straight_graph ss)
      (Linearizer.initialize_vertex (straight_graph ss).get_all_bbs c0 [])
      ((straight_graph ss).blocks.length + 1) 0 ([], [])
      = .ok (col2, [.Label c0, .Goto (c0 + next_vertex_of 1 2 ss)] ++ straight_emit c0 2 ss) := by
    rw [hlen]
    generalize ss.length + 2 = f at hvis ⊢
    simp only [depth_first_visit, Linearizer.discover_vertex, straight_vb_entry,
      Linearizer.emit, BB_kind.is_exit, BB_kind.is_branch, straight_out_entry, visit_out_edges,
      CFG.get_successor, CFG.get_successor_edge, hlab 0 (by omega), hlab _ hnext]
    simp only [Bool.false_eq_true, if_false, Bool.not_false, Bool.and_self, if_true,
      List.append_assoc, List.cons_append, List.nil_append, hnotin, Nat.add_zero,
      List.nil_append] at hvis ⊢
    rw [hvis]
  have hex : (straight_graph ss).exit = 1 := rfl
  have hl1 := hlab 1 (by omega)
  unfold CFG.linearize
  simp only [hex]
  generalize Linearizer.initialize_vertex (straight_graph ss).get_all_bbs c0 [] = labels
    at hvis0 hl1 ⊢
  rw [straight_get_all_bbs, hl1]
  unfold depth_first_loop
  rw [if_neg (by simp), hvis0]
  simp only []
  rw [depth_first_loop_skip]
  · simp
  · intro u hu
    simp only [List.mem_cons, List.mem_range'_1] at hu
    rcases hu with hu | hu
    · subst hu; exact h1
    · exact hall u hu.1 (by omega)

/-! ## The clean-up passes of the linearizer on straight-line code -/

theorem is_redundant_goto_plain (s next : Statement) (h : s.is_control = false) :
    is_redundant_goto s next = false := by
  cases s <;> simp [Statement.is_control] at h <;> simp [is_redundant_goto]

theorem remove_redundant_gotos_straight (c0 : Nat) (rest : List Statement) (v0 : Nat)
    (h : ∀ s ∈ rest, s.is_control = false) :
    remove_redundant_gotos (.Goto (c0 + next_vertex_of 1 v0 rest) ::
        (straight_emit c0 v0 rest ++ [.Label (c0 + 1)]))
      = straight_strip c0 v0 rest ++ [.Label (c0 + 1)] := by
  induction rest generalizing v0 with
  | nil => simp [next_vertex_of, straight_emit, straight_strip, remove_redundant_gotos,
      is_redundant_goto]
  | cons s r ih =>
    have hs := h s (by simp)
    have hr := ih (v0 + 1) (fun x hx => h x (by simp [hx]))
    have e1 : next_vertex_of 1 v0 (s :: r) = v0 := rfl
    have e2 : straight_emit c0 v0 (s :: r) = .Label (c0 + v0) :: s ::
        .Goto (c0 + next_vertex_of 1 (v0 + 1) r) :: straight_emit c0 (v0 + 1) r := rfl
    have e3 : straight_strip c0 v0 (s :: r)
        = .Label (c0 + v0) :: s :: straight_strip c0 (v0 + 1) r := rfl
    rw [e1, e2, e3]
    simp only [List.cons_append]
    rw [remove_redundant_gotos]
    simp only [is_redundant_goto, beq_self_eq_true, if_true]
    rw [remove_redundant_gotos]
    simp only [is_redundant_goto, Bool.false_eq_true, if_false]
    rw [remove_redundant_gotos, is_redundant_goto_plain s _ hs]
    simp only [Bool.false_eq_true, if_false]
    rw [hr]

theorem label_counts_append (a b : List Statement) (l : Nat) :
    label_counts (a ++ b) l = label_counts a l + label_counts b l := by
  simp [label_counts]

theorem label_counts_cons (s : Statement) (b : List Statement) (l : Nat) :
    label_counts (s :: b) l = s.label_count l + label_counts b l := by
  simp [label_counts]

theorem label_count_plain (s : Statement) (l : Nat) (h : s.is_control = false) :
    s.label_count l = 0 := by
  cases s <;> simp [Statement.is_control] at h <;> simp [Statement.label_count]

theorem label_counts_strip (c0 : Nat) (rest : List Statement) (v0 l : Nat)
    (h : ∀ s ∈ rest, s.is_control = false) :
    label_counts (straight_strip c0 v0 rest) l
      = if c0 + v0 ≤ l ∧ l < c0 + v0 + rest.length then 1 else 0 := by
  induction rest generalizing v0 with
  | nil =>
    simp only [straight_strip, label_counts, List.map_nil, List.sum_nil, List.length_nil]
    rw [if_neg (by omega)]
  | cons s r ih =>
    have hs := h s (by simp)
    have hr := ih (v0 + 1) (fun x hx => h x (by simp [hx]))
    have e3 : straight_strip c0 v0 (s :: r)
        = .Label (c0 + v0) :: s :: straight_strip c0 (v0 + 1) r := rfl
    have e4 : (Statement.Label (c0 + v0)).label_count l = if c0 + v0 = l then 1 else 0 := by
      simp [Statement.label_count]
    rw [e3, label_counts_cons, label_counts_cons, label_count_plain s l hs, hr, e4]
    simp only [List.length_cons]
    by_cases h1 : c0 + v0 = l
    · rw [if_pos h1, if_neg (by omega), if_pos (by omega)]
    · rw [if_neg h1]
      by_cases h2 : c0 + (v0 + 1) ≤ l ∧ l < c0 + (v0 + 1) + r.length
      · rw [if_pos h2, if_pos (by omega)]
      · rw [if_neg h2, if_neg (by omega)]

theorem mem_strip_label (c0 : Nat) (rest : List Statement) (v0 l : Nat)
    (h : ∀ s ∈ rest, s.is_control = false) (hm : Statement.Label l ∈ straight_strip c0 v0 rest) :
    c0 + v0 ≤ l ∧ l < c0 + v0 + rest.length := by
  induction rest generalizing v0 with
  | nil => simp [straight_strip] at hm
  | cons s r ih =>
    have hs := h s (by simp)
    simp only [straight_strip, List.mem_cons] at hm
    rcases hm with hm | hm | hm
    · simp at hm; subst hm; simp
    · subst hm; simp [Statement.is_control] at hs
    · have := ih (v0 + 1) (fun x hx => h x (by simp [hx])) hm
      simp only [List.length_cons]
      omega

theorem filter_strip (c0 : Nat) (rest : List Statement) (v0 : Nat)
    (h : ∀ s ∈ rest, s.is_control = false) :
    (straight_strip c0 v0 rest).filter (fun s => !s.is_label) = rest := by
  induction rest generalizing v0 with
  | nil => simp [straight_strip]
  | cons s r ih =>
    have hs := h s (by simp)
    have hr := ih (v0 + 1) (fun x hx => h x (by simp [hx]))
    have hl : s.is_label = false := by
      cases s <;> simp [Statement.is_control] at hs <;> simp [Statement.is_label]
    have e3 : straight_strip c0 v0 (s :: r)
        = .Label (c0 + v0) :: s :: straight_strip c0 (v0 + 1) r := rfl
    rw [e3, List.filter_cons_of_neg (by simp [Statement.is_label]),
      List.filter_cons_of_pos (by simp [hl]), hr]

theorem remove_unused_labels_straight (c0 : Nat) (ss : List Statement)
    (h : ∀ s ∈ ss, s.is_control = false) :
    remove_unused_labels (.Label c0 :: (straight_strip c0 2 ss ++ [.Label (c0 + 1)])) = ss := by
  unfold remove_unused_labels
  have hcount : ∀ l, label_counts (.Label c0 :: (straight_strip c0 2 ss ++ [.Label (c0 + 1)])) l
      = (if c0 = l then 1 else 0) + ((if c0 + 2 ≤ l ∧ l < c0 + 2 + ss.length then 1 else 0)
          + (if c0 + 1 = l then 1 else 0)) := by
    intro l
    rw [label_counts_cons, label_counts_append, label_counts_strip c0 ss 2 l h]
    simp [label_counts, Statement.label_count]
  rw [List.filter_congr (q := fun s => !s.is_label)]
  · rw [List.filter_cons_of_neg (by simp [Statement.is_label]), List.filter_append,
      filter_strip c0 ss 2 h]
    simp [Statement.is_label]
  · intro s hs
    cases s with
    | Label l =>
      simp only [Statement.is_label, Bool.not_true, Bool.not_eq_false', beq_iff_eq]
      rw [hcount]
      simp only [List.mem_cons, List.mem_append, List.mem_singleton] at hs
      rcases hs with hs | hs | hs
      · simp at hs; subst hs
        rw [if_pos rfl, if_neg (by omega), if_neg (by omega)]
      · have := mem_strip_label c0 ss 2 l h hs
        rw [if_neg (by omega), if_pos this, if_neg (by omega)]
      · simp at hs; subst hs
        rw [if_neg (by omega), if_neg (by omega), if_pos rfl]
    | _ => simp [Statement.is_label]

theorem straight_get_linear_statements (ss : List Statement) (c0 : Nat)
    (h : ∀ s ∈ ss, s.is_control = false) :
    (straight_graph ss).get_linear_statements c0 = .ok ss := by
  unfold CFG.get_linear_statements
  rw [straight_linearize]
  simp only []
  rw [remove_redundant_gotos]
  simp only [is_redundant_goto, Bool.false_eq_true, if_false]
  rw [remove_redundant_gotos_straight c0 ss 2 h, remove_unused_labels_straight c0 ss h]

/-- C1: for every statement list without Label, Goto or Branch (the empty
list included) the graph is built, and linearizing it returns exactly the
list: the same statements in the same order, no Label and no Goto among
them. -/
theorem C1_round_trip_straight_line (ss : List Statement) (c0 : Nat)
    (h : ∀ s ∈ ss, s.is_control = false) :
    ∃ g, CFG.build ss = .ok g ∧ g.get_linear_statements c0 = .ok ss :=
  ⟨straight_graph ss, build_plain ss h, straight_get_linear_statements ss c0 h⟩

/-- The round trip at `[x, y := z]`, with the label counter at 10. -/
theorem C1_round_trip_straight_line_witness :
    (∀ s ∈ [Statement.Other 7, Statement.Assign_var 1 2], s.is_control = false) ∧
      ∃ g, CFG.build [Statement.Other 7, Statement.Assign_var 1 2] = .ok g ∧
        g.get_linear_statements 10 = .ok [Statement.Other 7, Statement.Assign_var 1 2] :=
  ⟨by decide, C1_round_trip_straight_line _ 10 (by decide)⟩

/-! ## The concrete scenario, and the claims about the builder and the clean-up pass -/

theorem add_statements_eq (g : CFG) (statements : List Statement) :
    g.add_statements statements =
      match g.add_statements_edges statements with
      | .error x => .error x
      | .ok g2 =>
        match g2.tidy_up with
        | .error x => .error x
        | .ok g3 => if g3.consistency_check then .ok g3 else .error .assertion := by
  unfold CFG.add_statements CFG.add_statements_edges
  simp only []
  split
  · rfl
  · split <;> rfl

theorem scenario_edges (cond L1 L2 : Nat) (h : L1 ≠ L2) :
    initial_graph.add_statements_edges [.Label L1, .Branch cond L2 L1, .Label L2]
      = .ok (scenario_untidied cond L1 L2) := by
  have h1 : (L1 == L2) = false := by rw [beq_eq_false_iff_ne]; exact h
  have h2 : (L2 == L1) = false := by rw [beq_eq_false_iff_ne]; exact fun e => h e.symm
  simp [CFG.add_statements_edges, CFG.create_nodes, CFG.create_edges, CFG.add_bb, initial_graph,
    List.lookup, CFG.add_edge, CFG.add_edge_dir, CFG.add_branch, h1, h2, scenario_untidied]

theorem scenario_tidy (cond L1 L2 : Nat) :
    (scenario_untidied cond L1 L2).tidy_up = .ok (scenario_built cond L1 L2) := by
  simp [CFG.tidy_up, CFG.tidy_loop, CFG.tidy_sweep, scenario_untidied, CFG.get_all_bbs, CFG.vb,
    BB_kind.is_entry, BB_kind.is_exit, BB_kind.is_empty, BB_kind.is_branch, CFG.remove,
    CFG.replace_bb, CFG.get_successor, CFG.get_successor_edge, CFG.out_edges, CFG.in_edges,
    CFG.get_bb_predecessors, CFG.get_bb_successors, CFG.reroute_predecessors, CFG.add_edge,
    CFG.add_edge_dir, CFG.get_edge, CFG.set_direction, CFG.set_phis, CFG.merge_phi_nodes,
    CFG.get_phi_nodes, CFG.remove_bb, CFG.fix_solo_phi_args, scenario_built]

theorem scenario_build (cond L1 L2 : Nat) (h : L1 ≠ L2) :
    CFG.build [.Label L1, .Branch cond L2 L1, .Label L2] = .ok (scenario_built cond L1 L2) := by
  rw [build_eq, add_statements_eq, scenario_edges cond L1 L2 h]
  simp only [scenario_tidy, consistency_check_true, if_true]

theorem scenario_linear (cond L1 L2 c0 : Nat) :
    (scenario_built cond L1 L2).get_linear_statements c0
      = .ok [.Label (c0 + 2), .Branch cond (c0 + 1) (c0 + 2), .Label (c0 + 1)] := by
  have e1 : ¬ (c0 + 1 + 1 = c0) := by omega
  have e2 : ¬ (c0 = c0 + 1 + 1) := by omega
  have e3 : ¬ (c0 + 1 + 1 = c0 + 1) := by omega
  have e4 : ¬ (c0 + 1 = c0 + 1 + 1) := by omega
  simp [e1, e2, e3, e4, CFG.get_linear_statements, CFG.linearize, scenario_built, CFG.get_all_bbs,
    Linearizer.initialize_vertex, depth_first_loop, depth_first_visit,
    Linearizer.discover_vertex, CFG.vb, Linearizer.emit, BB_kind.is_exit, BB_kind.is_branch,
    CFG.get_successor, CFG.get_successor_edge, CFG.out_edges, List.lookup, visit_out_edges,
    CFG.get_true_successor, CFG.get_false_successor, remove_redundant_gotos, is_redundant_goto,
    remove_unused_labels, label_counts, Statement.label_count, List.filter]

theorem tidy_loop_keeps (n : Nat) (g g2 : CFG) (h : CFG.tidy_loop n g = .ok g2) :
    ∀ v ∈ g2.get_all_bbs, g2.keeps v = true := by
  induction n generalizing g with
  | zero => simp [CFG.tidy_loop] at h
  | succ n ih =>
    unfold CFG.tidy_loop at h
    cases hs : CFG.tidy_sweep g.get_all_bbs g false with
    | error x => simp [hs] at h
    | ok r =>
      obtain ⟨g1, b⟩ := r
      cases b with
      | true => simp only [hs] at h; exact ih g1 h
      | false =>
        simp only [hs, Except.ok.injEq] at h
        obtain ⟨e, hk⟩ := tidy_sweep_unchanged _ _ _ hs
        subst h
        subst e
        exact hk

/-- C2 (the code does otherwise): for `[Branch (c, L, L), Label L]` the graph
is built, and its Branch block has two outgoing edges, both tagged True, and
none tagged False. -/
theorem C2_branch_same_target_two_true_edges :
    ∃ g, CFG.build [.Branch 0 5 5, .Label 5] = .ok g
      ∧ (g.vb 2).map (fun b => b.kind) = some (.Branch_block 0 5 5)
      ∧ (g.out_edges 2).map (fun e => e.direction) = [some true, some true]
      ∧ g.get_false_successor 2 = .error .assertion :=
  ⟨_, rfl, rfl, rfl, rfl⟩

/-- C3 (the code does otherwise): for `[Label L, Goto L, x]` the graph is
built, the entry block has no outgoing edge and the exit block no incoming
edge; for `[Label L, y, Goto L, x]` the exit block has no incoming edge. -/
theorem C3_goto_loop_leaves_entry_and_exit_bare :
    (∃ g, CFG.build [.Label 5, .Goto 5, .Other 1] = .ok g
      ∧ g.out_edges g.entry = [] ∧ g.in_edges g.exit = [])
    ∧ (∃ g, CFG.build [.Label 5, .Other 3, .Goto 5, .Other 1] = .ok g
      ∧ g.in_edges g.exit = []) :=
  ⟨⟨_, rfl, rfl, rfl⟩, ⟨_, rfl, rfl⟩⟩

/-- C4, as stated, fails: the graph built for
`[Label 1, Branch (0, 2, 1), Label 2]` has three blocks, the entry block, the
exit block and the Branch block, and no Empty block. -/
theorem C4_scenario_counterexample :
    ∃ g, CFG.build [.Label 1, .Branch 0 2 1, .Label 2] = .ok g
      ∧ g.blocks.map (fun b => b.kind) = [.Entry_block, .Exit_block, .Branch_block 0 2 1]
      ∧ ∀ b ∈ g.blocks, b.kind ≠ .Empty_block :=
  ⟨_, scenario_build 0 1 2 (by decide), rfl, by decide⟩

/-- C4, amended: for `[Label L1, Branch (cond, L2, L1), Label L2]` with
`L1 ≠ L2` the two passes of the builder make the blocks Entry, Exit, L1-block
(Empty, vertex 2), Branch-block (vertex 3), L2-block (Empty, vertex 4), with
the True edge of the Branch block to the L2-block and its False edge to the
L1-block; `tidy_up` then removes both Empty blocks, and the graph as built has
exactly the blocks Entry, Exit and Branch-block, the True edge of the Branch
block going to the exit block and its False edge back to the Branch block. -/
theorem C4_scenario_graph (cond L1 L2 : Nat) (h : L1 ≠ L2) :
    ∃ g0 g, initial_graph.add_statements_edges [.Label L1, .Branch cond L2 L1, .Label L2]
          = .ok g0
      ∧ g0.blocks = [⟨0, .Entry_block, []⟩, ⟨1, .Exit_block, []⟩, ⟨2, .Empty_block, []⟩,
          ⟨3, .Branch_block cond L2 L1, []⟩, ⟨4, .Empty_block, []⟩]
      ∧ g0.out_edges 3 = [⟨2, 3, 4, some true⟩, ⟨3, 3, 2, some false⟩]
      ∧ g0.out_edges 0 = [⟨0, 0, 2, none⟩] ∧ g0.out_edges 2 = [⟨1, 2, 3, none⟩]
      ∧ g0.out_edges 4 = [⟨4, 4, 1, none⟩]
      ∧ CFG.build [.Label L1, .Branch cond L2 L1, .Label L2] = .ok g
      ∧ g.entry = 0 ∧ g.exit = 1
      ∧ g.blocks = [⟨0, .Entry_block, []⟩, ⟨1, .Exit_block, []⟩,
          ⟨3, .Branch_block cond L2 L1, []⟩]
      ∧ g.out_edges 3 = [⟨6, 3, 3, some false⟩, ⟨7, 3, 1, some true⟩]
      ∧ g.out_edges 0 = [⟨5, 0, 3, none⟩]
      ∧ g.get_true_successor 3 = .ok 1 ∧ g.get_false_successor 3 = .ok 3 :=
  ⟨scenario_untidied cond L1 L2, scenario_built cond L1 L2, scenario_edges cond L1 L2 h,
    rfl, rfl, rfl, rfl, rfl, scenario_build cond L1 L2 h, rfl, rfl, rfl, rfl, rfl, rfl, rfl⟩

/-- The scenario graph at `cond = 0`, `L1 = 1`, `L2 = 2`. -/
theorem C4_scenario_graph_witness :
    (1 : Nat) ≠ 2 ∧ ∃ g0 g, initial_graph.add_statements_edges [.Label 1, .Branch 0 2 1, .Label 2]
          = .ok g0
      ∧ g0.blocks = [⟨0, .Entry_block, []⟩, ⟨1, .Exit_block, []⟩, ⟨2, .Empty_block, []⟩,
          ⟨3, .Branch_block 0 2 1, []⟩, ⟨4, .Empty_block, []⟩]
      ∧ g0.out_edges 3 = [⟨2, 3, 4, some true⟩, ⟨3, 3, 2, some false⟩]
      ∧ g0.out_edges 0 = [⟨0, 0, 2, none⟩] ∧ g0.out_edges 2 = [⟨1, 2, 3, none⟩]
      ∧ g0.out_edges 4 = [⟨4, 4, 1, none⟩]
      ∧ CFG.build [.Label 1, .Branch 0 2 1, .Label 2] = .ok g
      ∧ g.entry = 0 ∧ g.exit = 1
      ∧ g.blocks = [⟨0, .Entry_block, []⟩, ⟨1, .Exit_block, []⟩,
          ⟨3, .Branch_block 0 2 1, []⟩]
      ∧ g.out_edges 3 = [⟨6, 3, 3, some false⟩, ⟨7, 3, 1, some true⟩]
      ∧ g.out_edges 0 = [⟨5, 0, 3, none⟩]
      ∧ g.get_true_successor 3 = .ok 1 ∧ g.get_false_successor 3 = .ok 3 :=
  ⟨by decide, C4_scenario_graph 0 1 2 (by decide)⟩

/-- C5: linearizing the graph built for
`[Label L1, Branch (cond, L2, L1), Label L2]` (with `L1 ≠ L2`) gives exactly
three statements `[Label a, Branch (cond, iftrue = b, iffalse = a), Label b]`
with `a ≠ b`: the input up to the names of the labels, and no Goto. -/
theorem C5_scenario_linearized (cond L1 L2 c0 : Nat) (h : L1 ≠ L2) :
    ∃ g a b, CFG.build [.Label L1, .Branch cond L2 L1, .Label L2] = .ok g
      ∧ a ≠ b
      ∧ g.get_linear_statements c0 = .ok [.Label a, .Branch cond b a, .Label b] :=
  ⟨scenario_built cond L1 L2, c0 + 2, c0 + 1, scenario_build cond L1 L2 h, by omega,
    scenario_linear cond L1 L2 c0⟩

/-- The linearized scenario at `cond = 0`, `L1 = 1`, `L2 = 2`, with the label
counter at 10. -/
theorem C5_scenario_linearized_witness :
    (1 : Nat) ≠ 2 ∧ ∃ g a b, CFG.build [.Label 1, .Branch 0 2 1, .Label 2] = .ok g
      ∧ a ≠ b
      ∧ g.get_linear_statements 10 = .ok [.Label a, .Branch 0 b a, .Label b] :=
  ⟨by decide, C5_scenario_linearized 0 1 2 10 (by decide)⟩

/-- C6: `tidy_up` is idempotent: when it returns a graph, running it on that
graph returns the same graph (same blocks, same edges with the same direction
tags, same phi nodes, same counters). -/
theorem C6_tidy_up_idempotent (g g2 : CFG) (h : g.tidy_up = .ok g2) :
    g2.tidy_up = .ok g2 :=
  tidy_up_keeps g2 (tidy_loop_keeps _ g g2 h)

/-- `tidy_up` run twice on the scenario graph. -/
theorem C6_tidy_up_idempotent_witness :
    (scenario_untidied 0 1 2).tidy_up = .ok (scenario_built 0 1 2)
      ∧ (scenario_built 0 1 2).tidy_up = .ok (scenario_built 0 1 2) :=
  ⟨scenario_tidy 0 1 2, C6_tidy_up_idempotent _ _ (scenario_tidy 0 1 2)⟩

/-! ## The empty and the non-empty path of replace_bb -/

/-- C9 (the code does otherwise): in a graph where a Branch block has its True
edge and its False edge into the block at vertex 3, whose single successor is
the exit block, `replace_bb (bb, [])` removes the block and adds two edges
from the Branch block to the exit block, both tagged True: the pairs of source
and tag of the new edges are not those of the old edges. -/
theorem C9_empty_replace_loses_direction :
    (parallel_branch_graph.in_edges 3).map (fun e => (e.source, e.direction))
        = [(2, some true), (2, some false)]
      ∧ parallel_branch_graph.get_successor 3 = .ok 1
      ∧ ∃ g, parallel_branch_graph.replace_bb 3 [] = .ok g
        ∧ g.vb 3 = none
        ∧ (g.in_edges 1).map (fun e => (e.source, e.direction))
            = [(2, some true), (2, some true)] :=
  ⟨rfl, rfl, _, rfl, rfl, rfl⟩

/-- C10 (the code does otherwise): replacing the Statement block of the graph
`Entry → x → Exit` by the one-element sequence made of a new Branch block does
not fail: the Branch block is put into the graph with a single outgoing edge,
which has no direction tag.  A Branch block after the first element of the
sequence does fail the assertion. -/
theorem C10_branch_in_front_is_accepted :
    ∃ g, (straight_graph [.Other 7]).replace_bb 2
          [.detached { kind := .Branch_block 0 1 2, phis := [] }] = .ok g
      ∧ g.blocks = [⟨0, .Entry_block, []⟩, ⟨1, .Exit_block, []⟩, ⟨3, .Branch_block 0 1 2, []⟩]
      ∧ g.out_edges 3 = [⟨3, 3, 1, none⟩]
      ∧ (straight_graph [.Other 7]).replace_bb 2
          [.detached { kind := .Statement_block (.Other 9), phis := [] },
           .detached { kind := .Branch_block 0 1 2, phis := [] }] = .error .assertion :=
  ⟨_, rfl, rfl, rfl, rfl⟩

/-! ## The depth-first search of the linearizer on any graph -/

theorem discover_vertex_eq (g : CFG) (labels : List (Nat × Nat)) (v : Nat)
    (stmts : List Statement) :
    Linearizer.discover_vertex g labels v stmts =
      match Linearizer.emit_of g labels v with
      | .error x => .error x
      | .ok out => .ok (stmts ++ out) := by
  unfold Linearizer.discover_vertex Linearizer.emit_of
  cases g.vb v <;> rfl

theorem emit_all_append (g : CFG) (labels : List (Nat × Nat)) (o1 o2 : List Nat)
    (a b : List Statement) (h1 : Linearizer.emit_all g labels o1 = .ok a)
    (h2 : Linearizer.emit_all g labels o2 = .ok b) :
    Linearizer.emit_all g labels (o1 ++ o2) = .ok (a ++ b) := by
  induction o1 generalizing a with
  | nil => simp [Linearizer.emit_all] at h1; subst h1; simpa using h2
  | cons v vs ih =>
    simp only [List.cons_append, Linearizer.emit_all] at h1 ⊢
    cases hv : Linearizer.emit_of g labels v with
    | error x => simp [hv] at h1
    | ok e =>
      cases hvs : Linearizer.emit_all g labels vs with
      | error x => simp [hv, hvs] at h1
      | ok r =>
        simp only [hv, hvs, Except.ok.injEq] at h1
        have hi := ih r hvs
        simp only [List.append_eq] at hi ⊢
        rw [hi]
        simp [← h1]

theorem Traced.refl (g : CFG) (labels : List (Nat × Nat)) (st : List Nat × List Statement) :
    Traced g labels [] st st :=
  ⟨[], rfl, by simp, by simp, List.nodup_nil, by simp⟩

theorem Traced.trans {g : CFG} {labels : List (Nat × Nat)} {o1 o2 : List Nat}
    {st st2 st3 : List Nat × List Statement}
    (h1 : Traced g labels o1 st st2) (h2 : Traced g labels o2 st2 st3) :
    Traced g labels (o1 ++ o2) st st3 := by
  obtain ⟨a, ha, hs1, hc1, hn1, hd1⟩ := h1
  obtain ⟨b, hb, hs2, hc2, hn2, hd2⟩ := h2
  refine ⟨a ++ b, emit_all_append g labels o1 o2 a b ha hb, ?_, ?_, ?_, ?_⟩
  · rw [hs2, hs1, List.append_assoc]
  · rw [hc2, hc1, List.reverse_append, List.append_assoc]
  · rw [List.nodup_append]
    refine ⟨hn1, hn2, ?_⟩
    intro v hv1 hv2
    have := hd2 v hv2
    rw [hc1] at this
    simp only [List.mem_append, List.mem_reverse, not_or] at this
    exact this.1 hv1
  · intro v hv
    rcases List.mem_append.1 hv with h | h
    · exact hd1 v h
    · have := hd2 v h
      rw [hc1] at this
      simp only [List.mem_append, List.mem_reverse, not_or] at this
      exact this.2

theorem visit_out_edges_traced (g : CFG) (labels : List (Nat × Nat))
    (visit : Nat → List Nat × List Statement → Except Err (List Nat × List Statement))
    (hvisit : ∀ u st st2, visit u st = .ok st2 → u ∉ st.1 →
      ∃ order, Traced g labels order st st2)
    (es : List Edge) (st st2 : List Nat × List Statement)
    (h : visit_out_edges visit es st = .ok st2) :
    ∃ order, Traced g labels order st st2 := by
  induction es generalizing st with
  | nil =>
    simp only [visit_out_edges, Except.ok.injEq] at h
    subst h
    exact ⟨[], Traced.refl g labels st⟩
  | cons e rest ih =>
    unfold visit_out_edges at h
    by_cases hm : e.target ∈ st.1
    · rw [if_pos hm] at h
      exact ih st h
    · rw [if_neg hm] at h
      cases hv : visit e.target st with
      | error x => simp [hv] at h
      | ok st1 =>
        simp only [hv] at h
        obtain ⟨o1, t1⟩ := hvisit _ _ _ hv hm
        obtain ⟨o2, t2⟩ := ih st1 h
        exact ⟨o1 ++ o2, t1.trans t2⟩

theorem depth_first_visit_traced (g : CFG) (labels : List (Nat × Nat)) (n : Nat) :
    ∀ u st st2, depth_first_visit g labels n u st = .ok st2 → u ∉ st.1 →
      ∃ order, Traced g labels (u :: order) st st2 := by
  induction n with
  | zero => intro u st st2 h; simp [depth_first_visit] at h
  | succ n ih =>
    intro u st st2 h hu
    unfold depth_first_visit at h
    rw [discover_vertex_eq] at h
    cases he : Linearizer.emit_of g labels u with
    | error x => simp [he] at h
    | ok e =>
      simp only [he] at h
      have t1 : Traced g labels [u] st (u :: st.1, st.2 ++ e) :=
        ⟨e, by simp [Linearizer.emit_all, he], rfl, by simp, by simp, by simpa using hu⟩
      obtain ⟨o2, t2⟩ := visit_out_edges_traced g labels (depth_first_visit g labels n)
        (fun u st st2 h1 h2 => (ih u st st2 h1 h2).elim fun o x => ⟨u :: o, x⟩) _ _ _ h
      exact ⟨o2, t1.trans t2⟩

theorem Traced.subset {g : CFG} {labels : List (Nat × Nat)} {o : List Nat}
    {st st2 : List Nat × List Statement} (h : Traced g labels o st st2) :
    ∀ v, v ∈ st2.1 ↔ v ∈ o ∨ v ∈ st.1 := by
  obtain ⟨a, _, _, hc, _, _⟩ := h
  intro v
  rw [hc]
  simp

theorem depth_first_loop_traced (g : CFG) (labels : List (Nat × Nat)) (us : List Nat)
    (st st2 : List Nat × List Statement) (h : depth_first_loop g labels us st = .ok st2) :
    ∃ order, Traced g labels order st st2 ∧ (∀ u ∈ us, u ∈ st2.1)
      ∧ (∀ u, us.head? = some u → u ∉ st.1 → order.head? = some u) := by
  induction us generalizing st with
  | nil =>
    simp only [depth_first_loop, Except.ok.injEq] at h
    subst h
    exact ⟨[], Traced.refl g labels st, by simp, by simp⟩
  | cons u rest ih =>
    unfold depth_first_loop at h
    by_cases hm : u ∈ st.1
    · rw [if_pos hm] at h
      obtain ⟨o, t, hall, _⟩ := ih st h
      refine ⟨o, t, ?_, ?_⟩
      · intro x hx
        rcases List.mem_cons.1 hx with hx | hx
        · subst hx; exact (t.subset x).2 (Or.inr hm)
        · exact hall x hx
      · intro x hx hx2
        simp only [List.head?_cons, Option.some.injEq] at hx
        subst hx
        exact absurd hm hx2
    · rw [if_neg hm] at h
      cases hv : depth_first_visit g labels (g.blocks.length + 1) u st with
      | error x => simp [hv] at h
      | ok st1 =>
        simp only [hv] at h
        obtain ⟨o1, t1⟩ := depth_first_visit_traced g labels _ _ _ _ hv hm
        obtain ⟨o2, t2, hall, _⟩ := ih st1 h
        refine ⟨(u :: o1) ++ o2, t1.trans t2, ?_, ?_⟩
        · intro x hx
          rcases List.mem_cons.1 hx with hx | hx
          · subst hx
            exact (t2.subset x).2 (Or.inr ((t1.subset x).2 (Or.inl (by simp))))
          · exact hall x hx
        · intro x hx _
          simp only [List.head?_cons, Option.some.injEq] at hx
          subst hx
          simp

theorem linearize_traced (g : CFG) (c0 : Nat) (raw : List Statement)
    (h : g.linearize c0 = .ok raw) :
    ∃ order out lx,
      Linearizer.emit_all g (Linearizer.initialize_vertex g.get_all_bbs c0 []) order = .ok out
      ∧ raw = out ++ [.Label lx]
      ∧ (Linearizer.initialize_vertex g.get_all_bbs c0 []).lookup g.exit = some lx
      ∧ order.Nodup ∧ (∀ v ∈ g.get_all_bbs, v ∈ order)
      ∧ order.head? = g.get_all_bbs.head? := by
  unfold CFG.linearize at h
  simp only [] at h
  cases hl : depth_first_loop g (Linearizer.initialize_vertex g.get_all_bbs c0 [])
      g.get_all_bbs ([], []) with
  | error x => simp [hl] at h
  | ok st =>
    simp only [hl] at h
    cases hx : (Linearizer.initialize_vertex g.get_all_bbs c0 []).lookup g.exit with
    | none => simp [hx] at h
    | some lx =>
      simp only [hx, Except.ok.injEq] at h
      obtain ⟨order, ⟨out, he, hs, hc, hn, _⟩, hall, hhead⟩ :=
        depth_first_loop_traced g _ _ _ _ hl
      refine ⟨order, out, lx, he, ?_, rfl, hn, ?_, ?_⟩
      · rw [← h, hs]; simp
      · intro v hv
        have := hall v hv
        rw [hc] at this
        simpa using this
      · cases hb : g.get_all_bbs with
        | nil =>
          rw [hb] at hl
          simp only [depth_first_loop, Except.ok.injEq] at hl
          subst hl
          simp at hc
          simp [hc]
        | cons u rest =>
          rw [hb] at hhead
          simpa using hhead u rfl (by simp)

theorem initialize_vertex_lookup (vs : List Nat) (c : Nat) (acc : List (Nat × Nat))
    (v l : Nat) (h : (Linearizer.initialize_vertex vs c acc).lookup v = some l) :
    (∃ i, i < vs.length ∧ l = c + i ∧ vs.get? i = some v) ∨ acc.lookup v = some l := by
  induction vs generalizing c acc with
  | nil => right; simpa [Linearizer.initialize_vertex] using h
  | cons a vs ih =>
    simp only [Linearizer.initialize_vertex] at h
    rcases ih (c + 1) ((a, c) :: acc) h with ⟨i, hi, hl, hg⟩ | h2
    · left
      exact ⟨i + 1, by simp; omega, by omega, by simpa using hg⟩
    · simp only [List.lookup] at h2
      by_cases hva : v = a
      · subst hva
        simp at h2
        left
        exact ⟨0, by simp, by omega, by simp⟩
      · have : (v == a) = false := by rw [beq_eq_false_iff_ne]; exact hva
        simp only [this] at h2
        right
        exact h2

theorem labels_injective (vs : List Nat) (c v w l : Nat)
    (hv : (Linearizer.initialize_vertex vs c []).lookup v = some l)
    (hw : (Linearizer.initialize_vertex vs c []).lookup w = some l) : v = w := by
  rcases initialize_vertex_lookup vs c [] v l hv with ⟨i, _, hl1, hg1⟩ | h
  · rcases initialize_vertex_lookup vs c [] w l hw with ⟨j, _, hl2, hg2⟩ | h
    · have : i = j := by omega
      subst this
      rw [hg1] at hg2
      exact Option.some.inj hg2
    · simp at h
  · simp at h

theorem vb_vertex (g : CFG) (v : Nat) (bb : Basic_block) (h : g.vb v = some bb) :
    bb.vertex = v := by
  unfold CFG.vb at h
  simpa using List.find?_some h

theorem vb_mem (g : CFG) (v : Nat) (bb : Basic_block) (h : g.vb v = some bb) :
    bb ∈ g.blocks := by
  unfold CFG.vb at h
  exact List.mem_of_find?_eq_some h

theorem emit_of_chunk (g : CFG) (labels : List (Nat × Nat)) (v : Nat) (e : List Statement)
    (h : Linearizer.emit_of g labels v = .ok e) : Chunk g labels v e := by
  unfold Linearizer.emit_of at h
  cases hb : g.vb v with
  | none => simp [hb] at h
  | some bb =>
    simp only [hb] at h
    have hv := vb_vertex g v bb hb
    unfold Linearizer.emit at h
    rw [hv] at h
    cases hk : bb.kind with
    | Exit_block =>
      simp [hk, BB_kind.is_exit, BB_kind.is_branch] at h
      subst h
      exact Chunk.exit bb hb hk
    | Entry_block =>
      simp only [hk, BB_kind.is_exit, BB_kind.is_branch] at h
      cases hlv : labels.lookup v with
      | none => simp [hlv] at h
      | some lv =>
        cases hn : g.get_successor v with
        | error x => simp [hlv, hn] at h
        | ok n =>
          cases hln : labels.lookup n with
          | none => simp [hlv, hn, hln] at h
          | some ln =>
            simp [hlv, hn, hln] at h
            subst h
            exact Chunk.jump bb lv n ln hb (Or.inl hk) hlv hn hln
    | Empty_block =>
      simp only [hk, BB_kind.is_exit, BB_kind.is_branch] at h
      cases hlv : labels.lookup v with
      | none => simp [hlv] at h
      | some lv =>
        cases hn : g.get_successor v with
        | error x => simp [hlv, hn] at h
        | ok n =>
          cases hln : labels.lookup n with
          | none => simp [hlv, hn, hln] at h
          | some ln =>
            simp [hlv, hn, hln] at h
            subst h
            exact Chunk.jump bb lv n ln hb (Or.inr hk) hlv hn hln
    | Statement_block s =>
      simp only [hk, BB_kind.is_exit, BB_kind.is_branch] at h
      cases hlv : labels.lookup v with
      | none => simp [hlv] at h
      | some lv =>
        cases hn : g.get_successor v with
        | error x => simp [hlv, hn] at h
        | ok n =>
          cases hln : labels.lookup n with
          | none => simp [hlv, hn, hln] at h
          | some ln =>
            simp [hlv, hn, hln] at h
            subst h
            exact Chunk.stmt bb s lv n ln hb hk hlv hn hln
    | Branch_block c t0 f0 =>
      simp only [hk, BB_kind.is_exit, BB_kind.is_branch] at h
      cases hlv : labels.lookup v with
      | none => simp [hlv] at h
      | some lv =>
        cases ht : g.get_true_successor v with
        | error x => simp [hlv, ht] at h
        | ok t =>
          cases hf : g.get_false_successor v with
          | error x => simp [hlv, ht, hf] at h
          | ok f =>
            cases hlt : labels.lookup t with
            | none => simp [hlv, ht, hf, hlt] at h
            | some lt =>
              cases hlf : labels.lookup f with
              | none => simp [hlv, ht, hf, hlt, hlf] at h
              | some lf =>
                simp [hlv, ht, hf, hlt, hlf] at h
                subst h
                exact Chunk.branch bb c t0 f0 lv t f lt lf hb hk hlv ht hf hlt hlf

/-- The statements of `emit_all`, vertex by vertex. -/
theorem emit_all_chunks (g : CFG) (labels : List (Nat × Nat)) (order : List Nat)
    (out : List Statement) (h : Linearizer.emit_all g labels order = .ok out) :
    ∃ cs : List (List Statement), out = cs.flatten ∧ List.Forall₂ (Chunk g labels) order cs := by
  induction order generalizing out with
  | nil =>
    simp only [Linearizer.emit_all, Except.ok.injEq] at h
    exact ⟨[], by simp [← h], List.Forall₂.nil⟩
  | cons v vs ih =>
    simp only [Linearizer.emit_all] at h
    cases hv : Linearizer.emit_of g labels v with
    | error x => simp [hv] at h
    | ok e =>
      cases hvs : Linearizer.emit_all g labels vs with
      | error x => simp [hv, hvs] at h
      | ok r =>
        simp only [hv, hvs, Except.ok.injEq] at h
        obtain ⟨cs, hcs, hf⟩ := ih r hvs
        exact ⟨e :: cs, by simp [← h, hcs], List.Forall₂.cons (emit_of_chunk g labels v e hv) hf⟩

/-! ## List lemmas for the two clean-up loops -/

theorem remove_redundant_gotos_cons (s : Statement) (t : List Statement)
    (h : s.is_goto = false) :
    remove_redundant_gotos (s :: t) = s :: remove_redundant_gotos t := by
  cases t with
  | nil => simp [remove_redundant_gotos]
  | cons y r =>
    rw [remove_redundant_gotos]
    have : is_redundant_goto s y = false := by
      cases s <;> simp [Statement.is_goto] at h <;> simp [is_redundant_goto]
    simp [this]

theorem remove_redundant_gotos_sublist (l : List Statement) :
    (remove_redundant_gotos l).Sublist l := by
  induction l with
  | nil => simp [remove_redundant_gotos]
  | cons s t ih =>
    cases t with
    | nil => simp [remove_redundant_gotos]
    | cons y r =>
      rw [remove_redundant_gotos]
      split
      · exact List.Sublist.cons _ ih
      · exact List.Sublist.cons₂ _ ih

theorem remove_redundant_gotos_keeps (l : List Statement) (s : Statement) (hs : s ∈ l)
    (hg : s.is_goto = false) : s ∈ remove_redundant_gotos l := by
  induction l with
  | nil => simp at hs
  | cons x t ih =>
    cases t with
    | nil => simpa [remove_redundant_gotos] using hs
    | cons y r =>
      rw [remove_redundant_gotos]
      rcases List.mem_cons.1 hs with h | h
      · subst h
        have : is_redundant_goto s y = false := by
          cases s <;> simp [Statement.is_goto] at hg <;> simp [is_redundant_goto]
        simp [this]
      · split
        · exact ih h
        · exact List.mem_cons_of_mem _ (ih h)

theorem remove_redundant_gotos_goto (l : List Statement) (m : Nat)
    (hs : Statement.Goto m ∈ l) :
    Statement.Goto m ∈ remove_redundant_gotos l ∨ [.Goto m, .Label m] <:+: l := by
  induction l with
  | nil => simp at hs
  | cons x t ih =>
    cases t with
    | nil => left; simpa [remove_redundant_gotos] using hs
    | cons y r =>
      rw [remove_redundant_gotos]
      rcases List.mem_cons.1 hs with h | h
      · subst h
        by_cases hr : is_redundant_goto (.Goto m) y = true
        · right
          cases y <;> simp [is_redundant_goto] at hr
          subst hr
          exact ⟨[], r, by simp⟩
        · left
          simp [hr]
      · rcases ih h with h1 | h1
        · left
          split
          · exact h1
          · exact List.mem_cons_of_mem _ h1
        · right
          exact List.infix_cons h1

theorem remove_redundant_gotos_pair (l : List Statement) (hl : goto_then_label l)
    (a : Nat) (x : Statement) (h : [.Goto a, x] <:+: remove_redundant_gotos l) :
    ∃ m, x = .Label m ∧ m ≠ a ∧ [.Goto a, .Label m] <:+: l := by
  induction l with
  | nil => simp [remove_redundant_gotos] at h
  | cons s t ih =>
    cases t with
    | nil =>
      simp only [remove_redundant_gotos] at h
      have := List.IsInfix.length_le h
      simp at this
    | cons y r =>
      have hl2 : goto_then_label (y :: r) := hl.2
      rw [remove_redundant_gotos] at h
      by_cases hr : is_redundant_goto s y = true
      · rw [if_pos hr] at h
        obtain ⟨m, h1, h2, h3⟩ := ih hl2 h
        exact ⟨m, h1, h2, List.infix_cons h3⟩
      · rw [if_neg hr] at h
        rcases List.infix_cons_iff.1 h with hp | hi
        · rw [List.cons_prefix_cons] at hp
          obtain ⟨hs, hp2⟩ := hp
          subst hs
          have hy : y.is_label = true := hl.1 rfl
          cases y with
          | Label m =>
            rw [remove_redundant_gotos_cons (.Label m) r rfl, List.cons_prefix_cons] at hp2
            refine ⟨m, hp2.1, ?_, ⟨[], r, by simp⟩⟩
            intro e
            subst e
            simp [is_redundant_goto] at hr
          | _ => simp [Statement.is_label] at hy
        · obtain ⟨m, h1, h2, h3⟩ := ih hl2 hi
          exact ⟨m, h1, h2, List.infix_cons h3⟩

theorem filter_head_split {α : Type} (p : α → Bool) (l : List α) (b : α) (t : List α)
    (h : l.filter p = b :: t) :
    ∃ M rest, l = M ++ b :: rest ∧ ∀ x ∈ M, p x = false := by
  induction l with
  | nil => simp at h
  | cons x l ih =>
    by_cases hx : p x = true
    · rw [List.filter_cons_of_pos hx] at h
      simp only [List.cons.injEq] at h
      exact ⟨[], l, by simp [h.1], by simp⟩
    · rw [List.filter_cons_of_neg hx] at h
      obtain ⟨M, rest, h1, h2⟩ := ih h
      refine ⟨x :: M, rest, by simp [h1], ?_⟩
      intro z hz
      rcases List.mem_cons.1 hz with hz | hz
      · subst hz; simpa using hx
      · exact h2 z hz

theorem filter_infix_pair {α : Type} (p : α → Bool) (l : List α) (a b : α)
    (h : [a, b] <:+: l.filter p) :
    ∃ M, (a :: (M ++ [b])) <:+: l ∧ ∀ x ∈ M, p x = false := by
  induction l with
  | nil =>
    have := List.IsInfix.length_le h
    simp at this
  | cons x l ih =>
    by_cases hx : p x = true
    · rw [List.filter_cons_of_pos hx] at h
      rcases List.infix_cons_iff.1 h with hp | hi
      · rw [List.cons_prefix_cons] at hp
        obtain ⟨hs, hp2⟩ := hp
        subst hs
        obtain ⟨t, ht⟩ := hp2
        obtain ⟨M, rest, h1, h2⟩ := filter_head_split p l b t (by simpa using ht.symm)
        exact ⟨M, ⟨[], rest, by simp [h1]⟩, h2⟩
      · obtain ⟨M, h1, h2⟩ := ih hi
        exact ⟨M, List.infix_cons h1, h2⟩
    · rw [List.filter_cons_of_neg hx] at h
      obtain ⟨M, h1, h2⟩ := ih h
      exact ⟨M, List.infix_cons h1, h2⟩

theorem label_counts_eq (l : List Statement) (m : Nat) :
    label_counts l m = (declared_labels l).count m + (l.map (Statement.ref_count m)).sum := by
  induction l with
  | nil => simp [label_counts, declared_labels]
  | cons s t ih =>
    rw [label_counts_cons, ih]
    cases s with
    | Label k =>
      by_cases hk : k = m
      · subst hk
        simp [declared_labels, Statement.label_count, Statement.ref_count]
        omega
      · have hb : (k == m) = false := by rw [beq_eq_false_iff_ne]; exact hk
        simp [declared_labels, Statement.label_count, Statement.ref_count, hb,
          List.count_cons, hk]
    | Goto k =>
      simp [declared_labels, Statement.label_count, Statement.ref_count]
      omega
    | Branch c a b =>
      simp [declared_labels, Statement.label_count, Statement.ref_count]
      omega
    | Assign_var a b => simp [declared_labels, Statement.label_count, Statement.ref_count]
    | Other a => simp [declared_labels, Statement.label_count, Statement.ref_count]

theorem mem_declared_labels (l : List Statement) (m : Nat) :
    m ∈ declared_labels l ↔ Statement.Label m ∈ l := by
  unfold declared_labels
  rw [List.mem_filterMap]
  constructor
  · rintro ⟨s, hs, h⟩
    cases s <;> simp at h
    subst h
    exact hs
  · intro h
    exact ⟨_, h, rfl⟩

/-! ## The labels declared by the linearizer -/

theorem declared_labels_append (a b : List Statement) :
    declared_labels (a ++ b) = declared_labels a ++ declared_labels b := by
  simp [declared_labels, List.filterMap_append]

theorem declared_labels_plain (s : Statement) (h : s.is_control = false) :
    declared_labels [s] = [] := by
  cases s <;> simp [Statement.is_control] at h <;> simp [declared_labels]

theorem statements_plain_block (g : CFG) (hp : g.statements_plain = true) (v : Nat)
    (bb : Basic_block) (s : Statement) (hb : g.vb v = some bb)
    (hk : bb.kind = .Statement_block s) : s.is_control = false := by
  unfold CFG.statements_plain at hp
  rw [List.all_eq_true] at hp
  have := hp bb (vb_mem g v bb hb)
  simp only [hk] at this
  simpa using this

theorem chunk_declared (g : CFG) (labels : List (Nat × Nat)) (hp : g.statements_plain = true)
    (v : Nat) (c : List Statement) (h : Chunk g labels v c) :
    declared_labels c = (Linearizer.declared g labels v).toList := by
  cases h with
  | exit bb hb hk => simp [Linearizer.declared, hb, hk, BB_kind.is_exit, declared_labels]
  | jump bb lv n ln hb hk hlv hn hln =>
    rcases hk with hk | hk <;>
      simp [Linearizer.declared, hb, hk, BB_kind.is_exit, declared_labels, hlv]
  | stmt bb s lv n ln hb hk hlv hn hln =>
    have hs := statements_plain_block g hp v bb s hb hk
    have : declared_labels [.Label lv, s, .Goto ln]
        = declared_labels [.Label lv] ++ (declared_labels [s] ++ declared_labels [.Goto ln]) := by
      rw [← declared_labels_append, ← declared_labels_append]; rfl
    rw [this, declared_labels_plain s hs]
    simp [Linearizer.declared, hb, hk, BB_kind.is_exit, declared_labels, hlv]
  | branch bb c t0 f0 lv t f lt lf hb hk hlv ht hf hlt hlf =>
    simp [Linearizer.declared, hb, hk, BB_kind.is_exit, declared_labels, hlv]

theorem chunks_declared (g : CFG) (labels : List (Nat × Nat)) (hp : g.statements_plain = true)
    (order : List Nat) (cs : List (List Statement))
    (h : List.Forall₂ (Chunk g labels) order cs) :
    declared_labels cs.flatten = order.filterMap (Linearizer.declared g labels) := by
  induction h with
  | nil => simp [declared_labels]
  | cons hc _ ih =>
    rw [List.flatten_cons, declared_labels_append, ih, chunk_declared g labels hp _ _ hc,
      List.filterMap_cons]
    cases Linearizer.declared g labels _ <;> simp

theorem declared_nodup (g : CFG) (c0 : Nat) (order : List Nat) (hn : order.Nodup) :
    (order.filterMap
      (Linearizer.declared g (Linearizer.initialize_vertex g.get_all_bbs c0 []))).Nodup := by
  refine List.Nodup.filterMap ?_ hn
  intro a b m ha hb
  simp only [Linearizer.declared, Option.mem_def] at ha hb
  cases hva : g.vb a with
  | none => simp [hva] at ha
  | some ba =>
    cases hvb : g.vb b with
    | none => simp [hvb] at hb
    | some bb =>
      simp only [hva, hvb] at ha hb
      split at ha
      · simp at ha
      · split at hb
        · simp at hb
        · exact labels_injective _ _ _ _ _ ha hb

theorem exit_not_declared (g : CFG) (c0 : Nat) (he : g.exit_is_exit = true) (order : List Nat)
    (lx : Nat)
    (hx : (Linearizer.initialize_vertex g.get_all_bbs c0 []).lookup g.exit = some lx) :
    lx ∉ order.filterMap
      (Linearizer.declared g (Linearizer.initialize_vertex g.get_all_bbs c0 [])) := by
  intro hm
  rw [List.mem_filterMap] at hm
  obtain ⟨v, _, hv⟩ := hm
  simp only [Linearizer.declared] at hv
  cases hvb : g.vb v with
  | none => simp [hvb] at hv
  | some bb =>
    simp only [hvb] at hv
    split at hv
    · simp at hv
    · rename_i hk
      have e : v = g.exit := labels_injective _ _ _ _ _ hv hx
      subst e
      unfold CFG.exit_is_exit at he
      simp only [hvb] at he
      exact hk he

/-- The list pushed by the search and `add_exit_label` declares no label
twice. -/
theorem raw_labels_nodup (g : CFG) (c0 : Nat) (hp : g.statements_plain = true)
    (he : g.exit_is_exit = true) (order : List Nat) (cs : List (List Statement)) (lx : Nat)
    (hn : order.Nodup)
    (hc : List.Forall₂ (Chunk g (Linearizer.initialize_vertex g.get_all_bbs c0 [])) order cs)
    (hx : (Linearizer.initialize_vertex g.get_all_bbs c0 []).lookup g.exit = some lx) :
    (declared_labels (cs.flatten ++ [.Label lx])).Nodup := by
  rw [declared_labels_append, chunks_declared g _ hp order cs hc]
  have h1 := declared_nodup g c0 order hn
  have h2 := exit_not_declared g c0 he order lx hx
  rw [List.nodup_append]
  refine ⟨h1, by simp [declared_labels], ?_⟩
  intro a ha hb
  simp [declared_labels] at hb
  subst hb
  exact h2 ha

/-! ## Dead labels -/

theorem exists_ref_of_sum_ne_zero (l : List Statement) (m : Nat)
    (h : (l.map (Statement.ref_count m)).sum ≠ 0) :
    ∃ s ∈ l, s.ref_count m ≠ 0 := by
  induction l with
  | nil => simp at h
  | cons x t ih =>
    by_cases hx : x.ref_count m = 0
    · simp only [List.map_cons, List.sum_cons, hx, Nat.zero_add] at h
      obtain ⟨s, hs, hr⟩ := ih h
      exact ⟨s, List.mem_cons_of_mem _ hs, hr⟩
    · exact ⟨x, by simp, hx⟩

theorem ref_count_ne_zero (s : Statement) (m : Nat) (h : s.ref_count m ≠ 0) :
    s = .Goto m ∨ ∃ c t f, s = .Branch c t f ∧ (t = m ∨ f = m) := by
  cases s with
  | Goto k =>
    left
    simp only [Statement.ref_count] at h
    by_cases hk : k = m
    · rw [hk]
    · have : (k == m) = false := by rw [beq_eq_false_iff_ne]; exact hk
      simp [this] at h
  | Branch c t f =>
    right
    refine ⟨c, t, f, rfl, ?_⟩
    simp only [Statement.ref_count] at h
    by_cases ht : t = m
    · exact Or.inl ht
    · by_cases hf : f = m
      · exact Or.inr hf
      · have h1 : (t == m) = false := by rw [beq_eq_false_iff_ne]; exact ht
        have h2 : (f == m) = false := by rw [beq_eq_false_iff_ne]; exact hf
        simp [h1, h2] at h
  | Label k => simp [Statement.ref_count] at h
  | Assign_var a b => simp [Statement.ref_count] at h
  | Other a => simp [Statement.ref_count] at h

theorem mem_remove_unused_labels (l : List Statement) (s : Statement) :
    s ∈ remove_unused_labels l ↔
      s ∈ l ∧ ∀ m, s = .Label m → label_counts l m ≠ 1 := by
  unfold remove_unused_labels
  rw [List.mem_filter]
  constructor
  · rintro ⟨h1, h2⟩
    refine ⟨h1, ?_⟩
    intro m hm
    subst hm
    simpa using h2
  · rintro ⟨h1, h2⟩
    refine ⟨h1, ?_⟩
    cases s with
    | Label m => simpa using h2 m rfl
    | _ => rfl

/-- The list pushed by the search and `add_exit_label`, with what is known of
it: the chunks of the vertices in the order of their discovery, then the
label of the exit block. -/
theorem linearize_chunks (g : CFG) (c0 : Nat) (raw : List Statement)
    (h : g.linearize c0 = .ok raw) :
    ∃ order cs lx,
      raw = cs.flatten ++ [.Label lx]
      ∧ List.Forall₂ (Chunk g (Linearizer.initialize_vertex g.get_all_bbs c0 [])) order cs
      ∧ (Linearizer.initialize_vertex g.get_all_bbs c0 []).lookup g.exit = some lx
      ∧ order.Nodup ∧ (∀ v ∈ g.get_all_bbs, v ∈ order)
      ∧ order.head? = g.get_all_bbs.head? := by
  obtain ⟨order, out, lx, he, hr, hx, hn, hall, hh⟩ := linearize_traced g c0 raw h
  obtain ⟨cs, hcs, hf⟩ := emit_all_chunks g _ order out he
  exact ⟨order, cs, lx, by rw [hr, hcs], hf, hx, hn, hall, hh⟩

theorem linearize_labels_nodup (g : CFG) (c0 : Nat) (raw : List Statement)
    (hp : g.statements_plain = true) (he : g.exit_is_exit = true)
    (h : g.linearize c0 = .ok raw) : (declared_labels raw).Nodup := by
  obtain ⟨order, cs, lx, hr, hf, hx, hn, _, _⟩ := linearize_chunks g c0 raw h
  rw [hr]
  exact raw_labels_nodup g c0 hp he order cs lx hn hf hx

theorem declared_count_one (raw : List Statement) (hn : (declared_labels raw).Nodup)
    (m : Nat) (hm : Statement.Label m ∈ remove_redundant_gotos raw) :
    (declared_labels (remove_redundant_gotos raw)).count m = 1 := by
  have hs : (declared_labels (remove_redundant_gotos raw)).Sublist (declared_labels raw) :=
    List.Sublist.filterMap _ (remove_redundant_gotos_sublist raw)
  have hn2 := List.Nodup.sublist hs hn
  exact List.count_eq_one_of_mem hn2 ((mem_declared_labels _ m).2 hm)

/-- C7: in the list `get_linear_statements` returns for a graph whose
Statement blocks hold no control statement and whose exit vertex is an Exit
block, every `Label` is the target of a `Goto` or of a `Branch` of the list;
and a label whose name is counted once after the goto-removal loop is not in
the list. -/
theorem C7_labels_in_output_are_referenced (g : CFG) (c0 : Nat) (out : List Statement)
    (hp : g.statements_plain = true) (he : g.exit_is_exit = true)
    (h : g.get_linear_statements c0 = .ok out) :
    (∀ l, Statement.Label l ∈ out →
        ∃ s ∈ out, s = .Goto l ∨ ∃ c t f, s = .Branch c t f ∧ (t = l ∨ f = l))
      ∧ (∀ raw l, g.linearize c0 = .ok raw →
          label_counts (remove_redundant_gotos raw) l = 1 → Statement.Label l ∉ out) := by
  unfold CFG.get_linear_statements at h
  cases hr : g.linearize c0 with
  | error x => simp [hr] at h
  | ok raw =>
    simp only [hr, Except.ok.injEq] at h
    subst h
    constructor
    · intro l hl
      rw [mem_remove_unused_labels] at hl
      obtain ⟨hl1, hl2⟩ := hl
      have hc := hl2 l rfl
      rw [label_counts_eq, declared_count_one raw
        (linearize_labels_nodup g c0 raw hp he hr) l hl1] at hc
      obtain ⟨s, hs, hs2⟩ := exists_ref_of_sum_ne_zero (remove_redundant_gotos raw) l
        (by omega)
      have hs3 := ref_count_ne_zero s l hs2
      refine ⟨s, ?_, hs3⟩
      rw [mem_remove_unused_labels]
      refine ⟨hs, ?_⟩
      intro m hm
      subst hm
      simp [Statement.ref_count] at hs2
    · intro raw2 l hr2 hc hm
      simp only [Except.ok.injEq] at hr2
      subst hr2
      rw [mem_remove_unused_labels] at hm
      exact hm.2 l rfl hc

/-- The labels in the linearized scenario graph. -/
theorem C7_labels_in_output_are_referenced_witness :
    (scenario_built 0 1 2).statements_plain = true
      ∧ (scenario_built 0 1 2).exit_is_exit = true
      ∧ (scenario_built 0 1 2).get_linear_statements 10
          = .ok [.Label 12, .Branch 0 11 12, .Label 11]
      ∧ (∀ l, Statement.Label l ∈ [Statement.Label 12, .Branch 0 11 12, .Label 11] →
          ∃ s ∈ [Statement.Label 12, .Branch 0 11 12, .Label 11],
            s = .Goto l ∨ ∃ c t f, s = .Branch c t f ∧ (t = l ∨ f = l))
      ∧ (∀ raw l, (scenario_built 0 1 2).linearize 10 = .ok raw →
          label_counts (remove_redundant_gotos raw) l = 1 →
            Statement.Label l ∉ [Statement.Label 12, .Branch 0 11 12, .Label 11]) :=
  ⟨by decide, by decide, scenario_linear 0 1 2 10,
    C7_labels_in_output_are_referenced _ 10 _ (by decide) (by decide)
      (scenario_linear 0 1 2 10)⟩

/-! ## Towards the absence of redundant gotos -/

theorem chunks_goto_then_label (g : CFG) (labels : List (Nat × Nat))
    (hp : g.statements_plain = true) (order : List Nat) (cs : List (List Statement))
    (lx : Nat) (h : List.Forall₂ (Chunk g labels) order cs) :
    goto_then_label (cs.flatten ++ [.Label lx])
      ∧ head_is_label (cs.flatten ++ [.Label lx]) = true := by
  induction h with
  | nil => simp [goto_then_label, head_is_label, Statement.is_goto]
  | @cons v c vs cs hc _ ih =>
    obtain ⟨h1, h2⟩ := ih
    rw [List.flatten_cons, List.append_assoc]
    generalize cs.flatten ++ [Statement.Label lx] = T at h1 h2
    have hT : ∃ m t, T = .Label m :: t := by
      cases T with
      | nil => simp [head_is_label] at h2
      | cons x t =>
        cases x <;> simp [head_is_label] at h2
        exact ⟨_, _, rfl⟩
    obtain ⟨m, t, rfl⟩ := hT
    cases hc with
    | exit bb hb hk => exact ⟨h1, h2⟩
    | jump bb lv n ln hb hk hlv hn hln =>
      exact ⟨⟨by simp [Statement.is_goto], by simp [Statement.is_label], h1⟩, rfl⟩
    | stmt bb s lv n ln hb hk hlv hn hln =>
      have hs := statements_plain_block g hp v bb s hb hk
      have hsg : s.is_goto = false := by
        cases s <;> simp [Statement.is_control] at hs <;> rfl
      exact ⟨⟨by simp [Statement.is_goto], by simp [hsg], by simp [Statement.is_label], h1⟩, rfl⟩
    | branch bb c t0 f0 lv t f lt lf hb hk hlv ht hf hlt hlf =>
      exact ⟨⟨by simp [Statement.is_goto], by simp [Statement.is_goto], h1⟩, rfl⟩

theorem declared_labels_cons_label (m : Nat) (t : List Statement) :
    declared_labels (.Label m :: t) = m :: declared_labels t := by
  simp [declared_labels]

theorem declared_labels_tail_nodup (x : Statement) (t : List Statement)
    (h : (declared_labels (x :: t)).Nodup) : (declared_labels t).Nodup := by
  have hs : (declared_labels t).Sublist (declared_labels (x :: t)) :=
    List.Sublist.filterMap _ (List.sublist_cons_self x t)
  exact List.Nodup.sublist hs h

theorem no_pair_at_head (m : Nat) (t : List Statement) (a : Statement)
    (hn : (declared_labels (.Label m :: t)).Nodup) :
    ¬ [a, .Label m] <:+: (.Label m :: t) := by
  rw [declared_labels_cons_label, List.nodup_cons] at hn
  have hnot : Statement.Label m ∉ t := fun h => hn.1 ((mem_declared_labels t m).2 h)
  intro h
  rcases List.infix_cons_iff.1 h with hp | hi
  · rw [List.cons_prefix_cons] at hp
    exact hnot (List.IsPrefix.subset hp.2 (by simp))
  · exact hnot (List.IsInfix.subset hi (by simp))

theorem pair_before_label_unique (l : List Statement) (a b : Statement) (m : Nat)
    (hn : (declared_labels l).Nodup)
    (ha : [a, .Label m] <:+: l) (hb : [b, .Label m] <:+: l) : a = b := by
  induction l with
  | nil =>
    have := List.IsInfix.length_le ha
    simp at this
  | cons x t ih =>
    have hnt := declared_labels_tail_nodup x t hn
    rcases List.infix_cons_iff.1 ha with hpa | hia
    · rw [List.cons_prefix_cons] at hpa
      rcases List.infix_cons_iff.1 hb with hpb | hib
      · rw [List.cons_prefix_cons] at hpb
        rw [hpa.1, hpb.1]
      · obtain ⟨r, hr⟩ := hpa.2
        rw [← hr] at hib hnt
        exact absurd hib (no_pair_at_head m r b hnt)
    · rcases List.infix_cons_iff.1 hb with hpb | hib
      · rw [List.cons_prefix_cons] at hpb
        obtain ⟨r, hr⟩ := hpb.2
        rw [← hr] at hia hnt
        exact absurd hia (no_pair_at_head m r a hnt)
      · exact ih hnt hia hib

theorem forall₂_chunk_mem (g : CFG) (labels : List (Nat × Nat)) (order : List Nat)
    (cs : List (List Statement)) (h : List.Forall₂ (Chunk g labels) order cs) (p : Nat)
    (hp : p ∈ order) : ∃ c ∈ cs, Chunk g labels p c := by
  induction h with
  | nil => simp at hp
  | @cons v c vs cs hc _ ih =>
    rcases List.mem_cons.1 hp with h1 | h1
    · subst h1; exact ⟨c, by simp, hc⟩
    · obtain ⟨c2, hc2, hk⟩ := ih h1
      exact ⟨c2, List.mem_cons_of_mem _ hc2, hk⟩

theorem ref_count_le_sum (l : List Statement) (s : Statement) (m : Nat) (hs : s ∈ l) :
    s.ref_count m ≤ (l.map (Statement.ref_count m)).sum := by
  induction l with
  | nil => simp at hs
  | cons x t ih =>
    simp only [List.map_cons, List.sum_cons]
    rcases List.mem_cons.1 hs with h | h
    · subst h; omega
    · have := ih h; omega

theorem lookup_mem_vertices (vs : List Nat) (c u m : Nat)
    (h : (Linearizer.initialize_vertex vs c []).lookup u = some m) : u ∈ vs := by
  rcases initialize_vertex_lookup vs c [] u m h with ⟨i, _, _, hg⟩ | h2
  · exact List.get?_mem hg
  · simp at h2

theorem chunk_refs (g : CFG) (labels : List (Nat × Nat)) (hx : g.exits_closed = true)
    (hb2 : g.branches_two_way = true) (p : Nat) (c : List Statement)
    (hc : Chunk g labels p c) (e : Edge) (he : e ∈ g.out_edges p) (m : Nat)
    (hm : labels.lookup e.target = some m) :
    Statement.Goto m ∈ c ∨ ∃ cnd lt lf, Statement.Branch cnd lt lf ∈ c ∧ (lt = m ∨ lf = m) := by
  have succ_case : ∀ n ln, g.get_successor p = .ok n → labels.lookup n = some ln → ln = m := by
    intro n ln hn hln
    unfold CFG.get_successor CFG.get_successor_edge at hn
    generalize g.out_edges p = es at he hn
    rcases es with _ | ⟨e1, _ | ⟨e2, r⟩⟩
    · simp at he
    · simp only [Except.ok.injEq] at hn
      simp only [List.mem_singleton] at he
      subst he
      rw [← hn, hm] at hln
      exact (Option.some.inj hln).symm
    · simp at hn
  cases hc with
  | exit bb hb hk =>
    unfold CFG.exits_closed at hx
    rw [List.all_eq_true] at hx
    have := hx bb (vb_mem g p bb hb)
    rw [vb_vertex g p bb hb] at this
    simp [hk, BB_kind.is_exit] at this
    rw [this] at he
    simp at he
  | jump bb lv n ln hb hk hlv hn hln =>
    left
    rw [succ_case n ln hn hln]
    simp
  | stmt bb s lv n ln hb hk hlv hn hln =>
    left
    rw [succ_case n ln hn hln]
    simp
  | branch bb cnd t0 f0 lv t f lt lf hb hk hlv ht hf hlt hlf =>
    right
    refine ⟨cnd, lt, lf, by simp, ?_⟩
    unfold CFG.branches_two_way at hb2
    rw [List.all_eq_true] at hb2
    have hd := hb2 bb (vb_mem g p bb hb)
    rw [vb_vertex g p bb hb] at hd
    simp only [hk, BB_kind.is_branch, Bool.not_true, Bool.false_or, Bool.or_eq_true,
      beq_iff_eq] at hd
    unfold CFG.get_true_successor at ht
    unfold CFG.get_false_successor at hf
    generalize g.out_edges p = es at he ht hf hd
    rcases es with _ | ⟨e1, _ | ⟨e2, _ | ⟨e3, r⟩⟩⟩
    · simp at he
    · simp at hd
    · simp only [List.map_cons, List.map_nil, List.cons.injEq, and_true] at hd
      simp only [List.mem_cons, List.mem_singleton, List.not_mem_nil, or_false] at he
      rcases hd with ⟨d1, d2⟩ | ⟨d1, d2⟩
      · simp only [List.find?_cons, d1, d2, beq_self_eq_true, Except.ok.injEq] at ht
        have hf2 : e2.target = f := by
          simpa [List.find?_cons, d1, d2] using hf
        rcases he with he | he
        · left
          subst he
          rw [ht, hlt] at hm
          exact Option.some.inj hm
        · right
          subst he
          rw [hf2, hlf] at hm
          exact Option.some.inj hm
      · simp only [List.find?_cons, d1, d2, beq_self_eq_true, Except.ok.injEq] at hf
        have ht2 : e2.target = t := by
          simpa [List.find?_cons, d1, d2] using ht
        rcases he with he | he
        · right
          subst he
          rw [hf, hlf] at hm
          exact Option.some.inj hm
        · left
          subst he
          rw [ht2, hlt] at hm
          exact Option.some.inj hm
    · simp at hd

theorem raw_head (g : CFG) (labels : List (Nat × Nat)) (hf : g.entry_first = true)
    (order : List Nat) (cs : List (List Statement)) (lx : Nat)
    (h : List.Forall₂ (Chunk g labels) order cs) (hh : order.head? = g.get_all_bbs.head?) :
    ∃ le t, labels.lookup g.entry = some le ∧ cs.flatten ++ [.Label lx] = .Label le :: t := by
  unfold CFG.entry_first at hf
  simp only [Bool.and_eq_true, beq_iff_eq] at hf
  obtain ⟨h1, h2⟩ := hf
  rw [h1] at hh
  cases h with
  | nil => simp at hh
  | @cons v c vs cs hc _ =>
    simp only [List.head?_cons, Option.some.injEq] at hh
    subst hh
    cases hc with
    | exit bb hb hk => simp [hb, hk, BB_kind.is_entry] at h2
    | jump bb lv n ln hb hk hlv hn hln => exact ⟨lv, _, hlv, rfl⟩
    | stmt bb s lv n ln hb hk hlv hn hln => exact ⟨lv, _, hlv, rfl⟩
    | branch bb c t0 f0 lv t f lt lf hb hk hlv ht hf hlt hlf => exact ⟨lv, _, hlv, rfl⟩

theorem label_has_vertex (g : CFG) (c0 : Nat) (hp : g.statements_plain = true)
    (order : List Nat) (cs : List (List Statement)) (lx : Nat)
    (hc : List.Forall₂ (Chunk g (Linearizer.initialize_vertex g.get_all_bbs c0 [])) order cs)
    (hx : (Linearizer.initialize_vertex g.get_all_bbs c0 []).lookup g.exit = some lx)
    (m : Nat) (hm : Statement.Label m ∈ cs.flatten ++ [.Label lx]) :
    ∃ u, (Linearizer.initialize_vertex g.get_all_bbs c0 []).lookup u = some m := by
  rw [← mem_declared_labels, declared_labels_append, chunks_declared g _ hp order cs hc] at hm
  rcases List.mem_append.1 hm with h | h
  · rw [List.mem_filterMap] at h
    obtain ⟨v, _, hv⟩ := h
    simp only [Linearizer.declared] at hv
    cases hvb : g.vb v with
    | none => simp [hvb] at hv
    | some bb =>
      simp only [hvb] at hv
      split at hv
      · simp at hv
      · exact ⟨v, hv⟩
  · simp [declared_labels] at h
    subst h
    exact ⟨g.exit, hx⟩

/-! ## Redundant gotos -/

theorem diamond_build :
    CFG.build [.Branch 0 1 2, .Label 1, .Other 8, .Goto 3, .Label 2, .Other 9, .Label 3]
      = .ok diamond_graph := rfl

theorem diamond_linear :
    diamond_graph.get_linear_statements 10
      = .ok [.Branch 0 13 14, .Label 13, .Other 8, .Goto 11, .Label 14, .Other 9, .Label 11] :=
  rfl

/-- In a graph with the shape of a built graph, a label that follows a goto to
another label in the list pushed by the search is not dead: it is still
counted more than once after the goto-removal loop. -/
theorem no_redundant_goto_raw (g : CFG) (c0 : Nat) (raw : List Statement)
    (hp : g.statements_plain = true) (he : g.exit_is_exit = true)
    (hf : g.entry_first = true) (hs : g.sources_in_graph = true) (hr : g.reached = true)
    (hx : g.exits_closed = true) (hb : g.branches_two_way = true)
    (h : g.linearize c0 = .ok raw) (l m : Nat) (hne : m ≠ l)
    (hpair : [.Goto l, .Label m] <:+: raw) :
    label_counts (remove_redundant_gotos raw) m ≠ 1 := by
  obtain ⟨order, cs, lx, hraw, hch, hlx, hn, hall, hh⟩ := linearize_chunks g c0 raw h
  have hnodup := linearize_labels_nodup g c0 raw hp he h
  have hmem : Statement.Label m ∈ raw := List.IsInfix.subset hpair (by simp)
  have hmemP : Statement.Label m ∈ remove_redundant_gotos raw :=
    remove_redundant_gotos_keeps raw _ hmem rfl
  have hcount := declared_count_one raw hnodup m hmemP
  -- the vertex of the label
  obtain ⟨u, hu⟩ := label_has_vertex g c0 hp order cs lx hch hlx m (hraw ▸ hmem)
  have huv : u ∈ g.get_all_bbs := lookup_mem_vertices _ _ _ _ hu
  -- it is not the entry block
  have hue : u ≠ g.entry := by
    intro e
    subst e
    obtain ⟨le, t, hle, ht⟩ := raw_head g _ hf order cs lx hch hh
    rw [hu] at hle
    have e2 : m = le := Option.some.inj hle
    subst e2
    rw [← hraw] at ht
    rw [ht] at hpair hnodup
    exact no_pair_at_head m t _ hnodup hpair
  -- so it has a predecessor, which is discovered
  unfold CFG.reached at hr
  rw [List.all_eq_true] at hr
  have hin := hr u huv
  have hue2 : (u == g.entry) = false := by rw [beq_eq_false_iff_ne]; exact hue
  simp only [hue2, Bool.false_or, Bool.not_eq_true', List.isEmpty_eq_false] at hin
  obtain ⟨e, r, her⟩ : ∃ e r, g.in_edges u = e :: r := by
    cases hie : g.in_edges u with
    | nil => exact absurd hie hin
    | cons e r => exact ⟨e, r, rfl⟩
  have hein : e ∈ g.in_edges u := by rw [her]; simp
  simp only [CFG.in_edges, List.mem_filter, beq_iff_eq] at hein
  obtain ⟨heg, het⟩ := hein
  unfold CFG.sources_in_graph at hs
  rw [List.all_eq_true] at hs
  have hsrc := hs e heg
  simp only [List.contains_iff_exists_mem_beq, beq_iff_eq] at hsrc
  obtain ⟨p, hpv, hpe⟩ := hsrc
  have hpo : e.source ∈ order := hall _ (hpe ▸ hpv)
  obtain ⟨c, hc, hck⟩ := forall₂_chunk_mem g _ order cs hch e.source hpo
  have heo : e ∈ g.out_edges e.source := by
    simp [CFG.out_edges, heg]
  have hsub : ∀ s ∈ c, s ∈ raw := by
    intro s hs
    rw [hraw]
    exact List.mem_append_left _ (List.mem_flatten.2 ⟨c, hc, hs⟩)
  have count2 : ∀ s, s ∈ remove_redundant_gotos raw → 1 ≤ s.ref_count m →
      label_counts (remove_redundant_gotos raw) m ≠ 1 := by
    intro s hs hs1
    rw [label_counts_eq, hcount]
    have := ref_count_le_sum _ s m hs
    omega
  rcases chunk_refs g _ hx hb e.source c hck e heo m (by rw [het]; exact hu) with hg | hbr
  · rcases remove_redundant_gotos_goto raw m (hsub _ hg) with h1 | h1
    · exact count2 _ h1 (by simp [Statement.ref_count])
    · have := pair_before_label_unique raw _ _ m hnodup hpair h1
      simp only [Statement.Goto.injEq] at this
      exact absurd this.symm hne
  · obtain ⟨cnd, lt, lf, hbm, hor⟩ := hbr
    have hbP := remove_redundant_gotos_keeps raw _ (hsub _ hbm) rfl
    refine count2 _ hbP ?_
    rcases hor with h1 | h1
    · subst h1; simp [Statement.ref_count]
    · subst h1; simp [Statement.ref_count]

/-- C8, as stated, fails: the graph `Entry → x → Exit` with one more Empty
block that leads to the exit block and that nothing leads to has a successor
for every block that needs one, and the list returned for it is
`[x, Goto L, Label L]`: the goto to the exit label is followed by that label,
once the dead label of the Empty block between them is removed. -/
theorem C8_redundant_goto_counterexample :
    stray_block_graph.linearize 10
        = .ok [.Label 10, .Goto 12, .Label 12, .Other 7, .Goto 11, .Label 13, .Goto 11,
            .Label 11]
      ∧ stray_block_graph.get_linear_statements 10
        = .ok [.Other 7, .Goto 11, .Label 11]
      ∧ [Statement.Goto 11, Statement.Label 11] <:+: [.Other 7, .Goto 11, .Label 11] :=
  ⟨rfl, rfl, ⟨[.Other 7], [], rfl⟩⟩

/-- C8, amended: for a graph whose entry block is its first vertex, in which
every block except the entry block has an incoming edge (from a block of the
graph), an Exit block has no outgoing edge, a Branch block has exactly one
True and one False outgoing edge, and Statement blocks hold no control
statement, the list `get_linear_statements` returns has no `Goto L`
immediately followed by `Label L`. -/
theorem C8_no_redundant_goto (g : CFG) (c0 : Nat) (out : List Statement)
    (hp : g.statements_plain = true) (he : g.exit_is_exit = true)
    (hf : g.entry_first = true) (hs : g.sources_in_graph = true) (hr : g.reached = true)
    (hx : g.exits_closed = true) (hb : g.branches_two_way = true)
    (h : g.get_linear_statements c0 = .ok out) (l : Nat) :
    ¬ [.Goto l, .Label l] <:+: out := by
  unfold CFG.get_linear_statements at h
  cases hlin : g.linearize c0 with
  | error x => simp [hlin] at h
  | ok raw =>
    simp only [hlin, Except.ok.injEq] at h
    subst h
    intro hinf
    unfold remove_unused_labels at hinf
    obtain ⟨M, hM, hdead⟩ := filter_infix_pair _ _ _ _ hinf
    obtain ⟨order, cs, lx, hraw, hch, hlx, hn, hall, hh⟩ := linearize_chunks g c0 raw hlin
    have hgtl : goto_then_label raw := by
      rw [hraw]
      exact (chunks_goto_then_label g _ hp order cs lx hch).1
    cases M with
    | nil =>
      obtain ⟨m, h1, h2, _⟩ := remove_redundant_gotos_pair raw hgtl l _ hM
      simp only [Statement.Label.injEq] at h1
      exact h2 h1.symm
    | cons x M2 =>
      have hpre : [.Goto l, x] <:+: remove_redundant_gotos raw := by
        refine List.IsInfix.trans ?_ hM
        exact ⟨[], M2 ++ [.Label l], by simp⟩
      obtain ⟨m, h1, h2, h3⟩ := remove_redundant_gotos_pair raw hgtl l x hpre
      subst h1
      have hd := hdead _ (List.mem_cons_self _ _)
      simp only [Bool.not_eq_false', beq_iff_eq] at hd
      exact no_redundant_goto_raw g c0 raw hp he hf hs hr hx hb hlin l m h2 h3 hd

/-- The linearized diamond graph keeps a goto, and it is not followed by its
own label. -/
theorem C8_no_redundant_goto_witness :
    diamond_graph.statements_plain = true
      ∧ diamond_graph.exit_is_exit = true
      ∧ diamond_graph.entry_first = true
      ∧ diamond_graph.sources_in_graph = true
      ∧ diamond_graph.reached = true
      ∧ diamond_graph.exits_closed = true
      ∧ diamond_graph.branches_two_way = true
      ∧ diamond_graph.get_linear_statements 10
          = .ok [.Branch 0 13 14, .Label 13, .Other 8, .Goto 11, .Label 14, .Other 9, .Label 11]
      ∧ ¬ [Statement.Goto 11, Statement.Label 11] <:+:
          [.Branch 0 13 14, .Label 13, .Other 8, .Goto 11, .Label 14, .Other 9, .Label 11] :=
  ⟨by decide, by decide, by decide, by decide, by decide, by decide, by decide,
    diamond_linear,
    C8_no_redundant_goto _ 10 _ (by decide) (by decide) (by decide) (by decide) (by decide)
      (by decide) (by decide) diamond_linear 11⟩

/-! ## The bound of the depth-first search is never reached -/

theorem combine_ne_error (a b c : Except Err (List Statement)) (x : Err)
    (ha : a ≠ .error x) (hb : b ≠ .error x) (hc : c ≠ .error x) :
    (match a, b, c with
      | Except.error x, _, _ => Except.error x
      | _, Except.error x, _ => Except.error x
      | _, _, Except.error x => Except.error x
      | Except.ok a, Except.ok b, Except.ok c =>
        (Except.ok (a ++ b ++ c) : Except Err (List Statement))) ≠ Except.error x := by
  cases a <;> cases b <;> cases c <;> simp_all

theorem get_successor_not_fuel (g : CFG) (v : Nat) : g.get_successor v ≠ .error .fuel := by
  unfold CFG.get_successor CFG.get_successor_edge
  rcases g.out_edges v with _ | ⟨e1, _ | ⟨e2, r⟩⟩ <;> simp

theorem get_true_successor_not_fuel (g : CFG) (v : Nat) :
    g.get_true_successor v ≠ .error .fuel := by
  unfold CFG.get_true_successor
  cases (g.out_edges v).find? _ <;> simp

theorem get_false_successor_not_fuel (g : CFG) (v : Nat) :
    g.get_false_successor v ≠ .error .fuel := by
  unfold CFG.get_false_successor
  cases (g.out_edges v).find? _ <;> simp

theorem emit_not_fuel (g : CFG) (labels : List (Nat × Nat)) (bb : Basic_block) :
    Linearizer.emit g labels bb ≠ .error .fuel := by
  unfold Linearizer.emit
  apply combine_ne_error
  · split
    · simp
    · split <;> simp
  · split
    · simp
    · have h1 := get_true_successor_not_fuel g bb.vertex
      have h2 := get_false_successor_not_fuel g bb.vertex
      cases ht : g.get_true_successor bb.vertex with
      | error x =>
        rw [ht] at h1
        simpa using h1
      | ok t =>
        cases hf : g.get_false_successor bb.vertex with
        | error x =>
          rw [hf] at h2
          simpa using h2
        | ok f =>
          simp only []
          split <;> simp
    · simp
  · split
    · have h1 := get_successor_not_fuel g bb.vertex
      cases hs : g.get_successor bb.vertex with
      | error x =>
        rw [hs] at h1
        simpa using h1
      | ok n =>
        simp only []
        split <;> simp
    · simp

theorem emit_of_not_fuel (g : CFG) (labels : List (Nat × Nat)) (v : Nat) :
    Linearizer.emit_of g labels v ≠ .error .fuel := by
  unfold Linearizer.emit_of
  cases g.vb v with
  | none => simp
  | some bb => exact emit_not_fuel g labels bb

theorem emit_of_vertex (g : CFG) (labels : List (Nat × Nat)) (v : Nat) (e : List Statement)
    (h : Linearizer.emit_of g labels v = .ok e) : v ∈ g.get_all_bbs := by
  unfold Linearizer.emit_of at h
  cases hb : g.vb v with
  | none => simp [hb] at h
  | some bb =>
    have h1 := vb_mem g v bb hb
    have h2 := vb_vertex g v bb hb
    simp only [CFG.get_all_bbs, List.mem_map]
    exact ⟨bb, h1, h2⟩

theorem emit_all_vertices (g : CFG) (labels : List (Nat × Nat)) (order : List Nat)
    (out : List Statement) (h : Linearizer.emit_all g labels order = .ok out) :
    ∀ v ∈ order, v ∈ g.get_all_bbs := by
  induction order generalizing out with
  | nil => simp
  | cons v vs ih =>
    simp only [Linearizer.emit_all] at h
    cases hv : Linearizer.emit_of g labels v with
    | error x => simp [hv] at h
    | ok e =>
      cases hvs : Linearizer.emit_all g labels vs with
      | error x => simp [hv, hvs] at h
      | ok r =>
        intro x hx
        rcases List.mem_cons.1 hx with hx | hx
        · subst hx; exact emit_of_vertex g labels x e hv
        · exact ih r hvs x hx

theorem Coloured.length_le {g : CFG} {col : List Nat} (h : Coloured g col) :
    col.length ≤ g.blocks.length := by
  have := (List.subperm_of_subset h.1 h.2).length_le
  simpa [CFG.get_all_bbs] using this

theorem Traced.coloured {g : CFG} {labels : List (Nat × Nat)} {o : List Nat}
    {st st2 : List Nat × List Statement} (h : Traced g labels o st st2)
    (hc : Coloured g st.1) : Coloured g st2.1 ∧ st.1.length ≤ st2.1.length := by
  obtain ⟨out, he, _, hcol, hn, hd⟩ := h
  have hv := emit_all_vertices g labels o out he
  rw [hcol]
  refine ⟨⟨?_, ?_⟩, by simp⟩
  · rw [List.nodup_append]
    refine ⟨List.nodup_reverse.2 hn, hc.1, ?_⟩
    intro a ha hb
    exact hd a (List.mem_reverse.1 ha) hb
  · intro v hv2
    rcases List.mem_append.1 hv2 with h1 | h1
    · exact hv v (List.mem_reverse.1 h1)
    · exact hc.2 v h1

theorem visit_out_edges_not_fuel (g : CFG) (labels : List (Nat × Nat)) (n : Nat)
    (visit : Nat → List Nat × List Statement → Except Err (List Nat × List Statement))
    (hv1 : ∀ u st, Coloured g st.1 → u ∉ st.1 → g.blocks.length + 1 ≤ n + st.1.length →
      visit u st ≠ .error .fuel)
    (hv2 : ∀ u st st2, visit u st = .ok st2 → u ∉ st.1 →
      ∃ order, Traced g labels order st st2)
    (es : List Edge) (st : List Nat × List Statement) (hc : Coloured g st.1)
    (hb : g.blocks.length + 1 ≤ n + st.1.length) :
    visit_out_edges visit es st ≠ .error .fuel := by
  induction es generalizing st with
  | nil => simp [visit_out_edges]
  | cons e rest ih =>
    unfold visit_out_edges
    by_cases hm : e.target ∈ st.1
    · rw [if_pos hm]
      exact ih st hc hb
    · rw [if_neg hm]
      cases hv : visit e.target st with
      | error x =>
        have := hv1 e.target st hc hm hb
        rw [hv] at this
        simpa using this
      | ok st1 =>
        simp only []
        obtain ⟨o, t⟩ := hv2 _ _ _ hv hm
        obtain ⟨hc1, hl⟩ := t.coloured hc
        exact ih st1 hc1 (by omega)

theorem depth_first_visit_not_fuel (g : CFG) (labels : List (Nat × Nat)) (n : Nat) :
    ∀ u st, Coloured g st.1 → u ∉ st.1 → g.blocks.length + 1 ≤ n + st.1.length →
      depth_first_visit g labels n u st ≠ .error .fuel := by
  induction n with
  | zero =>
    intro u st hc _ hb
    have := hc.length_le
    omega
  | succ n ih =>
    intro u st hc hu hb
    unfold depth_first_visit
    rw [discover_vertex_eq]
    cases he : Linearizer.emit_of g labels u with
    | error x =>
      have := emit_of_not_fuel g labels u
      rw [he] at this
      simpa using this
    | ok e =>
      simp only []
      refine visit_out_edges_not_fuel g labels n _ ih
        (fun u st st2 h1 h2 =>
          (depth_first_visit_traced g labels n u st st2 h1 h2).elim fun o x => ⟨u :: o, x⟩)
        _ _ ⟨?_, ?_⟩ ?_
      · exact List.nodup_cons.2 ⟨hu, hc.1⟩
      · intro v hv
        rcases List.mem_cons.1 hv with h | h
        · subst h; exact emit_of_vertex g labels v e he
        · exact hc.2 v h
      · simp only [List.length_cons]
        omega

theorem depth_first_loop_not_fuel (g : CFG) (labels : List (Nat × Nat)) (us : List Nat)
    (st : List Nat × List Statement) (hc : Coloured g st.1) :
    depth_first_loop g labels us st ≠ .error .fuel := by
  induction us generalizing st with
  | nil => simp [depth_first_loop]
  | cons u rest ih =>
    unfold depth_first_loop
    by_cases hm : u ∈ st.1
    · rw [if_pos hm]
      exact ih st hc
    · rw [if_neg hm]
      cases hv : depth_first_visit g labels (g.blocks.length + 1) u st with
      | error x =>
        have := depth_first_visit_not_fuel g labels (g.blocks.length + 1) u st hc hm (by omega)
        rw [hv] at this
        simpa using this
      | ok st1 =>
        simp only []
        obtain ⟨o, t⟩ := depth_first_visit_traced g labels _ _ _ _ hv hm
        exact ih st1 (t.coloured hc).1

/-- The bound on the depth of the search is never reached: when
`get_linear_statements` has no result, an assertion failed or a vertex or a
label was missing. -/
theorem get_linear_statements_not_fuel (g : CFG) (c0 : Nat) :
    g.get_linear_statements c0 ≠ .error .fuel := by
  unfold CFG.get_linear_statements CFG.linearize
  simp only []
  cases hl : depth_first_loop g (Linearizer.initialize_vertex g.get_all_bbs c0 [])
      g.get_all_bbs ([], []) with
  | error x =>
    have := depth_first_loop_not_fuel g (Linearizer.initialize_vertex g.get_all_bbs c0 [])
      g.get_all_bbs ([], []) ⟨List.nodup_nil, by simp⟩
    rw [hl] at this
    simpa using this
  | ok st =>
    simp only []
    cases (Linearizer.initialize_vertex g.get_all_bbs c0 []).lookup g.exit <;> simp

/-! ## The bound on the sweeps of tidy_up is never reached -/

theorem set_phis_get_all_bbs (g : CFG) (bb : Nat) (f : List Phi → List Phi) :
    (g.set_phis bb f).get_all_bbs = g.get_all_bbs := by
  simp only [CFG.set_phis, CFG.get_all_bbs, List.map_map]
  apply List.map_congr_left
  intro b _
  simp only [Function.comp]
  split <;> rfl

theorem reroute_predecessors_get_all_bbs (bb succ : Nat) (succ_edge : Edge) (preds : List Nat)
    (g g1 : CFG) (h : CFG.reroute_predecessors bb succ succ_edge preds g = .ok g1) :
    g1.get_all_bbs = g.get_all_bbs := by
  induction preds generalizing g with
  | nil =>
    simp only [CFG.reroute_predecessors, Except.ok.injEq] at h
    rw [h]
  | cons p rest ih =>
    simp only [CFG.reroute_predecessors] at h
    split at h
    · simp at h
    · rw [ih _ h, set_phis_get_all_bbs]
      rfl

theorem reroute_predecessors_not_fuel (bb succ : Nat) (succ_edge : Edge) (preds : List Nat)
    (g : CFG) : CFG.reroute_predecessors bb succ succ_edge preds g ≠ .error .fuel := by
  induction preds generalizing g with
  | nil => simp [CFG.reroute_predecessors]
  | cons p rest ih =>
    simp only [CFG.reroute_predecessors]
    split
    · rename_i x hx
      unfold CFG.get_edge at hx
      split at hx
      · simp at hx
      · simp only [Except.error.injEq] at hx
        subst hx
        simp
    · exact ih _

theorem remove_bb_get_all_bbs (g : CFG) (v : Nat) :
    (g.remove_bb v).get_all_bbs = g.get_all_bbs.filter (fun x => !(x == v)) := by
  simp only [CFG.remove_bb, CFG.get_all_bbs, List.filter_map]
  rfl

theorem remove_get_all_bbs (g g1 : CFG) (v : Nat) (h : g.remove v = .ok g1) :
    g1.get_all_bbs = g.get_all_bbs.filter (fun x => !(x == v)) := by
  unfold CFG.remove CFG.replace_bb at h
  simp only [reduceCtorEq, if_false] at h
  split at h
  · simp at h
  · simp at h
  · split at h
    · simp at h
    · rename_i g2 hg2
      simp only [Except.ok.injEq] at h
      rw [← h]
      unfold CFG.fix_solo_phi_args
      rw [set_phis_get_all_bbs]
      have e1 := reroute_predecessors_get_all_bbs _ _ _ _ _ _ hg2
      rw [remove_bb_get_all_bbs, CFG.merge_phi_nodes, set_phis_get_all_bbs]
      split
      · rw [set_phis_get_all_bbs, e1]
      · rw [e1]

theorem remove_not_fuel (g : CFG) (v : Nat) : g.remove v ≠ .error .fuel := by
  unfold CFG.remove CFG.replace_bb
  simp only [reduceCtorEq, if_false]
  split
  · rename_i x _ hx
    have := get_successor_not_fuel g v
    rw [hx] at this
    simpa using this
  · rename_i x hx _
    unfold CFG.get_successor_edge at hx
    split at hx
    · simp at hx
    · simp only [Except.error.injEq] at hx
      subst hx
      simp
  · split
    · rename_i x hx
      intro hf
      simp only [Except.error.injEq] at hf
      subst hf
      exact reroute_predecessors_not_fuel _ _ _ _ _ hx
    · simp

theorem tidy_sweep_not_fuel (vs : List Nat) (g : CFG) (again : Bool) :
    CFG.tidy_sweep vs g again ≠ .error .fuel := by
  induction vs generalizing g again with
  | nil => simp [CFG.tidy_sweep]
  | cons v rest ih =>
    unfold CFG.tidy_sweep
    cases g.vb v with
    | none => simp
    | some bb =>
      simp only []
      split
      · exact ih _ _
      · split
        · exact ih _ _
        · split
          · split
            · simp
            · cases hr : g.remove v with
              | error x =>
                have := remove_not_fuel g v
                rw [hr] at this
                simpa using this
              | ok g1 => exact ih _ _
          · exact ih _ _

theorem filter_ne_length_lt (l : List Nat) (v : Nat) (h : v ∈ l) :
    (l.filter (fun x => !(x == v))).length < l.length := by
  induction l with
  | nil => simp at h
  | cons a t ih =>
    by_cases ha : a = v
    · subst ha
      rw [List.filter_cons_of_neg (by simp)]
      have := List.length_filter_le (fun x => !(x == a)) t
      simp only [List.length_cons]
      omega
    · have hv : v ∈ t := by
        rcases List.mem_cons.1 h with h1 | h1
        · exact absurd h1.symm ha
        · exact h1
      rw [List.filter_cons_of_pos (by simpa using ha)]
      simp only [List.length_cons]
      have := ih hv
      omega

/-- A sweep of `tidy_up` adds no block, and a sweep that sets `repeat`
removes one. -/
theorem tidy_sweep_length (vs : List Nat) (g g2 : CFG) (again b : Bool)
    (h : CFG.tidy_sweep vs g again = .ok (g2, b)) :
    g2.get_all_bbs.length ≤ g.get_all_bbs.length
      ∧ (b = true → again = false → g2.get_all_bbs.length < g.get_all_bbs.length) := by
  induction vs generalizing g again with
  | nil =>
    simp only [CFG.tidy_sweep, Except.ok.injEq, Prod.mk.injEq] at h
    obtain ⟨h1, h2⟩ := h
    subst h1
    subst h2
    exact ⟨le_refl _, fun h3 h4 => by rw [h3] at h4; simp at h4⟩
  | cons v rest ih =>
    unfold CFG.tidy_sweep at h
    cases hb : g.vb v with
    | none => simp [hb] at h
    | some bb =>
      simp only [hb] at h
      split at h
      · exact ih _ _ h
      · split at h
        · exact ih _ _ h
        · split at h
          · split at h
            · simp at h
            · cases hr : g.remove v with
              | error x => simp [hr] at h
              | ok g1 =>
                simp only [hr] at h
                have e1 := remove_get_all_bbs g g1 v hr
                have hv : v ∈ g.get_all_bbs := by
                  simp only [CFG.get_all_bbs, List.mem_map]
                  exact ⟨bb, vb_mem g v bb hb, vb_vertex g v bb hb⟩
                have hlt := filter_ne_length_lt g.get_all_bbs v hv
                rw [← e1] at hlt
                have := (ih _ _ h).1
                exact ⟨by omega, fun _ _ => by omega⟩
          · exact ih _ _ h

theorem tidy_loop_not_fuel (n : Nat) (g : CFG) (hn : g.get_all_bbs.length + 1 ≤ n) :
    CFG.tidy_loop n g ≠ .error .fuel := by
  induction n generalizing g with
  | zero => omega
  | succ n ih =>
    unfold CFG.tidy_loop
    cases hs : CFG.tidy_sweep g.get_all_bbs g false with
    | error x =>
      have := tidy_sweep_not_fuel g.get_all_bbs g false
      rw [hs] at this
      simpa using this
    | ok r =>
      obtain ⟨g1, b⟩ := r
      cases b with
      | false => simp
      | true =>
        simp only []
        have := (tidy_sweep_length _ _ _ _ _ hs).2 rfl rfl
        exact ih g1 (by omega)

/-- The bound on the number of sweeps is never reached: `tidy_up` stops, with
a graph or on a failed assertion. -/
theorem tidy_up_not_fuel (g : CFG) : g.tidy_up ≠ .error .fuel := by
  unfold CFG.tidy_up
  exact tidy_loop_not_fuel _ g (by simp [CFG.get_all_bbs])

theorem create_edges_not_fuel (labels : List (Nat × Nat)) (l : List (Statement × Nat))
    (g : CFG) (parent : Nat) (use_parent : Bool) :
    CFG.create_edges labels l g parent use_parent ≠ .error .fuel := by
  induction l generalizing g parent use_parent with
  | nil => simp [CFG.create_edges]
  | cons a rest ih =>
    obtain ⟨s, v⟩ := a
    cases s with
    | Label m => simp only [CFG.create_edges]; exact ih _ _ _
    | Goto m =>
      simp only [CFG.create_edges]
      split
      · simp
      · exact ih _ _ _
    | Branch c t f =>
      simp only [CFG.create_edges]
      split
      · exact ih _ _ _
      · simp
    | Assign_var a b => simp only [CFG.create_edges]; exact ih _ _ _
    | Other a => simp only [CFG.create_edges]; exact ih _ _ _

/-- The bounds of the model are never reached while a graph is built: when
`CFG::CFG` has no result, an assertion failed or a label was not defined. -/
theorem build_not_fuel (ss : List Statement) : CFG.build ss ≠ .error .fuel := by
  rw [build_eq, add_statements_eq]
  unfold CFG.add_statements_edges
  simp only []
  split
  · rename_i x hx
    split at hx
    · rename_i y hy
      simp only [Except.error.injEq] at hx
      subst hx
      intro h
      simp only [Except.error.injEq] at h
      subst h
      exact create_edges_not_fuel _ _ _ _ _ hy
    · split at hx
      · simp only [Except.error.injEq] at hx
        subst hx
        simp
      · simp at hx
  · rename_i g2 _
    cases ht : g2.tidy_up with
    | error x =>
      have := tidy_up_not_fuel g2
      rw [ht] at this
      simpa using this
    | ok g3 =>
      simp only []
      split <;> simp

/-! ## Identity replacement and the fixpoint of tidy_up -/

/-- C15: identity replacement is a no-op: for every graph and every block,
`replace_bb (bb, [bb])` returns the graph it was given, with the same blocks,
the same edges and direction tags, and the same phi nodes. -/
theorem C15_identity_replacement (g : CFG) (bb : Nat) :
    ∃ g2, g.replace_bb bb [.attached bb] = .ok g2 ∧ g2 = g
      ∧ g2.blocks = g.blocks ∧ g2.edges = g.edges := by
  refine ⟨g, ?_, rfl, rfl, rfl⟩
  unfold CFG.replace_bb
  rw [if_pos rfl]

theorem keeps_iff (g : CFG) (v : Nat) (bb : Basic_block) (hb : g.vb v = some bb) :
    g.keeps v = true ↔
      ¬ (bb.kind.is_entry = false ∧ bb.kind.is_exit = false ∧ bb.phis = []
          ∧ (bb.kind.is_empty = true ∨ g.get_bb_predecessors v = []
              ∨ g.get_bb_successors v = [])) := by
  unfold CFG.keeps
  simp only [hb]
  cases h1 : bb.kind.is_entry <;> cases h2 : bb.kind.is_exit <;>
    cases h3 : bb.kind.is_empty <;> cases h4 : bb.phis <;>
    cases h5 : g.get_bb_predecessors v <;> cases h6 : g.get_bb_successors v <;> simp

/-- C17: when `tidy_up` returns a graph, no block of that graph is at once not
the entry block, not the exit block, free of phi nodes, and Empty or without a
predecessor or without a successor.  And `tidy_up` stops: the bound on the
number of sweeps is never reached, because a sweep adds no block and a sweep
that sets `repeat` removes one. -/
theorem C17_tidy_up_fixpoint (g : CFG) :
    (∀ g2, g.tidy_up = .ok g2 →
        ∀ v bb, g2.vb v = some bb →
          ¬ (bb.kind.is_entry = false ∧ bb.kind.is_exit = false ∧ bb.phis = []
              ∧ (bb.kind.is_empty = true ∨ g2.get_bb_predecessors v = []
                  ∨ g2.get_bb_successors v = [])))
      ∧ g.tidy_up ≠ .error .fuel
      ∧ (∀ g1 b, CFG.tidy_sweep g.get_all_bbs g false = .ok (g1, b) →
          g1.blocks.length ≤ g.blocks.length
            ∧ (b = true → g1.blocks.length < g.blocks.length)) := by
  refine ⟨?_, tidy_up_not_fuel g, ?_⟩
  · intro g2 h v bb hb
    have hk := tidy_loop_keeps _ g g2 h v (by
      simp only [CFG.get_all_bbs, List.mem_map]
      exact ⟨bb, vb_mem g2 v bb hb, vb_vertex g2 v bb hb⟩)
    exact (keeps_iff g2 v bb hb).1 hk
  · intro g1 b h
    have := tidy_sweep_length _ _ _ _ _ h
    simp only [CFG.get_all_bbs, List.length_map] at this
    exact ⟨this.1, fun hb => this.2 hb trivial⟩

/-- `tidy_up` on the scenario graph before it is tidied: the result has no
block left to remove, and the first sweep removes two blocks. -/
theorem C17_tidy_up_fixpoint_witness :
    (scenario_untidied 0 1 2).tidy_up = .ok (scenario_built 0 1 2)
      ∧ (∀ v bb, (scenario_built 0 1 2).vb v = some bb →
          ¬ (bb.kind.is_entry = false ∧ bb.kind.is_exit = false ∧ bb.phis = []
              ∧ (bb.kind.is_empty = true ∨ (scenario_built 0 1 2).get_bb_predecessors v = []
                  ∨ (scenario_built 0 1 2).get_bb_successors v = [])))
      ∧ CFG.tidy_sweep (scenario_untidied 0 1 2).get_all_bbs (scenario_untidied 0 1 2) false
          = .ok (scenario_built 0 1 2, true)
      ∧ (scenario_built 0 1 2).blocks.length < (scenario_untidied 0 1 2).blocks.length :=
  ⟨scenario_tidy 0 1 2,
    (C17_tidy_up_fixpoint (scenario_untidied 0 1 2)).1 _ (scenario_tidy 0 1 2),
    rfl,
    ((C17_tidy_up_fixpoint (scenario_untidied 0 1 2)).2.2 _ true rfl).2 rfl⟩

/-! ## A goto over a statement -/

theorem jump_over_edges (a b c : Statement) (L : Nat) (ha : a.is_control = false)
    (hb : b.is_control = false) (hc : c.is_control = false) :
    initial_graph.add_statements_edges [a, .Goto L, b, .Label L, c]
      = .ok (jump_over_untidied a b c) := by
  cases a <;> simp [Statement.is_control] at ha <;>
  cases b <;> simp [Statement.is_control] at hb <;>
  cases c <;> simp [Statement.is_control] at hc <;>
  simp [CFG.add_statements_edges, CFG.create_nodes, CFG.create_edges, CFG.add_bb, initial_graph,
    List.lookup, CFG.add_edge, CFG.add_edge_dir, CFG.add_branch, jump_over_untidied]

theorem jump_over_tidy (a b c : Statement) :
    (jump_over_untidied a b c).tidy_up = .ok (jump_over_built a c) := by
  simp [CFG.tidy_up, CFG.tidy_loop, CFG.tidy_sweep, jump_over_untidied, CFG.get_all_bbs, CFG.vb,
    BB_kind.is_entry, BB_kind.is_exit, BB_kind.is_empty, BB_kind.is_branch, CFG.remove,
    CFG.replace_bb, CFG.get_successor, CFG.get_successor_edge, CFG.out_edges, CFG.in_edges,
    CFG.get_bb_predecessors, CFG.get_bb_successors, CFG.reroute_predecessors, CFG.add_edge,
    CFG.add_edge_dir, CFG.get_edge, CFG.set_direction, CFG.set_phis, CFG.merge_phi_nodes,
    CFG.get_phi_nodes, CFG.remove_bb, CFG.fix_solo_phi_args, jump_over_built]

theorem jump_over_build (a b c : Statement) (L : Nat) (ha : a.is_control = false)
    (hb : b.is_control = false) (hc : c.is_control = false) :
    CFG.build [a, .Goto L, b, .Label L, c] = .ok (jump_over_built a c) := by
  rw [build_eq, add_statements_eq, jump_over_edges a b c L ha hb hc]
  simp only [jump_over_tidy, consistency_check_true, if_true]

theorem jump_over_linear (a c : Statement) (c0 : Nat) (ha : a.is_control = false)
    (hc : c.is_control = false) :
    (jump_over_built a c).get_linear_statements c0 = .ok [a, c] := by
  have e1 : ¬ (c0 + 1 + 1 = c0) := by omega
  have e2 : ¬ (c0 = c0 + 1 + 1) := by omega
  have e3 : ¬ (c0 + 1 + 1 = c0 + 1) := by omega
  have e4 : ¬ (c0 + 1 = c0 + 1 + 1) := by omega
  have e5 : ¬ (c0 + 1 + 1 + 1 = c0) := by omega
  have e6 : ¬ (c0 = c0 + 1 + 1 + 1) := by omega
  have e7 : ¬ (c0 + 1 + 1 + 1 = c0 + 1) := by omega
  have e8 : ¬ (c0 + 1 = c0 + 1 + 1 + 1) := by omega
  have e9 : ¬ (c0 + 1 + 1 + 1 = c0 + 1 + 1) := by omega
  have e10 : ¬ (c0 + 1 + 1 = c0 + 1 + 1 + 1) := by omega
  cases a <;> simp [Statement.is_control] at ha <;>
  cases c <;> simp [Statement.is_control] at hc <;>
  simp [e1, e2, e3, e4, e5, e6, e7, e8, e9, e10, CFG.get_linear_statements, CFG.linearize,
    jump_over_built, CFG.get_all_bbs,
    Linearizer.initialize_vertex, depth_first_loop, depth_first_visit,
    Linearizer.discover_vertex, CFG.vb, Linearizer.emit, BB_kind.is_exit, BB_kind.is_branch,
    CFG.get_successor, CFG.get_successor_edge, CFG.out_edges, List.lookup, visit_out_edges,
    CFG.get_true_successor, CFG.get_false_successor, remove_redundant_gotos, is_redundant_goto,
    remove_unused_labels, label_counts, Statement.label_count, List.filter]

/-- C19: a Goto does not fall through, and the code it jumps over is dropped:
for all non-control statements `a`, `b`, `c` and every label `L`, the edge pass
on `[a, Goto L, b, Label L, c]` leaves the block of `b` without an incoming
edge, `tidy_up` removes that block, the graph is built, and linearizing it
(from any label counter) returns exactly `[a, c]`, with no Label and no Goto
in it. -/
theorem C19_goto_jumps_over (a b c : Statement) (L c0 : Nat) (ha : a.is_control = false)
    (hb : b.is_control = false) (hc : c.is_control = false) :
    ∃ g1 g2, initial_graph.add_statements_edges [a, .Goto L, b, .Label L, c] = .ok g1
      ∧ (g1.vb 4).map (fun x => x.kind) = some (.Statement_block b)
      ∧ g1.in_edges 4 = []
      ∧ g1.tidy_up = .ok g2
      ∧ g2.vb 4 = none
      ∧ CFG.build [a, .Goto L, b, .Label L, c] = .ok g2
      ∧ g2.get_linear_statements c0 = .ok [a, c]
      ∧ ∀ s ∈ [a, c], s.is_label = false ∧ s.is_goto = false := by
  refine ⟨jump_over_untidied a b c, jump_over_built a c, jump_over_edges a b c L ha hb hc, rfl,
    rfl, jump_over_tidy a b c, rfl, jump_over_build a b c L ha hb hc,
    jump_over_linear a c c0 ha hc, ?_⟩
  intro s hs
  simp only [List.mem_cons, List.mem_singleton, List.not_mem_nil, or_false] at hs
  rcases hs with rfl | rfl
  · cases s <;> simp [Statement.is_control] at ha <;> simp [Statement.is_label, Statement.is_goto]
  · cases s <;> simp [Statement.is_control] at hc <;> simp [Statement.is_label, Statement.is_goto]

/-- The jump at `[x := y, Goto 3, z, Label 3, w]`, with the label counter at 10. -/
theorem C19_goto_jumps_over_witness :
    ∃ g1 g2, initial_graph.add_statements_edges
          [.Assign_var 1 2, .Goto 3, .Other 5, .Label 3, .Other 6] = .ok g1
      ∧ (g1.vb 4).map (fun x => x.kind) = some (.Statement_block (.Other 5))
      ∧ g1.in_edges 4 = []
      ∧ g1.tidy_up = .ok g2
      ∧ g2.vb 4 = none
      ∧ CFG.build [.Assign_var 1 2, .Goto 3, .Other 5, .Label 3, .Other 6] = .ok g2
      ∧ g2.get_linear_statements 10 = .ok [.Assign_var 1 2, .Other 6]
      ∧ ∀ s ∈ [Statement.Assign_var 1 2, Statement.Other 6],
          s.is_label = false ∧ s.is_goto = false :=
  C19_goto_jumps_over (.Assign_var 1 2) (.Other 5) (.Other 6) 3 10 rfl rfl rfl

/-! ## The order of get_all_bbs_top_down -/

/-- C16 (the code does otherwise): for the graph built from the empty list,
whose only edge goes from the entry block to the exit block and is not a back
edge, `get_all_bbs_top_down` returns the exit block first and the entry block
last, and `get_all_bbs_bottom_up` returns the entry block first; the same holds
for the graph built from `[x, y]`. -/
theorem C16_top_down_is_finish_order :
    (∃ g, CFG.build [] = .ok g
      ∧ g.edges.map (fun e => (e.source, e.target)) = [(g.entry, g.exit)]
      ∧ g.get_all_bbs_top_down = .ok [g.exit, g.entry]
      ∧ g.get_all_bbs_bottom_up = .ok [g.entry, g.exit])
    ∧ (∃ g, CFG.build [.Other 1, .Other 2] = .ok g
      ∧ g.edges.map (fun e => (e.source, e.target)) = [(0, 2), (2, 3), (3, 1)]
      ∧ g.get_all_bbs_top_down = .ok [1, 3, 2, 0]
      ∧ g.get_all_bbs_bottom_up = .ok [0, 2, 3, 1]) :=
  ⟨⟨_, rfl, rfl, rfl, rfl⟩, ⟨_, rfl, rfl, rfl, rfl⟩⟩

/-! ## Descriptors and add_bb_between -/

theorem get_edge_mem (g : CFG) (bb1 bb2 : Nat) (e : Edge) (h : g.get_edge bb1 bb2 = .ok e) :
    e ∈ g.edges ∧ e.source = bb1 ∧ e.target = bb2 := by
  unfold CFG.get_edge at h
  split at h
  · rename_i x hx
    simp only [Except.ok.injEq] at h
    subst h
    have h1 := List.mem_of_find?_eq_some hx
    have h2 : (x.target == bb2) = true := by simpa using List.find?_some hx
    simp only [CFG.out_edges, List.mem_filter, beq_iff_eq] at h1
    exact ⟨h1.1, h1.2, by simpa using h2⟩
  · simp at h

theorem add_bb_between_eq (g : CFG) (source target : Nat) (new_bb : New_block) (e : Edge)
    (hf : g.ids_fresh) (h : g.get_edge source target = .ok e) :
    g.add_bb_between source target new_bb = .ok (g.with_bb_between source target new_bb e) := by
  obtain ⟨hm, -, -⟩ := get_edge_mem g source target e h
  obtain ⟨-, hf2, -⟩ := hf
  have h1 : (g.add_bb new_bb).1.get_edge source target = .ok e := h
  have hlt := (hf2 e hm).1
  have hmap : g.edges.map (fun x => if x.edge == g.next_edge then
      ({ x with direction := e.direction } : Edge) else x) = g.edges := by
    conv_rhs => rw [← List.map_id g.edges]
    apply List.map_congr_left
    intro x hx
    have := (hf2 x hx).1
    have hne : (x.edge == g.next_edge) = false := by rw [beq_eq_false_iff_ne]; omega
    simp [hne]
  have hn1 : (g.next_edge == e.edge) = false := by rw [beq_eq_false_iff_ne]; omega
  have hn2 : (g.next_edge + 1 == e.edge) = false := by rw [beq_eq_false_iff_ne]; omega
  unfold CFG.add_bb_between
  simp only [h1]
  simp only [CFG.add_bb, CFG.add_edge, CFG.add_edge_dir, CFG.set_direction, CFG.boost_remove_edge,
    CFG.with_bb_between, List.map_append, hmap, List.filter_append, List.map_cons, List.map_nil,
    beq_self_eq_true, if_true, List.filter_cons, hn1, hn2, Bool.not_false, List.filter_nil]
  simp

theorem filter_ne_id_length (l : List Edge) (e : Edge) (q : Edge → Bool)
    (hn : (l.map (fun x => x.edge)).Nodup) (he : e ∈ l) :
    ((l.filter q).filter (fun x => !(x.edge == e.edge))).length + (if q e then 1 else 0)
      = (l.filter q).length := by
  induction l with
  | nil => simp at he
  | cons x r ih =>
    simp only [List.map_cons, List.nodup_cons, List.mem_map, not_exists, not_and] at hn
    rcases List.mem_cons.1 he with rfl | hr
    · have hrest : ∀ y ∈ r, (!(y.edge == e.edge)) = true := by
        intro y hy
        have := hn.1 y hy
        simpa using this
      have hfr : (r.filter q).filter (fun x => !(x.edge == e.edge)) = r.filter q := by
        apply List.filter_eq_self.2
        intro y hy
        exact hrest y (List.mem_of_mem_filter hy)
      cases hq : q e <;> simp [List.filter_cons, hq, hfr]
    · have hxe : (x.edge == e.edge) = false := by
        rw [beq_eq_false_iff_ne]
        intro h
        exact hn.1 e hr h.symm
      have := ih hn.2 hr
      simp only [List.filter_filter] at this ⊢
      cases hq : q x <;> simp [List.filter_cons, hq, hxe] <;> omega

theorem with_bb_between_out_edges (g : CFG) (source target : Nat) (new_bb : New_block) (e : Edge)
    (v : Nat) :
    (g.with_bb_between source target new_bb e).out_edges v
      = (g.out_edges v).filter (fun x => !(x.edge == e.edge))
        ++ (if source = v then [⟨g.next_edge, source, g.next_vertex, e.direction⟩] else [])
        ++ (if g.next_vertex = v then [⟨g.next_edge + 1, g.next_vertex, target, none⟩] else []) := by
  simp only [CFG.out_edges, CFG.with_bb_between, List.filter_append, List.filter_filter,
    List.filter_cons, List.filter_nil, beq_iff_eq, List.append_assoc]
  congr 1
  · apply List.filter_congr
    intro x _
    exact Bool.and_comm _ _
  · by_cases h1 : source = v <;> by_cases h2 : g.next_vertex = v <;> simp [h1, h2]

theorem with_bb_between_in_edges (g : CFG) (source target : Nat) (new_bb : New_block) (e : Edge)
    (v : Nat) :
    (g.with_bb_between source target new_bb e).in_edges v
      = (g.in_edges v).filter (fun x => !(x.edge == e.edge))
        ++ (if g.next_vertex = v then [⟨g.next_edge, source, g.next_vertex, e.direction⟩] else [])
        ++ (if target = v then [⟨g.next_edge + 1, g.next_vertex, target, none⟩] else []) := by
  simp only [CFG.in_edges, CFG.with_bb_between, List.filter_append, List.filter_filter,
    List.filter_cons, List.filter_nil, beq_iff_eq, List.append_assoc]
  congr 1
  · apply List.filter_congr
    intro x _
    exact Bool.and_comm _ _
  · by_cases h1 : target = v <;> by_cases h2 : g.next_vertex = v <;> simp [h1, h2]

theorem with_bb_between_out_degree (g : CFG) (source target : Nat) (new_bb : New_block)
    (e : Edge) (v : Nat) (hf : g.ids_fresh) (he : e ∈ g.edges) (hs : e.source = source)
    (hv : v ≠ g.next_vertex) :
    ((g.with_bb_between source target new_bb e).out_edges v).length = (g.out_edges v).length := by
  rw [with_bb_between_out_edges]
  have h := filter_ne_id_length g.edges e (fun x => x.source == v) hf.2.2 he
  have hv2 : ¬ g.next_vertex = v := fun x => hv x.symm
  simp only [CFG.out_edges, List.length_append, hv2, if_false, List.length_nil, Nat.add_zero]
  rw [← h]
  by_cases h1 : source = v
  · have : (e.source == v) = true := by simp [hs, h1]
    simp [h1, this]
  · have : (e.source == v) = false := by rw [beq_eq_false_iff_ne, hs]; exact h1
    simp [h1, this]

theorem with_bb_between_in_degree (g : CFG) (source target : Nat) (new_bb : New_block)
    (e : Edge) (v : Nat) (hf : g.ids_fresh) (he : e ∈ g.edges) (hs : e.target = target)
    (hv : v ≠ g.next_vertex) :
    ((g.with_bb_between source target new_bb e).in_edges v).length = (g.in_edges v).length := by
  rw [with_bb_between_in_edges]
  have h := filter_ne_id_length g.edges e (fun x => x.target == v) hf.2.2 he
  have hv2 : ¬ g.next_vertex = v := fun x => hv x.symm
  simp only [CFG.in_edges, List.length_append, hv2, if_false, List.length_nil, Nat.add_zero]
  rw [← h]
  by_cases h1 : target = v
  · have : (e.target == v) = true := by simp [hs, h1]
    simp [h1, this]
  · have : (e.target == v) = false := by rw [beq_eq_false_iff_ne, hs]; exact h1
    simp [h1, this]

theorem edges_at_fresh_vertex (g : CFG) (hf : g.ids_fresh) :
    g.in_edges g.next_vertex = [] ∧ g.out_edges g.next_vertex = [] := by
  constructor
  · simp only [CFG.in_edges, List.filter_eq_nil_iff, beq_iff_eq]
    intro x hx h
    have := (hf.2.1 x hx).2.2
    omega
  · simp only [CFG.out_edges, List.filter_eq_nil_iff, beq_iff_eq]
    intro x hx h
    have := (hf.2.1 x hx).2.1
    omega

theorem filter_ne_id_eq_erase (l : List Edge) (e : Edge)
    (hn : (l.map (fun x => x.edge)).Nodup) (he : e ∈ l) :
    l.filter (fun x => !(x.edge == e.edge)) = l.erase e := by
  induction l with
  | nil => rfl
  | cons x r ih =>
    simp only [List.map_cons, List.nodup_cons, List.mem_map, not_exists, not_and] at hn
    by_cases hxe : x = e
    · subst hxe
      simp only [List.filter_cons, beq_self_eq_true, Bool.not_true, List.erase_cons_head]
      apply List.filter_eq_self.2
      intro y hy
      have := hn.1 y hy
      simpa using this
    · have hr : e ∈ r := by
        rcases List.mem_cons.1 he with h | h
        · exact absurd h.symm hxe
        · exact h
      have hid : (x.edge == e.edge) = false := by
        rw [beq_eq_false_iff_ne]
        intro h
        exact hn.1 e hr h.symm
      have hb : ¬ (x == e) = true := by simpa using hxe
      rw [List.erase_cons_tail hb]
      simp only [List.filter_cons, hid, Bool.not_false, if_true]
      rw [ih hn.2 hr]

theorem vb_append_fresh (b : Basic_block) (bs : List Basic_block)
    (h : ∀ x ∈ bs, x.vertex ≠ b.vertex) :
    (bs ++ [b]).find? (fun x => x.vertex == b.vertex) = some b := by
  induction bs with
  | nil => simp
  | cons x r ih =>
    have hx : (x.vertex == b.vertex) = false := by
      rw [beq_eq_false_iff_ne]; exact h x (List.mem_cons_self _ _)
    simp only [List.cons_append, List.find?_cons, hx]
    exact ih (fun y hy => h y (List.mem_cons_of_mem _ hy))

/-- C12: `add_bb_between` splits one edge.  On a graph whose descriptors are not
reused and in which `get_edge (src, dst)` finds the edge `e`, the call returns;
the new block has exactly one incoming edge, from `src` and tagged as `e` was,
and exactly one outgoing edge, to `dst` and not tagged; `e` is gone; the edges
are the former ones without `e`, in their order, followed by the two new ones,
so a parallel edge from `src` to `dst` stays; and `src` keeps its out-degree
and `dst` its in-degree. -/
theorem C12_add_bb_between_splits_one_edge (g : CFG) (src dst : Nat) (new_bb : New_block)
    (e : Edge) (hf : g.ids_fresh) (h : g.get_edge src dst = .ok e) :
    ∃ g2, g.add_bb_between src dst new_bb = .ok g2
      ∧ g2.vb g.next_vertex = some ⟨g.next_vertex, new_bb.kind, new_bb.phis⟩
      ∧ g2.in_edges g.next_vertex = [⟨g.next_edge, src, g.next_vertex, e.direction⟩]
      ∧ g2.out_edges g.next_vertex = [⟨g.next_edge + 1, g.next_vertex, dst, none⟩]
      ∧ e ∉ g2.edges
      ∧ g2.edges = g.edges.erase e ++ [⟨g.next_edge, src, g.next_vertex, e.direction⟩,
          ⟨g.next_edge + 1, g.next_vertex, dst, none⟩]
      ∧ (∀ x ∈ g.edges, x ≠ e → x ∈ g2.edges)
      ∧ (g2.out_edges src).length = (g.out_edges src).length
      ∧ (g2.in_edges dst).length = (g.in_edges dst).length := by
  obtain ⟨hm, hs, ht⟩ := get_edge_mem g src dst e h
  have hlt := hf.2.1 e hm
  have hsrc : src ≠ g.next_vertex := by omega
  have hdst : dst ≠ g.next_vertex := by omega
  have hsrc2 : ¬ g.next_vertex = src := fun x => hsrc x.symm
  have hdst2 : ¬ g.next_vertex = dst := fun x => hdst x.symm
  have hedges : (g.with_bb_between src dst new_bb e).edges
      = g.edges.erase e ++ [⟨g.next_edge, src, g.next_vertex, e.direction⟩,
          ⟨g.next_edge + 1, g.next_vertex, dst, none⟩] := by
    rw [← filter_ne_id_eq_erase g.edges e hf.2.2 hm]
    rfl
  refine ⟨_, add_bb_between_eq g src dst new_bb e hf h, ?_, ?_, ?_, ?_, hedges, ?_,
    with_bb_between_out_degree g src dst new_bb e src hf hm hs hsrc,
    with_bb_between_in_degree g src dst new_bb e dst hf hm ht hdst⟩
  · exact vb_append_fresh ⟨g.next_vertex, new_bb.kind, new_bb.phis⟩ g.blocks
      (fun x hx => by have := hf.1 x hx; simp only [ne_eq]; omega)
  · rw [with_bb_between_in_edges, (edges_at_fresh_vertex g hf).1]
    simp [hdst]
  · rw [with_bb_between_out_edges, (edges_at_fresh_vertex g hf).2]
    simp [hsrc]
  · simp only [CFG.with_bb_between, List.mem_append, List.mem_filter, beq_self_eq_true,
      Bool.not_true, List.mem_cons, List.mem_singleton, List.not_mem_nil, or_false]
    rintro (⟨-, hx⟩ | hx | hx)
    · simp at hx
    · have := congrArg Edge.edge hx
      simp only at this
      omega
    · have := congrArg Edge.edge hx
      simp only at this
      omega
  · intro x hx hne
    rw [hedges]
    apply List.mem_append_left
    exact (List.mem_erase_of_ne hne).2 hx

/-- The split of the True edge of a Branch block whose two edges go to the same
block: the False edge stays. -/
theorem C12_add_bb_between_splits_one_edge_witness :
    parallel_branch_graph.ids_fresh
      ∧ parallel_branch_graph.get_edge 2 3 = .ok ⟨1, 2, 3, some true⟩
      ∧ ∃ g2, parallel_branch_graph.add_bb_between 2 3 ⟨.Empty_block, []⟩ = .ok g2
        ∧ g2.vb 4 = some ⟨4, .Empty_block, []⟩
        ∧ g2.in_edges 4 = [⟨4, 2, 4, some true⟩]
        ∧ g2.out_edges 4 = [⟨5, 4, 3, none⟩]
        ∧ (⟨1, 2, 3, some true⟩ : Edge) ∉ g2.edges
        ∧ g2.edges = parallel_branch_graph.edges.erase ⟨1, 2, 3, some true⟩
            ++ [⟨4, 2, 4, some true⟩, ⟨5, 4, 3, none⟩]
        ∧ (∀ x ∈ parallel_branch_graph.edges, x ≠ ⟨1, 2, 3, some true⟩ → x ∈ g2.edges)
        ∧ (g2.out_edges 2).length = (parallel_branch_graph.out_edges 2).length
        ∧ (g2.in_edges 3).length = (parallel_branch_graph.in_edges 3).length :=
  ⟨by decide, rfl,
    C12_add_bb_between_splits_one_edge parallel_branch_graph 2 3 ⟨.Empty_block, []⟩
      ⟨1, 2, 3, some true⟩ (by decide) rfl⟩

/-! ## Phi elimination -/

theorem grown_refl (g : CFG) (hf : g.ids_fresh) : Grown g g [] := by
  refine ⟨hf, by simp, by simp, by simp, fun v _ => ⟨rfl, rfl⟩, ?_⟩
  intro v h1 h2
  omega

theorem grown_trans (g g1 g2 : CFG) (i1 i2 : List Basic_block) (h1 : Grown g g1 i1)
    (h2 : Grown g1 g2 i2) : Grown g g2 (i1 ++ i2) := by
  obtain ⟨-, b1, n1, c1, d1, e1⟩ := h1
  obtain ⟨f2, b2, n2, c2, d2, e2⟩ := h2
  refine ⟨f2, by rw [b2, b1, List.append_assoc], by rw [n2, n1, List.length_append]; omega,
    ?_, ?_, ?_⟩
  · intro b hb
    rcases List.mem_append.1 hb with h | h
    · exact c1 b h
    · obtain ⟨x, y, z⟩ := c2 b h
      exact ⟨x, y, by omega⟩
  · intro v hv
    have hv1 : v < g1.next_vertex := by omega
    rw [(d2 v hv1).1, (d2 v hv1).2]
    exact d1 v hv
  · intro v hv1 hv2
    by_cases h : v < g1.next_vertex
    · rw [(d2 v h).1, (d2 v h).2]
      exact e1 v hv1 h
    · exact e2 v (by omega) hv2

theorem with_bb_between_ids_fresh (g : CFG) (source target : Nat) (new_bb : New_block)
    (e : Edge) (hf : g.ids_fresh) (hs : source < g.next_vertex) (ht : target < g.next_vertex) :
    (g.with_bb_between source target new_bb e).ids_fresh := by
  obtain ⟨h1, h2, h3⟩ := hf
  refine ⟨?_, ?_, ?_⟩
  · intro b hb
    simp only [CFG.with_bb_between, List.mem_append, List.mem_singleton] at hb ⊢
    rcases hb with hb | rfl
    · have := h1 b hb
      omega
    · simp
  · intro x hx
    simp only [CFG.with_bb_between, List.mem_append, List.mem_filter, List.mem_cons,
      List.mem_singleton, List.not_mem_nil, or_false] at hx ⊢
    rcases hx with ⟨hx, -⟩ | rfl | rfl
    · have := h2 x hx
      omega
    · simp only
      omega
    · simp only
      omega
  · simp only [CFG.with_bb_between, List.map_append, List.map_cons, List.map_nil]
    rw [List.nodup_append]
    refine ⟨(h3.sublist (List.Sublist.map _ (List.filter_sublist _))), by simp, ?_⟩
    intro a ha hb
    simp only [List.mem_map, List.mem_filter] at ha
    obtain ⟨x, ⟨hx, -⟩, rfl⟩ := ha
    have := (h2 x hx).1
    simp only [List.mem_cons, List.mem_singleton, List.not_mem_nil, or_false] at hb
    omega

theorem with_bb_between_grown (g : CFG) (source target lhs var_name : Nat) (e : Edge)
    (hf : g.ids_fresh) (he : e ∈ g.edges) (hs : e.source = source) (ht : e.target = target) :
    Grown g (g.with_bb_between source target ⟨.Statement_block (.Assign_var lhs var_name), []⟩ e)
      [⟨g.next_vertex, .Statement_block (.Assign_var lhs var_name), []⟩] := by
  have hlt := hf.2.1 e he
  have hs1 : source < g.next_vertex := by omega
  have ht1 : target < g.next_vertex := by omega
  refine ⟨with_bb_between_ids_fresh g source target _ e hf hs1 ht1, rfl, rfl, ?_, ?_, ?_⟩
  · intro b hb
    simp only [List.mem_singleton] at hb
    subst hb
    exact ⟨rfl, rfl, le_refl _⟩
  · intro v hv
    exact ⟨with_bb_between_in_degree g source target _ e v hf he ht (by omega),
      with_bb_between_out_degree g source target _ e v hf he hs (by omega)⟩
  · intro v hv1 hv2
    have hv : v = g.next_vertex := by
      have : (g.with_bb_between source target
        ⟨.Statement_block (.Assign_var lhs var_name), []⟩ e).next_vertex = g.next_vertex + 1 := rfl
      omega
    subst hv
    rw [with_bb_between_in_edges, with_bb_between_out_edges, (edges_at_fresh_vertex g hf).1,
      (edges_at_fresh_vertex g hf).2]
    have h1 : ¬ target = g.next_vertex := by omega
    have h2 : ¬ source = g.next_vertex := by omega
    simp [h1, h2]

theorem get_edge_of_count (g : CFG) (p bb : Nat) (h : 0 < g.edge_count p bb) :
    ∃ e, g.get_edge p bb = .ok e := by
  unfold CFG.get_edge
  cases hfind : (g.out_edges p).find? (fun e => e.target == bb) with
  | some e => exact ⟨e, rfl⟩
  | none =>
    exfalso
    rw [List.find?_eq_none] at hfind
    unfold CFG.edge_count at h
    obtain ⟨x, hx⟩ := List.exists_mem_of_length_pos h
    simp only [List.mem_filter, Bool.and_eq_true, beq_iff_eq] at hx
    have := hfind x (by simp [CFG.out_edges, hx.1, hx.2.1])
    simp [hx.2.2] at this

theorem with_bb_between_edge_count (g : CFG) (source target : Nat) (new_bb : New_block)
    (e : Edge) (p bb : Nat) (hf : g.ids_fresh) (he : e ∈ g.edges) :
    (g.with_bb_between source target new_bb e).edge_count p bb
        + (if e.source = p ∧ e.target = bb then 1 else 0)
      ≥ g.edge_count p bb := by
  have h := filter_ne_id_length g.edges e (fun x => x.source == p && x.target == bb) hf.2.2 he
  simp only [CFG.edge_count, CFG.with_bb_between, List.filter_append, List.length_append]
  simp only [List.filter_filter] at h
  have hc : List.filter (fun x => x.source == p && x.target == bb)
      (List.filter (fun x => !(x.edge == e.edge)) g.edges)
      = List.filter (fun a => (!(a.edge == e.edge)) && (a.source == p && a.target == bb))
          g.edges := by
    rw [List.filter_filter]
    apply List.filter_congr
    intro x _
    exact Bool.and_comm _ _
  rw [hc]
  by_cases hq : e.source = p ∧ e.target = bb
  · simp only [hq, and_self, if_true] at h ⊢
    simp only [beq_self_eq_true, Bool.and_self, if_true] at h
    omega
  · have : (e.source == p && e.target == bb) = false := by
      simpa [Bool.and_eq_false_iff] using hq
    simp only [this, hq, if_false] at h ⊢
    simp at h
    omega

theorem predecessors_count (g : CFG) (p bb : Nat) :
    (g.get_bb_predecessors bb).count p = g.edge_count p bb := by
  unfold CFG.get_bb_predecessors CFG.in_edges CFG.edge_count
  induction g.edges with
  | nil => rfl
  | cons x r ih =>
    by_cases h1 : x.target = bb <;> by_cases h2 : x.source = p <;>
      simp [List.filter_cons, h1, h2, List.count_cons, ih]

theorem insert_copies_grown (bb lhs : Nat) (args : List Nat) :
    ∀ (preds : List Nat) (g : CFG), g.ids_fresh → args.length ≤ preds.length →
      (∀ p, preds.count p ≤ g.edge_count p bb) →
      ∃ g2 ins, CFG.insert_copies bb lhs args preds g = .ok g2 ∧ Grown g g2 ins
        ∧ ins.length = args.length := by
  induction args with
  | nil =>
    intro preds g hf _ _
    exact ⟨g, [], rfl, grown_refl g hf, rfl⟩
  | cons a args ih =>
    intro preds g hf hlen hm
    cases preds with
    | nil => simp at hlen
    | cons p ps =>
      have hp : 0 < g.edge_count p bb := by
        have := hm p
        simp only [List.count_cons_self] at this
        omega
      obtain ⟨e, he⟩ := get_edge_of_count g p bb hp
      obtain ⟨hmem, hs, ht⟩ := get_edge_mem g p bb e he
      have hg1 := with_bb_between_grown g p bb lhs a e hf hmem hs ht
      have hm1 : ∀ q, ps.count q
          ≤ (g.with_bb_between p bb ⟨.Statement_block (.Assign_var lhs a), []⟩ e).edge_count
              q bb := by
        intro q
        have h1 := with_bb_between_edge_count g p bb
          ⟨.Statement_block (.Assign_var lhs a), []⟩ e q bb hf hmem
        have h2 := hm q
        rw [List.count_cons] at h2
        by_cases hq : p = q
        · subst hq
          simp only [hs, ht, and_self, if_true] at h1
          simp only [beq_self_eq_true, if_true] at h2
          omega
        · have hq2 : ¬ (e.source = q ∧ e.target = bb) := by
            rintro ⟨x, -⟩
            exact hq (hs.symm.trans x)
          have hq3 : (p == q) = false := by rw [beq_eq_false_iff_ne]; exact hq
          simp only [hq2, if_false] at h1
          simp only [hq3] at h2
          simp at h2
          omega
      obtain ⟨g2, ins, h2, hg2, hl2⟩ := ih ps _ hg1.1 (by simpa using hlen) hm1
      refine ⟨g2, _ :: ins, ?_, grown_trans _ _ _ _ _ hg1 hg2, by simp [hl2]⟩
      simp only [CFG.insert_copies, add_bb_between_eq g p bb _ e hf he]
      exact h2

theorem eliminate_phis_grown (bb : Nat) (phis : List Phi) :
    ∀ (g : CFG), g.ids_fresh → bb < g.next_vertex →
      (∀ phi ∈ phis, phi.args.length ≤ (g.in_edges bb).length) →
      ∃ g2 ins, CFG.eliminate_phis bb phis g = .ok g2 ∧ Grown g g2 ins
        ∧ ins.length = (phis.map (fun p => p.args.length)).sum := by
  induction phis with
  | nil =>
    intro g hf _ _
    exact ⟨g, [], rfl, grown_refl g hf, rfl⟩
  | cons phi rest ih =>
    intro g hf hbb hargs
    have h0 := hargs phi (List.mem_cons_self _ _)
    obtain ⟨g1, i1, h1, hg1, hl1⟩ := insert_copies_grown bb phi.lhs phi.get_args
      (g.get_bb_predecessors bb) g hf
      (by simpa [Phi.get_args, CFG.get_bb_predecessors] using h0)
      (fun p => le_of_eq (predecessors_count g p bb))
    have hdeg := (hg1.2.2.2.2.1 bb hbb).1
    obtain ⟨g2, i2, h2, hg2, hl2⟩ := ih g1 hg1.1 (by rw [hg1.2.2.1]; omega)
      (fun p hp => by rw [hdeg]; exact hargs p (List.mem_cons_of_mem _ hp))
    refine ⟨g2, i1 ++ i2, ?_, grown_trans _ _ _ _ _ hg1 hg2, ?_⟩
    · simp only [CFG.eliminate_phis, h1]
      exact h2
    · simp [hl1, hl2, Phi.get_args]

theorem remove_phi_nodes_eq (g : CFG) (bb : Nat) : g.remove_phi_nodes bb = g.strip_phis [bb] := by
  simp only [CFG.remove_phi_nodes, CFG.set_phis, CFG.strip_phis, List.mem_singleton, beq_iff_eq]

theorem strip_phis_strip_phis (g : CFG) (bb : Nat) (vs : List Nat) :
    (g.strip_phis [bb]).strip_phis vs = g.strip_phis (bb :: vs) := by
  simp only [CFG.strip_phis, List.map_map, List.mem_singleton, List.mem_cons]
  congr 1
  apply List.map_congr_left
  intro b _
  by_cases h1 : b.vertex = bb <;> by_cases h2 : b.vertex ∈ vs <;> simp [h1, h2]

theorem strip_phis_ids_fresh (g : CFG) (vs : List Nat) (hf : g.ids_fresh) :
    (g.strip_phis vs).ids_fresh := by
  obtain ⟨h1, h2, h3⟩ := hf
  refine ⟨?_, h2, h3⟩
  intro b hb
  simp only [CFG.strip_phis, List.mem_map] at hb ⊢
  obtain ⟨x, hx, rfl⟩ := hb
  have := h1 x hx
  split <;> exact this

theorem grown_strip (g g2 : CFG) (ins : List Basic_block) (vs : List Nat) (h : Grown g g2 ins) :
    Grown (g.strip_phis vs) (g2.strip_phis vs) ins := by
  obtain ⟨a, b, c, d, e, f⟩ := h
  refine ⟨strip_phis_ids_fresh g2 vs a, ?_, c, d, e, f⟩
  simp only [CFG.strip_phis, b, List.map_append]
  congr 1
  conv_rhs => rw [← List.map_id ins]
  apply List.map_congr_left
  intro x hx
  have := (d x hx).1
  split
  · cases x
    simp only at this
    simp [this]
  · rfl

theorem grown_get_phi_nodes (g g2 : CFG) (ins : List Basic_block) (h : Grown g g2 ins)
    (bb : Nat) (hbb : bb < g.next_vertex) : g2.get_phi_nodes bb = g.get_phi_nodes bb := by
  obtain ⟨-, b, -, d, -, -⟩ := h
  have hnone : ins.find? (fun x => x.vertex == bb) = none := by
    rw [List.find?_eq_none]
    intro x hx
    have := (d x hx).2.2
    simp only [beq_iff_eq]
    omega
  simp only [CFG.get_phi_nodes, CFG.vb, b, List.find?_append, hnone, Option.or_none]

theorem strip_phis_get_phi_nodes (g : CFG) (vs : List Nat) (bb : Nat) (h : bb ∉ vs) :
    (g.strip_phis vs).get_phi_nodes bb = g.get_phi_nodes bb := by
  simp only [CFG.get_phi_nodes, CFG.vb, CFG.strip_phis]
  induction g.blocks with
  | nil => rfl
  | cons x r ih =>
    by_cases hx : x.vertex = bb
    · have hv : x.vertex ∉ vs := by rw [hx]; exact h
      simp [List.find?_cons, hx, hv, h]
    · have h1 : (x.vertex == bb) = false := by rw [beq_eq_false_iff_ne]; exact hx
      have h2 : ((if x.vertex ∈ vs then { x with phis := [] } else x).vertex == bb) = false := by
        split <;> exact h1
      simp only [List.map_cons, List.find?_cons, h1, h2]
      exact ih

theorem out_of_ssa_loop_grown (rest : List Nat) :
    ∀ (g : CFG), g.ids_fresh → rest.Nodup → (∀ bb ∈ rest, bb < g.next_vertex) →
      (∀ bb ∈ rest, ∀ phi ∈ g.get_phi_nodes bb, phi.args.length ≤ (g.in_edges bb).length) →
      ∃ g2 ins, CFG.out_of_ssa_loop rest g = .ok g2 ∧ Grown (g.strip_phis rest) g2 ins
        ∧ ins.length
            = (rest.map (fun bb => ((g.get_phi_nodes bb).map (fun p => p.args.length)).sum)).sum := by
  induction rest with
  | nil =>
    intro g hf _ _ _
    refine ⟨g, [], rfl, ?_, rfl⟩
    have : g.strip_phis [] = g := by simp [CFG.strip_phis]
    rw [this]
    exact grown_refl g hf
  | cons bb rest ih =>
    intro g hf hn hlt hargs
    obtain ⟨g1, i1, h1, hg1, hl1⟩ := eliminate_phis_grown bb (g.get_phi_nodes bb) g hf
      (hlt bb (List.mem_cons_self _ _)) (hargs bb (List.mem_cons_self _ _))
    have hs1 : Grown (g.strip_phis [bb]) (g1.remove_phi_nodes bb) i1 := by
      rw [remove_phi_nodes_eq]
      exact grown_strip _ _ _ _ hg1
    have hnv : (g1.remove_phi_nodes bb).next_vertex = g.next_vertex + i1.length := hs1.2.2.1
    obtain ⟨g2, i2, h2, hg2, hl2⟩ := ih (g1.remove_phi_nodes bb) hs1.1 (List.nodup_cons.1 hn).2
      (fun x hx => by rw [hnv]; have := hlt x (List.mem_cons_of_mem _ hx); omega)
      (fun x hx phi hphi => by
        have hxb : x ∉ [bb] := by
          simp only [List.mem_singleton]
          rintro rfl
          exact (List.nodup_cons.1 hn).1 hx
        have hxlt := hlt x (List.mem_cons_of_mem _ hx)
        rw [remove_phi_nodes_eq, strip_phis_get_phi_nodes _ _ _ hxb,
          grown_get_phi_nodes _ _ _ hg1 x hxlt] at hphi
        have hd : ((g1.remove_phi_nodes bb).in_edges x).length = (g.in_edges x).length :=
          (hg1.2.2.2.2.1 x hxlt).1
        rw [hd]
        exact hargs x (List.mem_cons_of_mem _ hx) phi hphi)
    refine ⟨g2, i1 ++ i2, ?_, ?_, ?_⟩
    · simp only [CFG.out_of_ssa_loop, h1]
      exact h2
    · have := grown_strip _ _ _ rest hs1
      rw [strip_phis_strip_phis] at this
      exact grown_trans _ _ _ _ _ this hg2
    · rw [List.length_append, hl1, hl2, List.map_cons, List.sum_cons]
      congr 2
      apply List.map_congr_left
      intro x hx
      have hxb : x ∉ [bb] := by
        simp only [List.mem_singleton]
        rintro rfl
        exact (List.nodup_cons.1 hn).1 hx
      rw [remove_phi_nodes_eq, strip_phis_get_phi_nodes _ _ _ hxb,
        grown_get_phi_nodes _ _ _ hg1 x (hlt x (List.mem_cons_of_mem _ hx))]

theorem vb_of_mem_nodup (g : CFG) (b : Basic_block) (hn : g.get_all_bbs.Nodup)
    (hb : b ∈ g.blocks) : g.vb b.vertex = some b := by
  unfold CFG.vb
  unfold CFG.get_all_bbs at hn
  generalize g.blocks = l at hn hb
  induction l with
  | nil => simp at hb
  | cons x r ih =>
    simp only [List.map_cons, List.nodup_cons, List.mem_map, not_exists, not_and] at hn
    rcases List.mem_cons.1 hb with rfl | h
    · simp
    · have hx : (x.vertex == b.vertex) = false := by
        rw [beq_eq_false_iff_ne]
        intro e
        exact hn.1 b h e.symm
      simp only [List.find?_cons, hx]
      exact ih hn.2 h

theorem get_phi_nodes_of_mem (g : CFG) (b : Basic_block) (hn : g.get_all_bbs.Nodup)
    (hb : b ∈ g.blocks) : g.get_phi_nodes b.vertex = b.phis := by
  simp only [CFG.get_phi_nodes, vb_of_mem_nodup g b hn hb]

/-- C13: phi elimination leaves no phi node.  On a graph whose descriptors are
not reused and in which no phi node has more arguments than its block has
incoming edges, `convert_out_of_ssa_form` returns; the blocks of the result are
the former blocks without their phi nodes, followed by the inserted blocks; no
block holds a phi node; there are as many more blocks as the phi nodes had
arguments; and every inserted block is a Statement block with exactly one
predecessor and exactly one successor. -/
theorem C13_phi_elimination (g : CFG) (hf : g.ids_fresh) (hn : g.get_all_bbs.Nodup)
    (hargs : ∀ b ∈ g.blocks, ∀ phi ∈ b.phis,
      phi.args.length ≤ (g.get_bb_predecessors b.vertex).length) :
    ∃ g2 ins, g.convert_out_of_ssa_form = .ok g2
      ∧ g2.blocks = g.blocks.map (fun b => { b with phis := [] }) ++ ins
      ∧ (∀ b ∈ g2.blocks, b.phis = [])
      ∧ g2.blocks.length = g.blocks.length + phi_arg_count g.blocks
      ∧ ∀ b ∈ ins, b.kind.is_statement = true
          ∧ (g2.get_bb_predecessors b.vertex).length = 1
          ∧ (g2.get_bb_successors b.vertex).length = 1 := by
  have hlt : ∀ bb ∈ g.get_all_bbs, bb < g.next_vertex := by
    intro bb hbb
    simp only [CFG.get_all_bbs, List.mem_map] at hbb
    obtain ⟨b, hb, rfl⟩ := hbb
    exact hf.1 b hb
  have hargs2 : ∀ bb ∈ g.get_all_bbs, ∀ phi ∈ g.get_phi_nodes bb,
      phi.args.length ≤ (g.in_edges bb).length := by
    intro bb hbb phi hphi
    simp only [CFG.get_all_bbs, List.mem_map] at hbb
    obtain ⟨b, hb, rfl⟩ := hbb
    rw [get_phi_nodes_of_mem g b hn hb] at hphi
    have := hargs b hb phi hphi
    simpa [CFG.get_bb_predecessors] using this
  obtain ⟨g2, ins, h, hg, hl⟩ := out_of_ssa_loop_grown g.get_all_bbs g hf hn hlt hargs2
  obtain ⟨hf2, hb, hnv, hins, -, hdeg⟩ := hg
  have hblocks : g2.blocks = g.blocks.map (fun b => { b with phis := [] }) ++ ins := by
    rw [hb]
    congr 1
    simp only [CFG.strip_phis]
    apply List.map_congr_left
    intro b hb
    have : b.vertex ∈ g.get_all_bbs := by
      simp only [CFG.get_all_bbs, List.mem_map]
      exact ⟨b, hb, rfl⟩
    simp [this]
  have hcount : ins.length = phi_arg_count g.blocks := by
    rw [hl]
    simp only [CFG.get_all_bbs, List.map_map, phi_arg_count]
    congr 1
    apply List.map_congr_left
    intro b hb
    simp only [Function.comp, get_phi_nodes_of_mem g b hn hb]
  refine ⟨g2, ins, h, hblocks, ?_, ?_, ?_⟩
  · intro b hb2
    rw [hblocks] at hb2
    rcases List.mem_append.1 hb2 with h1 | h1
    · simp only [List.mem_map] at h1
      obtain ⟨x, -, rfl⟩ := h1
      rfl
    · exact (hins b h1).1
  · rw [hblocks, List.length_append, List.length_map, hcount]
  · intro b hb2
    have hv := (hins b hb2).2.2
    have hv2 : b.vertex < g2.next_vertex := by
      have h1 : b ∈ g2.blocks := by rw [hblocks]; exact List.mem_append_right _ hb2
      exact hf2.1 b h1
    have := hdeg b.vertex hv hv2
    simp only [CFG.get_bb_predecessors, CFG.get_bb_successors, List.length_map]
    exact ⟨(hins b hb2).2.1, this.1, this.2⟩

/-- Phi elimination on a diamond whose join holds one phi node with two
arguments: two copy blocks are inserted. -/
theorem C13_phi_elimination_witness :
    phi_join_graph.ids_fresh ∧ phi_join_graph.get_all_bbs.Nodup
      ∧ (∀ b ∈ phi_join_graph.blocks, ∀ phi ∈ b.phis,
          phi.args.length ≤ (phi_join_graph.get_bb_predecessors b.vertex).length)
      ∧ ∃ g2 ins, phi_join_graph.convert_out_of_ssa_form = .ok g2
        ∧ g2.blocks = phi_join_graph.blocks.map (fun b => { b with phis := [] }) ++ ins
        ∧ (∀ b ∈ g2.blocks, b.phis = [])
        ∧ g2.blocks.length = phi_join_graph.blocks.length + phi_arg_count phi_join_graph.blocks
        ∧ ∀ b ∈ ins, b.kind.is_statement = true
            ∧ (g2.get_bb_predecessors b.vertex).length = 1
            ∧ (g2.get_bb_successors b.vertex).length = 1 :=
  ⟨by decide, by decide, by decide,
    C13_phi_elimination phi_join_graph (by decide) (by decide) (by decide)⟩

/-! ## A block without predecessors and the phi nodes of its successor -/

theorem set_phis_vb (g : CFG) (v w : Nat) (f : List Phi → List Phi) :
    (g.set_phis v f).vb w
      = (g.vb w).map (fun b => if b.vertex == v then { b with phis := f b.phis } else b) := by
  simp only [CFG.set_phis, CFG.vb]
  induction g.blocks with
  | nil => rfl
  | cons x r ih =>
    have hv : (if x.vertex == v then ({ x with phis := f x.phis } : Basic_block) else x).vertex
        = x.vertex := by
      split <;> rfl
    by_cases hx : x.vertex = w
    · subst hx
      simp only [List.map_cons, List.find?_cons, hv, beq_self_eq_true, Option.map_some']
    · have h1 : (x.vertex == w) = false := by rw [beq_eq_false_iff_ne]; exact hx
      simp only [List.map_cons, List.find?_cons, hv, h1]
      exact ih

theorem remove_bb_vb (g : CFG) (bb w : Nat) (h : w ≠ bb) : (g.remove_bb bb).vb w = g.vb w := by
  simp only [CFG.remove_bb, CFG.vb]
  induction g.blocks with
  | nil => rfl
  | cons x r ih =>
    by_cases hx : x.vertex = w
    · subst hx
      have h1 : (x.vertex == bb) = false := by rw [beq_eq_false_iff_ne]; exact h
      simp only [List.filter_cons, h1, Bool.not_false, if_true, List.find?_cons,
        beq_self_eq_true]
    · have h1 : (x.vertex == w) = false := by rw [beq_eq_false_iff_ne]; exact hx
      by_cases h2 : x.vertex = bb
      · have h3 : (x.vertex == bb) = true := by rw [beq_iff_eq]; exact h2
        simp only [List.filter_cons, h3, Bool.not_true, Bool.false_eq_true, if_false,
          List.find?_cons, h1]
        exact ih
      · have h3 : (x.vertex == bb) = false := by rw [beq_eq_false_iff_ne]; exact h2
        simp only [List.filter_cons, h3, Bool.not_false, if_true, List.find?_cons, h1]
        exact ih

theorem remove_bb_vb_self (g : CFG) (bb : Nat) : (g.remove_bb bb).vb bb = none := by
  simp only [CFG.remove_bb, CFG.vb, List.find?_eq_none, List.mem_filter]
  intro x hx
  simpa using hx.2

theorem set_phis_get_phi_nodes_ne (g : CFG) (v w : Nat) (f : List Phi → List Phi) (h : w ≠ v) :
    (g.set_phis v f).get_phi_nodes w = g.get_phi_nodes w := by
  simp only [CFG.get_phi_nodes, set_phis_vb]
  cases hb : g.vb w with
  | none => rfl
  | some b =>
    have : ¬ b.vertex = v := by
      rw [vb_vertex g w b hb]; exact h
    simp [this]

/-- The empty path of `replace_bb` on a block without predecessors: what is
left of the phi nodes of the successor. -/
theorem replace_bb_stray (g : CFG) (bb : Nat) (e : Edge) (sb : Basic_block)
    (hpred : g.get_bb_predecessors bb = []) (hphis : g.get_phi_nodes bb = [])
    (hsucc : g.get_successor_edge bb = .ok e) (hsb : g.vb e.target = some sb) :
    ∃ g2, g.replace_bb bb [] = .ok g2
      ∧ g2.vb e.target = some ⟨sb.vertex, sb.kind,
          List.filter (fun p => !(p.args.length == 1))
            (sb.phis.map (fun p => p.remove_arg_for_edge e.edge))⟩
      ∧ g2.vb bb = none := by
  have hin : g.in_edges bb = [] := by
    simpa [CFG.get_bb_predecessors] using hpred
  have hmem : e ∈ g.edges ∧ e.source = bb := by
    unfold CFG.get_successor_edge at hsucc
    split at hsucc
    · rename_i x hx
      simp only [Except.ok.injEq] at hsucc
      subst hsucc
      have : x ∈ g.out_edges bb := by rw [hx]; exact List.mem_singleton_self _
      simpa [CFG.out_edges] using this
    · simp at hsucc
  have hne : e.target ≠ bb := by
    intro h
    have : e ∈ g.in_edges bb := by simp [CFG.in_edges, hmem.1, h]
    rw [hin] at this
    simp at this
  have hne2 : bb ≠ e.target := fun h => hne h.symm
  have hs : g.get_successor bb = .ok e.target := by simp [CFG.get_successor, hsucc]
  have hv : sb.vertex = e.target := vb_vertex g _ sb hsb
  have hr : g.replace_bb bb [] = .ok
      ((((g.set_phis e.target (fun ps => ps.map (fun p => p.remove_arg_for_edge e.edge))).merge_phi_nodes
        e.target ((g.set_phis e.target
          (fun ps => ps.map (fun p => p.remove_arg_for_edge e.edge))).get_phi_nodes bb)).remove_bb
            bb).fix_solo_phi_args e.target) := by
    unfold CFG.replace_bb
    rw [if_neg (by simp)]
    simp only [hs, hsucc, hpred, CFG.reroute_predecessors, List.length_nil, beq_self_eq_true,
      if_true]
  refine ⟨_, hr, ?_, ?_⟩
  · rw [CFG.fix_solo_phi_args, set_phis_vb, remove_bb_vb _ _ _ hne, CFG.merge_phi_nodes,
      set_phis_vb, set_phis_vb, hsb, set_phis_get_phi_nodes_ne _ _ _ _ hne2, hphis]
    simp [hv]
  · rw [CFG.fix_solo_phi_args, set_phis_vb, remove_bb_vb_self]
    rfl

/-- C14 (as stated, it fails): block 3 of `stray_phi_graph` has no predecessor,
no phi node and the single successor 4, which holds two phi nodes, each with
one argument for the edge from block 2 and one for the edge from block 3.
After `replace_bb (3, [])` block 4 holds no phi node at all: the argument for
the edge from block 2 is not kept. -/
theorem C14_solo_phi_counterexample :
    stray_phi_graph.get_bb_predecessors 3 = []
      ∧ stray_phi_graph.get_phi_nodes 3 = []
      ∧ stray_phi_graph.get_successor 3 = .ok 4
      ∧ stray_phi_graph.get_phi_nodes 4
          = [⟨20, [(1, 21), (2, 22)]⟩, ⟨30, [(1, 31), (2, 32)]⟩]
      ∧ ∃ g2, stray_phi_graph.replace_bb 3 [] = .ok g2 ∧ g2.get_phi_nodes 4 = [] :=
  ⟨rfl, rfl, rfl, rfl, _, rfl, rfl⟩

/-- C14 (amended): let `bb` have no predecessor, no phi node of its own and the
single successor edge `e`, and let the successor hold the two phi nodes `phi1`
and `phi2`, neither of which is left with exactly one argument when its
arguments keyed by `e` are taken away.  Then `replace_bb (bb, [])` returns, `bb`
is gone, and the successor holds the two phi nodes without their arguments
keyed by `e`: the target is the same, every argument keyed by another edge is
still there with its edge and source variable, and a phi node that had exactly
one argument keyed by `e` has lost exactly one argument. -/
theorem C14_stray_block_strips_its_edge (g : CFG) (bb : Nat) (e : Edge) (sb : Basic_block)
    (phi1 phi2 : Phi) (hpred : g.get_bb_predecessors bb = []) (hphis : g.get_phi_nodes bb = [])
    (hsucc : g.get_successor_edge bb = .ok e) (hsb : g.vb e.target = some sb)
    (hp : sb.phis = [phi1, phi2])
    (h1 : (phi1.remove_arg_for_edge e.edge).args.length ≠ 1)
    (h2 : (phi2.remove_arg_for_edge e.edge).args.length ≠ 1) :
    ∃ g2, g.replace_bb bb [] = .ok g2
      ∧ g2.vb bb = none
      ∧ g2.get_phi_nodes e.target
          = [phi1.remove_arg_for_edge e.edge, phi2.remove_arg_for_edge e.edge]
      ∧ ∀ phi ∈ [phi1, phi2],
          (phi.remove_arg_for_edge e.edge).lhs = phi.lhs
            ∧ (phi.remove_arg_for_edge e.edge).args
                = phi.args.filter (fun a => !(a.1 == e.edge))
            ∧ (∀ a ∈ phi.args, a.1 ≠ e.edge → a ∈ (phi.remove_arg_for_edge e.edge).args)
            ∧ ((phi.args.filter (fun a => a.1 == e.edge)).length = 1 →
                (phi.remove_arg_for_edge e.edge).args.length + 1 = phi.args.length) := by
  obtain ⟨g2, hr, hv, hb⟩ := replace_bb_stray g bb e sb hpred hphis hsucc hsb
  refine ⟨g2, hr, hb, ?_, ?_⟩
  · have e1 : ((phi1.remove_arg_for_edge e.edge).args.length == 1) = false := by
      rw [beq_eq_false_iff_ne]; exact h1
    have e2 : ((phi2.remove_arg_for_edge e.edge).args.length == 1) = false := by
      rw [beq_eq_false_iff_ne]; exact h2
    simp only [CFG.get_phi_nodes, hv, hp, List.map_cons, List.map_nil, List.filter_cons, e1, e2,
      Bool.not_false, if_true, List.filter_nil]
  · intro phi _
    refine ⟨rfl, rfl, ?_, ?_⟩
    · intro a ha hne
      simp only [Phi.remove_arg_for_edge, List.mem_filter]
      exact ⟨ha, by simpa using hne⟩
    · intro hone
      have := List.length_eq_length_filter_add (l := phi.args) (fun a => a.1 == e.edge)
      simp only [Phi.remove_arg_for_edge]
      omega

/-- The removal of block 4 of `stray_phi_graph3`, whose successor has three
incoming edges: each of the two phi nodes keeps its two other arguments. -/
theorem C14_stray_block_strips_its_edge_witness :
    stray_phi_graph3.get_bb_predecessors 4 = [] ∧ stray_phi_graph3.get_phi_nodes 4 = []
      ∧ stray_phi_graph3.get_successor_edge 4 = .ok ⟨4, 4, 5, none⟩
      ∧ ∃ g2, stray_phi_graph3.replace_bb 4 [] = .ok g2
        ∧ g2.vb 4 = none
        ∧ g2.get_phi_nodes 5 = [⟨20, [(2, 21), (3, 22)]⟩, ⟨30, [(2, 31), (3, 32)]⟩] := by
  refine ⟨rfl, rfl, rfl, ?_⟩
  obtain ⟨g2, h1, h2, h3, -⟩ := C14_stray_block_strips_its_edge stray_phi_graph3 4
    ⟨4, 4, 5, none⟩ ⟨5, .Statement_block (.Other 9),
      [⟨20, [(2, 21), (3, 22), (4, 23)]⟩, ⟨30, [(2, 31), (3, 32), (4, 33)]⟩]⟩
    ⟨20, [(2, 21), (3, 22), (4, 23)]⟩ ⟨30, [(2, 31), (3, 32), (4, 33)]⟩ rfl rfl rfl rfl rfl
    (by decide) (by decide)
  exact ⟨g2, h1, h2, h3⟩

/-! ## The assertion after the edge pass -/

theorem create_nodes_nodes (ss : List Statement) :
    ∀ (g : CFG) (labels : List (Nat × Nat)),
      (CFG.create_nodes ss g labels).2.2 = List.range' g.next_vertex ss.length
        ∧ (CFG.create_nodes ss g labels).1.entry = g.entry
        ∧ (CFG.create_nodes ss g labels).1.exit = g.exit := by
  induction ss with
  | nil => intro g labels; exact ⟨rfl, rfl, rfl⟩
  | cons s rest ih =>
    intro g labels
    cases s <;> simp only [CFG.create_nodes, List.length_cons, List.range'_succ] <;>
      refine ⟨?_, ?_, ?_⟩ <;> simp [ih, CFG.add_bb]

theorem create_nodes_lookup (ss : List Statement) :
    ∀ (g : CFG) (labels : List (Nat × Nat)) (l : Nat),
      (Statement.Label l ∈ ss ∨ (labels.lookup l).isSome = true) →
        ((CFG.create_nodes ss g labels).2.1.lookup l).isSome = true := by
  induction ss with
  | nil =>
    intro g labels l h
    rcases h with h | h
    · simp at h
    · exact h
  | cons s rest ih =>
    intro g labels l h
    cases s with
    | Label m =>
      simp only [CFG.create_nodes]
      apply ih
      by_cases hm : l = m
      · right
        subst hm
        simp [List.lookup]
      · rcases h with h | h
        · left
          simp only [List.mem_cons, Statement.Label.injEq] at h
          rcases h with h | h
          · exact absurd h hm
          · exact h
        · right
          have : (l == m) = false := by rw [beq_eq_false_iff_ne]; exact hm
          simp only [List.lookup, this]
          exact h
    | Goto m =>
      simp only [CFG.create_nodes]
      apply ih
      rcases h with h | h
      · left; simpa using h
      · right; exact h
    | Branch c t f =>
      simp only [CFG.create_nodes]
      apply ih
      rcases h with h | h
      · left; simpa using h
      · right; exact h
    | Assign_var a b =>
      simp only [CFG.create_nodes]
      apply ih
      rcases h with h | h
      · left; simpa using h
      · right; exact h
    | Other a =>
      simp only [CFG.create_nodes]
      apply ih
      rcases h with h | h
      · left; simpa using h
      · right; exact h

theorem create_edges_defined (labels : List (Nat × Nat)) (ps : List (Statement × Nat)) :
    ∀ (g : CFG) (parent : Nat) (use_parent : Bool),
      (∀ p ∈ ps, ∀ l ∈ p.1.targets, (labels.lookup l).isSome = true) →
      ∃ g2, CFG.create_edges labels ps g parent use_parent
          = .ok (g2, final_parent ps parent, final_use_parent ps use_parent)
        ∧ g2.entry = g.entry ∧ g2.exit = g.exit ∧ g2.blocks = g.blocks := by
  induction ps with
  | nil =>
    intro g parent use_parent _
    exact ⟨g, rfl, rfl, rfl, rfl⟩
  | cons p rest ih =>
    intro g parent use_parent h
    obtain ⟨s, v⟩ := p
    have hrest : ∀ p ∈ rest, ∀ l ∈ p.1.targets, (labels.lookup l).isSome = true :=
      fun p hp => h p (List.mem_cons_of_mem _ hp)
    have hs := h (s, v) (List.mem_cons_self _ _)
    have hg1 : ∀ b : Bool, (if b then (g.add_edge parent v).1 else g).entry = g.entry
        ∧ (if b then (g.add_edge parent v).1 else g).exit = g.exit
        ∧ (if b then (g.add_edge parent v).1 else g).blocks = g.blocks := by
      intro b
      cases b <;> exact ⟨rfl, rfl, rfl⟩
    cases s with
    | Label m =>
      obtain ⟨g2, h2, a, b, c⟩ := ih (if use_parent then (g.add_edge parent v).1 else g) v true hrest
      refine ⟨g2, ?_, a.trans (hg1 _).1, b.trans (hg1 _).2.1, c.trans (hg1 _).2.2⟩
      simp only [CFG.create_edges, final_parent, final_use_parent, Statement.is_jump]
      exact h2
    | Assign_var x y =>
      obtain ⟨g2, h2, a, b, c⟩ := ih (if use_parent then (g.add_edge parent v).1 else g) v true hrest
      refine ⟨g2, ?_, a.trans (hg1 _).1, b.trans (hg1 _).2.1, c.trans (hg1 _).2.2⟩
      simp only [CFG.create_edges, final_parent, final_use_parent, Statement.is_jump]
      exact h2
    | Other x =>
      obtain ⟨g2, h2, a, b, c⟩ := ih (if use_parent then (g.add_edge parent v).1 else g) v true hrest
      refine ⟨g2, ?_, a.trans (hg1 _).1, b.trans (hg1 _).2.1, c.trans (hg1 _).2.2⟩
      simp only [CFG.create_edges, final_parent, final_use_parent, Statement.is_jump]
      exact h2
    | Goto m =>
      have hm := hs m (by simp [Statement.targets])
      obtain ⟨target, ht⟩ := Option.isSome_iff_exists.1 hm
      obtain ⟨g2, h2, a, b, c⟩ := ih
        ((if use_parent then (g.add_edge parent v).1 else g).add_edge v target).1 parent false hrest
      refine ⟨g2, ?_, a.trans (hg1 _).1, b.trans (hg1 _).2.1, c.trans (hg1 _).2.2⟩
      simp only [CFG.create_edges, ht, final_parent, final_use_parent, Statement.is_jump]
      exact h2
    | Branch x t f =>
      have h1 := hs t (by simp [Statement.targets])
      have h3 := hs f (by simp [Statement.targets])
      obtain ⟨iftrue, ht⟩ := Option.isSome_iff_exists.1 h1
      obtain ⟨iffalse, hf⟩ := Option.isSome_iff_exists.1 h3
      obtain ⟨g2, h2, a, b, c⟩ := ih
        ((if use_parent then (g.add_edge parent v).1 else g).add_branch v iftrue iffalse) parent
        false hrest
      refine ⟨g2, ?_, a.trans (hg1 _).1, b.trans (hg1 _).2.1, c.trans (hg1 _).2.2⟩
      simp only [CFG.create_edges, ht, hf, final_parent, final_use_parent, Statement.is_jump]
      exact h2

theorem final_use_parent_append (ps : List (Statement × Nat)) (s : Statement) (v : Nat) :
    ∀ (b : Bool), final_use_parent (ps ++ [(s, v)]) b = !s.is_jump := by
  induction ps with
  | nil => intro b; rfl
  | cons p rest ih =>
    intro b
    obtain ⟨x, y⟩ := p
    simp only [List.cons_append, final_use_parent]
    exact ih _

theorem final_parent_append (ps : List (Statement × Nat)) (s : Statement) (v : Nat)
    (h : s.is_jump = false) : ∀ (p : Nat), final_parent (ps ++ [(s, v)]) p = v := by
  induction ps with
  | nil => intro p; simp [final_parent, h]
  | cons q rest ih =>
    intro p
    obtain ⟨x, y⟩ := q
    simp only [List.cons_append, final_parent]
    exact ih _

theorem edge_pass_defined (g : CFG) (ss : List Statement) (hd : labels_defined ss) :
    ∃ g2, g.edge_pass ss
        = .ok (g2, final_parent (ss.zip (List.range' g.next_vertex ss.length)) g.entry,
            final_use_parent (ss.zip (List.range' g.next_vertex ss.length)) true)
      ∧ g2.exit = g.exit := by
  obtain ⟨hn, he, hx⟩ := create_nodes_nodes ss g []
  have hl : ∀ p ∈ ss.zip (CFG.create_nodes ss g []).2.2, ∀ l ∈ p.1.targets,
      ((CFG.create_nodes ss g []).2.1.lookup l).isSome = true := by
    intro p hp l hl
    obtain ⟨s, v⟩ := p
    exact create_nodes_lookup ss g [] l (Or.inl (hd s (List.of_mem_zip hp).1 l hl))
  obtain ⟨g2, h2, -, b, -⟩ := create_edges_defined (CFG.create_nodes ss g []).2.1
    (ss.zip (CFG.create_nodes ss g []).2.2) (CFG.create_nodes ss g []).1
    (CFG.create_nodes ss g []).1.entry true hl
  refine ⟨g2, ?_, b.trans hx⟩
  unfold CFG.edge_pass
  rw [h2, hn, he]

theorem add_statements_edges_eq (g : CFG) (ss : List Statement) :
    g.add_statements_edges ss =
      match g.edge_pass ss with
      | .error x => .error x
      | .ok (g2, parent, use_parent) =>
        if !use_parent then .error .assertion else .ok (g2.add_edge parent g2.exit).1 := rfl

theorem zip_range_concat (init : List Statement) (s : Statement) (v0 : Nat) :
    (init ++ [s]).zip (List.range' v0 (init ++ [s]).length)
      = init.zip (List.range' v0 init.length) ++ [(s, v0 + init.length)] := by
  rw [List.length_append, List.length_singleton, List.range'_concat,
    List.zip_append (by simp)]
  simp

/-- C20 (as stated, it fails): `[Goto 5]` ends in a Goto, and the edge pass
stops at the label that is not in the map, before the assertion is reached;
`[Goto 5, x]` ends in a plain statement, and the edge pass stops in the same
way, so no edge to the exit block is added. -/
theorem C20_undefined_label_counterexample :
    initial_graph.edge_pass [.Goto 5] = .error .undefined
      ∧ initial_graph.add_statements [.Goto 5] = .error .undefined
      ∧ initial_graph.add_statements [.Goto 5] ≠ .error .assertion
      ∧ initial_graph.edge_pass [.Goto 5, .Other 1] = .error .undefined
      ∧ initial_graph.add_statements_edges [.Goto 5, .Other 1] = .error .undefined :=
  ⟨rfl, rfl, (fun h => by
    have h2 : initial_graph.add_statements [Statement.Goto 5] = .error .undefined := rfl
    rw [h2] at h
    cases h), rfl, rfl⟩

/-- C20 (amended): let every label that a Goto or a Branch of the list names be
defined by a Label of the list.  If the last statement is a Goto or a Branch,
the edge pass ends with `use_parent` false, and `add_statements` fails on
`assert (use_parent)`: no graph is produced.  If the list is empty, the edge
pass ends with `use_parent` true and `parent` the entry block; if the last
statement is of any other kind, it ends with `use_parent` true and `parent`
the block of that statement; in both cases the assertion holds and the graph
handed to `tidy_up` has the edges of the edge pass followed by exactly one more
edge, from `parent` to the exit block. -/
theorem C20_assertion_after_edge_pass (g : CFG) (ss : List Statement)
    (hd : labels_defined ss) :
    (∀ init s, ss = init ++ [s] → s.is_jump = true →
        (∃ g2 parent, g.edge_pass ss = .ok (g2, parent, false))
          ∧ g.add_statements_edges ss = .error .assertion
          ∧ g.add_statements ss = .error .assertion)
      ∧ (ss = [] →
          ∃ g2, g.edge_pass ss = .ok (g2, g.entry, true)
            ∧ ∃ g3, g.add_statements_edges ss = .ok g3
              ∧ g3.edges = g2.edges ++ [⟨g2.next_edge, g.entry, g.exit, none⟩]
              ∧ g3.blocks = g2.blocks)
      ∧ (∀ init s, ss = init ++ [s] → s.is_jump = false →
          (ss.zip (CFG.create_nodes ss g []).2.2).getLast? = some (s, g.next_vertex + init.length)
            ∧ ∃ g2, g.edge_pass ss = .ok (g2, g.next_vertex + init.length, true)
              ∧ ∃ g3, g.add_statements_edges ss = .ok g3
                ∧ g3.edges
                    = g2.edges ++ [⟨g2.next_edge, g.next_vertex + init.length, g.exit, none⟩]
                ∧ g3.blocks = g2.blocks) := by
  obtain ⟨g2, h2, hx⟩ := edge_pass_defined g ss hd
  refine ⟨?_, ?_, ?_⟩
  · intro init s hss hs
    subst hss
    rw [zip_range_concat, final_use_parent_append, hs] at h2
    refine ⟨⟨g2, _, h2⟩, ?_, ?_⟩
    · rw [add_statements_edges_eq, h2]
      rfl
    · rw [add_statements_eq, add_statements_edges_eq, h2]
      rfl
  · intro hss
    subst hss
    have h3 : g.edge_pass [] = .ok (g2, g.entry, true) := h2
    refine ⟨g2, h3, (g2.add_edge g.entry g2.exit).1, ?_, ?_, rfl⟩
    · rw [add_statements_edges_eq, h3]
      rfl
    · simp only [CFG.add_edge, CFG.add_edge_dir, hx]
  · intro init s hss hs
    subst hss
    rw [zip_range_concat, final_use_parent_append, final_parent_append _ _ _ hs, hs] at h2
    have h3 : g.edge_pass (init ++ [s]) = .ok (g2, g.next_vertex + init.length, true) := h2
    refine ⟨?_, g2, h3, (g2.add_edge (g.next_vertex + init.length) g2.exit).1, ?_, ?_, rfl⟩
    · rw [(create_nodes_nodes _ g []).1, zip_range_concat]
      simp
    · rw [add_statements_edges_eq, h3]
      rfl
    · simp only [CFG.add_edge, CFG.add_edge_dir, hx]

/-- The three cases at `[Label 5, Goto 5]`, `[]` and `[Goto 5, Label 5, x]`. -/
theorem C20_assertion_after_edge_pass_witness :
    labels_defined [.Label 5, .Goto 5]
      ∧ CFG.build [.Label 5, .Goto 5] = .error .assertion
      ∧ labels_defined []
      ∧ (∃ g2, initial_graph.edge_pass [] = .ok (g2, 0, true)
          ∧ ∃ g3, initial_graph.add_statements_edges [] = .ok g3
            ∧ g3.edges = g2.edges ++ [⟨g2.next_edge, 0, 1, none⟩] ∧ g3.blocks = g2.blocks)
      ∧ labels_defined [.Goto 5, .Label 5, .Other 1]
      ∧ (∃ g2, initial_graph.edge_pass [.Goto 5, .Label 5, .Other 1] = .ok (g2, 4, true)
          ∧ ∃ g3, initial_graph.add_statements_edges [.Goto 5, .Label 5, .Other 1] = .ok g3
            ∧ g3.edges = g2.edges ++ [⟨g2.next_edge, 4, 1, none⟩] ∧ g3.blocks = g2.blocks) :=
  ⟨by decide,
    ((C20_assertion_after_edge_pass initial_graph [.Label 5, .Goto 5] (by decide)).1
      [.Label 5] (.Goto 5) rfl rfl).2.2,
    by decide,
    (C20_assertion_after_edge_pass initial_graph [] (by decide)).2.1 rfl,
    by decide,
    ((C20_assertion_after_edge_pass initial_graph [.Goto 5, .Label 5, .Other 1]
      (by decide)).2.2 [.Goto 5, .Label 5] (.Other 1) rfl rfl).2⟩

/-! ## The non-empty path of replace_bb builds a chain -/

theorem attach_predecessors_eq (front : Nat) (olds : List Edge) :
    ∀ (g : CFG) (phis : List Phi), (∀ x ∈ g.edges, x.edge < g.next_edge) →
      (CFG.attach_predecessors front olds g phis).1
        = { g with edges := g.edges ++ attached_edges front g.next_edge olds,
                   next_edge := g.next_edge + olds.length } := by
  induction olds with
  | nil =>
    intro g phis _
    simp [CFG.attach_predecessors, attached_edges]
  | cons old rest ih =>
    intro g phis hlt
    have hmap : g.edges.map (fun x => if x.edge == g.next_edge then
        ({ x with direction := old.direction } : Edge) else x) = g.edges := by
      conv_rhs => rw [← List.map_id g.edges]
      apply List.map_congr_left
      intro x hx
      have := hlt x hx
      have hne : (x.edge == g.next_edge) = false := by rw [beq_eq_false_iff_ne]; omega
      simp [hne]
    have hstep : ((g.add_edge old.source front).1.set_direction
        (g.add_edge old.source front).2.edge old.direction)
        = { g with edges := g.edges ++ [⟨g.next_edge, old.source, front, old.direction⟩],
                   next_edge := g.next_edge + 1 } := by
      simp only [CFG.add_edge, CFG.add_edge_dir, CFG.set_direction, List.map_append, hmap,
        List.map_cons, List.map_nil, beq_self_eq_true, if_true]
    simp only [CFG.attach_predecessors]
    rw [hstep, ih]
    · simp only [attached_edges, List.append_assoc, List.singleton_append, List.length_cons]
      congr 1
      omega
    · intro x hx
      simp only [List.mem_append, List.mem_singleton] at hx
      rcases hx with hx | rfl
      · have := hlt x hx
        simp only
        omega
      · simp

theorem add_chain_eq (succ : Nat) (rest : List New_block) :
    ∀ (g : CFG) (prev : Nat), (∀ r ∈ rest, r.kind.is_branch = false) →
      g.next_vertex = prev + 1 →
      ∃ g2, CFG.add_chain rest g prev = .ok (g2, prev + rest.length)
        ∧ (g2.add_edge (prev + rest.length) succ).1
            = { g with blocks := g.blocks ++ chain_blocks g.next_vertex rest,
                       next_vertex := g.next_vertex + rest.length,
                       edges := g.edges ++ link_edges succ g.next_edge prev rest.length,
                       next_edge := g.next_edge + rest.length + 1 } := by
  induction rest with
  | nil =>
    intro g prev _ _
    exact ⟨g, rfl, by simp [CFG.add_edge, CFG.add_edge_dir, chain_blocks, link_edges]⟩
  | cons r rest ih =>
    intro g prev hb hnv
    have hr : r.kind.is_branch = false := hb r (List.mem_cons_self _ _)
    obtain ⟨g2, h2, h3⟩ := ih ((g.add_bb r).1.add_edge prev (g.add_bb r).2).1 (prev + 1)
      (fun x hx => hb x (List.mem_cons_of_mem _ hx))
      (by simp only [CFG.add_bb, CFG.add_edge, CFG.add_edge_dir]; omega)
    refine ⟨g2, ?_, ?_⟩
    · simp only [CFG.add_chain, hr, Bool.false_eq_true, if_false, List.length_cons]
      have e1 : (g.add_bb r).2 = prev + 1 := by simp only [CFG.add_bb]; omega
      have e3 : prev + (rest.length + 1) = prev + 1 + rest.length := by omega
      rw [e3, ← h2, e1]
    · have e2 : prev + (r :: rest).length = prev + 1 + rest.length := by
        simp only [List.length_cons]; omega
      rw [e2, h3]
      simp only [CFG.add_bb, CFG.add_edge, CFG.add_edge_dir, chain_blocks, link_edges,
        List.append_assoc, List.singleton_append, List.length_cons, hnv, List.cons_append,
        List.nil_append]
      congr 1 <;> omega

theorem deref_all_detached (g : CFG) (rest : List New_block) :
    CFG.deref_all g (rest.map .detached) = .ok rest := by
  induction rest with
  | nil => rfl
  | cons r rest ih => simp only [List.map_cons, CFG.deref_all, CFG.deref, ih]

theorem set_phis_last (blocks : List Basic_block) (v : Nat) (k : BB_kind) (p : List Phi)
    (f : List Phi → List Phi) (h : ∀ x ∈ blocks, x.vertex ≠ v) :
    (blocks ++ [(⟨v, k, p⟩ : Basic_block)]).map
        (fun x => if x.vertex == v then { x with phis := f x.phis } else x)
      = blocks ++ [⟨v, k, f p⟩] := by
  rw [List.map_append]
  congr 1
  · conv_rhs => rw [← List.map_id blocks]
    apply List.map_congr_left
    intro x hx
    have : (x.vertex == v) = false := by rw [beq_eq_false_iff_ne]; exact h x hx
    simp [this]
  · simp

theorem get_successor_edge_of (g : CFG) (bb succ : Nat) (hs : g.get_successor bb = .ok succ) :
    ∃ e, g.out_edges bb = [e] ∧ e.target = succ ∧ e.source = bb ∧ e ∈ g.edges := by
  unfold CFG.get_successor CFG.get_successor_edge at hs
  split at hs
  · rename_i e he
    split at he
    · rename_i x hx
      simp only [Except.ok.injEq] at he hs
      subst he
      have : x ∈ g.out_edges bb := by rw [hx]; exact List.mem_singleton_self _
      simp only [CFG.out_edges, List.mem_filter, beq_iff_eq] at this
      exact ⟨x, hx, hs, this.2, this.1⟩
    · simp at he
  · simp at hs

theorem replace_bb_chain_eq (g : CFG) (bb succ : Nat) (front : New_block)
    (rest : List New_block) (hf : g.ids_fresh) (hs : g.get_successor bb = .ok succ)
    (hself : ∀ e ∈ g.in_edges bb, e.source ≠ bb)
    (hb : ∀ r ∈ rest, r.kind.is_branch = false) :
    ∃ phis, g.replace_bb bb (.detached front :: rest.map .detached) = .ok
      { blocks := g.blocks.filter (fun b => !(b.vertex == bb))
          ++ ⟨g.next_vertex, front.kind, phis⟩ :: chain_blocks (g.next_vertex + 1) rest,
        edges := g.edges.filter (fun e => !(e.source == bb) && !(e.target == bb))
          ++ (attached_edges g.next_vertex g.next_edge (g.in_edges bb)
            ++ link_edges succ (g.next_edge + (g.in_edges bb).length) g.next_vertex rest.length),
        entry := g.entry,
        exit := g.exit,
        next_vertex := g.next_vertex + 1 + rest.length,
        next_edge := g.next_edge + (g.in_edges bb).length + rest.length + 1 } := by
  obtain ⟨e, he, het, hes, hem⟩ := get_successor_edge_of g bb succ hs
  have hsb : (succ == bb) = false := by
    rw [beq_eq_false_iff_ne]
    intro h
    have : e ∈ g.in_edges bb := by simp [CFG.in_edges, hem, het, h]
    exact hself e this hes
  have hany : (g.in_edges bb).any (fun e => e.source == bb) = false := by
    rw [List.any_eq_false]
    intro x hx
    simpa using hself x hx
  have hlt : ∀ x ∈ ((g.remove_bb bb).add_bb front).1.edges,
      x.edge < ((g.remove_bb bb).add_bb front).1.next_edge := by
    intro x hx
    simp only [CFG.add_bb, CFG.remove_bb, List.mem_filter] at hx ⊢
    exact (hf.2.1 x hx.1).1
  have hvs : ∀ x ∈ g.blocks.filter (fun b => !(b.vertex == bb)),
      x.vertex ≠ g.next_vertex := by
    intro x hx
    have := hf.1 x (List.mem_of_mem_filter hx)
    omega
  obtain ⟨g5, h5, h6⟩ := add_chain_eq succ rest
    ((CFG.attach_predecessors g.next_vertex (g.in_edges bb) ((g.remove_bb bb).add_bb front).1
        (g.get_phi_nodes bb)).1.merge_phi_nodes g.next_vertex
      (CFG.attach_predecessors g.next_vertex (g.in_edges bb) ((g.remove_bb bb).add_bb front).1
        (g.get_phi_nodes bb)).2) g.next_vertex hb
    (by rw [attach_predecessors_eq _ _ _ _ hlt]; rfl)
  refine ⟨front.phis ++ (CFG.attach_predecessors g.next_vertex (g.in_edges bb)
    ((g.remove_bb bb).add_bb front).1 (g.get_phi_nodes bb)).2, ?_⟩
  unfold CFG.replace_bb
  rw [if_neg (by simp)]
  simp only [hs, CFG.deref, deref_all_detached, hany, hsb, Bool.or_self, Bool.false_eq_true,
    if_false]
  have e1 : ((g.remove_bb bb).add_bb front).2 = g.next_vertex := rfl
  simp only [e1, h5, h6]
  rw [attach_predecessors_eq _ _ _ _ hlt]
  generalize (CFG.attach_predecessors g.next_vertex (g.in_edges bb)
    ((g.remove_bb bb).add_bb front).1 (g.get_phi_nodes bb)).2 = P
  simp only [CFG.merge_phi_nodes, CFG.set_phis, CFG.add_bb, CFG.remove_bb]
  rw [set_phis_last _ g.next_vertex front.kind front.phis (fun ps => ps ++ P) hvs]
  simp [List.append_assoc]

theorem attached_edges_map (front : Nat) (olds : List Edge) :
    ∀ e0, (attached_edges front e0 olds).map (fun e => (e.source, e.direction))
      = olds.map (fun e => (e.source, e.direction)) := by
  induction olds with
  | nil => intro e0; rfl
  | cons old rest ih => intro e0; simp only [attached_edges, List.map_cons, ih]

theorem attached_edges_mem (front : Nat) (olds : List Edge) :
    ∀ e0, ∀ x ∈ attached_edges front e0 olds,
      e0 ≤ x.edge ∧ x.target = front ∧ ∃ old ∈ olds, x.source = old.source := by
  induction olds with
  | nil => intro e0 x hx; simp [attached_edges] at hx
  | cons old rest ih =>
    intro e0 x hx
    simp only [attached_edges, List.mem_cons] at hx
    rcases hx with rfl | hx
    · exact ⟨le_refl _, rfl, old, List.mem_cons_self _ _, rfl⟩
    · obtain ⟨a, b, o, ho, c⟩ := ih (e0 + 1) x hx
      exact ⟨by omega, b, o, List.mem_cons_of_mem _ ho, c⟩

theorem link_edges_mem (succ : Nat) (m : Nat) :
    ∀ e0 v, ∀ x ∈ link_edges succ e0 v m,
      e0 ≤ x.edge ∧ v ≤ x.source ∧ (v < x.target ∨ x.target = succ) := by
  induction m with
  | zero =>
    intro e0 v x hx
    simp only [link_edges, List.mem_singleton] at hx
    subst hx
    exact ⟨le_refl _, le_refl _, Or.inr rfl⟩
  | succ m ih =>
    intro e0 v x hx
    simp only [link_edges, List.mem_cons] at hx
    rcases hx with rfl | hx
    · exact ⟨le_refl _, le_refl _, Or.inl (by simp)⟩
    · obtain ⟨a, b, c⟩ := ih (e0 + 1) (v + 1) x hx
      refine ⟨by omega, by omega, ?_⟩
      rcases c with c | c
      · exact Or.inl (by omega)
      · exact Or.inr c

theorem link_edges_out (succ : Nat) (m : Nat) :
    ∀ e0 v w, v ≤ w → w ≤ v + m →
      (link_edges succ e0 v m).filter (fun x => x.source == w)
        = [⟨e0 + (w - v), w, if w < v + m then w + 1 else succ, none⟩] := by
  induction m with
  | zero =>
    intro e0 v w h1 h2
    have : w = v := by omega
    subst this
    simp [link_edges]
  | succ m ih =>
    intro e0 v w h1 h2
    by_cases hw : w = v
    · subst hw
      have hrest : (link_edges succ (e0 + 1) (w + 1) m).filter (fun x => x.source == w) = [] := by
        rw [List.filter_eq_nil_iff]
        intro x hx
        have := (link_edges_mem succ m (e0 + 1) (w + 1) x hx).2.1
        simp only [beq_iff_eq]
        omega
      simp [link_edges, List.filter_cons, hrest]
    · have hne : (v == w) = false := by
        rw [beq_eq_false_iff_ne]; exact fun h => hw h.symm
      simp only [link_edges, List.filter_cons, hne, Bool.false_eq_true, if_false]
      rw [ih (e0 + 1) (v + 1) w (by omega) (by omega)]
      have e1 : e0 + 1 + (w - (v + 1)) = e0 + (w - v) := by omega
      have e2 : (w < v + 1 + m) = (w < v + (m + 1)) := by
        apply propext; constructor <;> intro h <;> omega
      simp only [e1, e2]

theorem chain_blocks_mem (rest : List New_block) :
    ∀ v0, ∀ x ∈ chain_blocks v0 rest, v0 ≤ x.vertex := by
  induction rest with
  | nil => intro v0 x hx; simp [chain_blocks] at hx
  | cons r rest ih =>
    intro v0 x hx
    simp only [chain_blocks, List.mem_cons] at hx
    rcases hx with rfl | hx
    · exact le_refl _
    · have := ih (v0 + 1) x hx
      omega

/-- C11: a non-empty replacement builds a chain.  Let the descriptors of the
graph not be reused, let `bb` have the single successor `succ` and not be its
own predecessor, and let `front :: rest` be new blocks, none of them a Branch
block.  Then `replace_bb` returns; `bb` is gone; the new blocks follow the
other blocks, at the vertices from `next_vertex` on; the front block has one
incoming edge for every former incoming edge of `bb`, in order, from the same
source and with the same direction; every block of the chain but the last has
exactly one outgoing edge, not tagged, to the next block of the chain; the last
has exactly one outgoing edge, not tagged, to `succ`; and the edges are the
former edges that were not at `bb`, followed by new edges. -/
theorem C11_chain_replacement (g : CFG) (bb succ : Nat) (front : New_block)
    (rest : List New_block) (hf : g.ids_fresh) (hs : g.get_successor bb = .ok succ)
    (hself : ∀ e ∈ g.in_edges bb, e.source ≠ bb)
    (hb : ∀ r ∈ front :: rest, r.kind.is_branch = false) :
    ∃ g2, g.replace_bb bb ((front :: rest).map .detached) = .ok g2
      ∧ g2.vb bb = none
      ∧ (∃ phis, g2.blocks = g.blocks.filter (fun b => !(b.vertex == bb))
          ++ ⟨g.next_vertex, front.kind, phis⟩ :: chain_blocks (g.next_vertex + 1) rest)
      ∧ (g2.in_edges g.next_vertex).map (fun e => (e.source, e.direction))
          = (g.in_edges bb).map (fun e => (e.source, e.direction))
      ∧ (∀ i, i < rest.length → ∃ e, g2.out_edges (g.next_vertex + i)
          = [⟨e, g.next_vertex + i, g.next_vertex + i + 1, none⟩])
      ∧ (∃ e, g2.out_edges (g.next_vertex + rest.length)
          = [⟨e, g.next_vertex + rest.length, succ, none⟩])
      ∧ ∃ added, g2.edges
            = g.edges.filter (fun e => !(e.source == bb) && !(e.target == bb)) ++ added
          ∧ ∀ e ∈ added, g.next_edge ≤ e.edge := by
  obtain ⟨phis, hr⟩ := replace_bb_chain_eq g bb succ front rest hf hs hself
    (fun r hr => hb r (List.mem_cons_of_mem _ hr))
  obtain ⟨e, -, het, hes, hem⟩ := get_successor_edge_of g bb succ hs
  have hbb : bb < g.next_vertex := by have := (hf.2.1 e hem).2.1; omega
  have hsucc : succ < g.next_vertex := by have := (hf.2.1 e hem).2.2; omega
  have hold_t : ∀ w, g.next_vertex ≤ w →
      (g.edges.filter (fun e => !(e.source == bb) && !(e.target == bb))).filter
        (fun e => e.target == w) = [] := by
    intro w hw
    rw [List.filter_eq_nil_iff]
    intro x hx
    have := (hf.2.1 x (List.mem_of_mem_filter hx)).2.2
    simp only [beq_iff_eq]
    omega
  have hold_s : ∀ w, g.next_vertex ≤ w →
      (g.edges.filter (fun e => !(e.source == bb) && !(e.target == bb))).filter
        (fun e => e.source == w) = [] := by
    intro w hw
    rw [List.filter_eq_nil_iff]
    intro x hx
    have := (hf.2.1 x (List.mem_of_mem_filter hx)).2.1
    simp only [beq_iff_eq]
    omega
  have hatt_s : ∀ w, g.next_vertex ≤ w →
      (attached_edges g.next_vertex g.next_edge (g.in_edges bb)).filter
        (fun e => e.source == w) = [] := by
    intro w hw
    rw [List.filter_eq_nil_iff]
    intro x hx
    obtain ⟨-, -, old, hold, hsrc⟩ := attached_edges_mem _ _ _ x hx
    have := (hf.2.1 old (List.mem_of_mem_filter hold)).2.1
    simp only [beq_iff_eq]
    omega
  have hout : ∀ (g2 : CFG),
      g2.edges = g.edges.filter (fun e => !(e.source == bb) && !(e.target == bb))
          ++ (attached_edges g.next_vertex g.next_edge (g.in_edges bb)
            ++ link_edges succ (g.next_edge + (g.in_edges bb).length) g.next_vertex
                rest.length) →
      ∀ i, i ≤ rest.length → g2.out_edges (g.next_vertex + i)
        = [⟨g.next_edge + (g.in_edges bb).length + i, g.next_vertex + i,
            if i < rest.length then g.next_vertex + i + 1 else succ, none⟩] := by
    intro g2 hg2 i hi
    rw [show g2.out_edges (g.next_vertex + i)
        = g2.edges.filter (fun e => e.source == g.next_vertex + i) from rfl, hg2]
    simp only [List.filter_append, hold_s _ (Nat.le_add_right _ _),
      hatt_s _ (Nat.le_add_right _ _), List.nil_append]
    rw [link_edges_out succ rest.length _ _ _ (Nat.le_add_right _ _) (by omega)]
    simp
  refine ⟨_, hr, ?_, ⟨phis, rfl⟩, ?_, ?_, ?_, ⟨_, rfl, ?_⟩⟩
  · simp only [CFG.vb, List.find?_eq_none, List.mem_append, List.mem_filter, List.mem_cons,
      beq_iff_eq]
    rintro x (⟨-, hx⟩ | rfl | hx)
    · simpa using hx
    · simp only; omega
    · have := chain_blocks_mem rest _ x hx
      omega
  · have hlink : (link_edges succ (g.next_edge + (g.in_edges bb).length) g.next_vertex
        rest.length).filter (fun e => e.target == g.next_vertex) = [] := by
      rw [List.filter_eq_nil_iff]
      intro x hx
      have := (link_edges_mem succ _ _ _ x hx).2.2
      simp only [beq_iff_eq]
      omega
    have hatt : (attached_edges g.next_vertex g.next_edge (g.in_edges bb)).filter
        (fun e => e.target == g.next_vertex)
        = attached_edges g.next_vertex g.next_edge (g.in_edges bb) := by
      rw [List.filter_eq_self]
      intro x hx
      simp [(attached_edges_mem _ _ _ x hx).2.1]
    rw [show ∀ g2 : CFG, g2.in_edges g.next_vertex
        = g2.edges.filter (fun e => e.target == g.next_vertex) from fun _ => rfl]
    simp only [List.filter_append, hold_t _ (le_refl _), hlink, hatt, List.nil_append,
      List.append_nil]
    exact attached_edges_map _ _ _
  · intro i hi
    refine ⟨g.next_edge + (g.in_edges bb).length + i, ?_⟩
    rw [hout _ rfl i (by omega)]
    simp [hi]
  · refine ⟨g.next_edge + (g.in_edges bb).length + rest.length, ?_⟩
    rw [hout _ rfl rest.length (le_refl _)]
    simp
  · intro x hx
    rcases List.mem_append.1 hx with h | h
    · exact (attached_edges_mem _ _ _ x h).1
    · have := (link_edges_mem succ _ _ _ x h).1
      omega

/-- The Empty block of `parallel_branch_graph`, which the Branch block enters
by a True and by a False edge, replaced by two Statement blocks. -/
theorem C11_chain_replacement_witness :
    parallel_branch_graph.ids_fresh ∧ parallel_branch_graph.get_successor 3 = .ok 1
      ∧ (∀ e ∈ parallel_branch_graph.in_edges 3, e.source ≠ 3)
      ∧ ∃ g2, parallel_branch_graph.replace_bb 3
            [.detached ⟨.Statement_block (.Other 7), []⟩,
              .detached ⟨.Statement_block (.Other 8), []⟩] = .ok g2
        ∧ g2.vb 3 = none
        ∧ (g2.in_edges 4).map (fun e => (e.source, e.direction))
            = [(2, some true), (2, some false)]
        ∧ (∃ e, g2.out_edges 4 = [⟨e, 4, 5, none⟩])
        ∧ ∃ e, g2.out_edges 5 = [⟨e, 5, 1, none⟩] := by
  refine ⟨by decide, rfl, by decide, ?_⟩
  obtain ⟨g2, h1, h2, -, h4, h5, h6, -⟩ := C11_chain_replacement parallel_branch_graph 3 1
    ⟨.Statement_block (.Other 7), []⟩ [⟨.Statement_block (.Other 8), []⟩] (by decide) rfl
    (by decide) (by decide)
  exact ⟨g2, h1, h2, h4, h5 0 (by decide), h6⟩

/-! ## The worklist of phi insertion -/

theorem has_phi_function_iff (g : CFG) (f v : Nat) :
    g.has_phi_function f v = true ↔ v ∈ g.phi_targets f := by
  simp only [CFG.has_phi_function, CFG.phi_targets, List.any_eq_true, beq_iff_eq, List.mem_map]

theorem def_list_eq (g : CFG) (defs : Nat → List Nat) (b : Nat) :
    g.def_list defs b = defs b ++ g.phi_targets b := rfl

theorem add_phi_function_get_all_bbs (g : CFG) (f v : Nat) :
    (g.add_phi_function f v).get_all_bbs = g.get_all_bbs :=
  set_phis_get_all_bbs g f _

theorem add_phi_function_edges (g : CFG) (f v : Nat) :
    (g.add_phi_function f v).edges = g.edges := rfl

theorem add_phi_targets_ne (g : CFG) (f v b : Nat) (h : b ≠ f) :
    (g.add_phi_function f v).phi_targets b = g.phi_targets b := by
  simp only [CFG.phi_targets, CFG.add_phi_function, set_phis_get_phi_nodes_ne g f b _ h]

theorem vb_of_mem_get_all_bbs (g : CFG) (f : Nat) (h : f ∈ g.get_all_bbs) :
    ∃ b, g.vb f = some b := by
  simp only [CFG.get_all_bbs, List.mem_map] at h
  obtain ⟨b, hb, rfl⟩ := h
  cases hv : g.vb b.vertex with
  | some x => exact ⟨x, rfl⟩
  | none =>
    exfalso
    simp only [CFG.vb, List.find?_eq_none] at hv
    exact hv b hb (by simp)

theorem add_phi_targets_self (g : CFG) (f v : Nat) (h : f ∈ g.get_all_bbs) :
    (g.add_phi_function f v).phi_targets f = g.phi_targets f ++ [v] := by
  obtain ⟨b, hb⟩ := vb_of_mem_get_all_bbs g f h
  have hv : b.vertex = f := vb_vertex g f b hb
  simp only [CFG.phi_targets, CFG.add_phi_function, CFG.get_phi_nodes, set_phis_vb, hb,
    Option.map_some', hv, beq_self_eq_true, if_true, List.map_append, List.map_cons, List.map_nil]

theorem filter_length_le_of_imp {α : Type} (l : List α) (p q : α → Bool)
    (h : ∀ x ∈ l, q x = true → p x = true) : (l.filter q).length ≤ (l.filter p).length := by
  induction l with
  | nil => simp
  | cons x r ih =>
    have ihr := ih (fun y hy => h y (List.mem_cons_of_mem _ hy))
    have hx := h x (List.mem_cons_self _ _)
    cases hq : q x <;> cases hp : p x <;> simp [List.filter_cons, hq, hp] <;>
      first | omega | (rw [hq] at hx; simp [hp] at hx)

theorem filter_length_lt_of_imp {α : Type} (l : List α) (p q : α → Bool)
    (h : ∀ x ∈ l, q x = true → p x = true) (a : α) (ha : a ∈ l) (hpa : p a = true)
    (hqa : q a = false) : (l.filter q).length < (l.filter p).length := by
  induction l with
  | nil => simp at ha
  | cons x r ih =>
    have hle := filter_length_le_of_imp r p q (fun y hy => h y (List.mem_cons_of_mem _ hy))
    rcases List.mem_cons.1 ha with rfl | har
    · simp only [List.filter_cons, hqa, hpa, if_true, Bool.false_eq_true, if_false,
        List.length_cons]
      omega
    · have ihr := ih (fun y hy => h y (List.mem_cons_of_mem _ hy)) har
      have hx := h x (List.mem_cons_self _ _)
      cases hq : q x <;> cases hp : p x <;> simp [List.filter_cons, hq, hp] <;>
        first | omega | (rw [hq] at hx; simp [hp] at hx)

theorem missing_phis_le (g g1 : CFG) (pairs : List (Nat × Nat))
    (h : ∀ b v, v ∈ g.phi_targets b → v ∈ g1.phi_targets b) :
    g1.missing_phis pairs ≤ g.missing_phis pairs := by
  apply filter_length_le_of_imp
  intro x _ hx
  simp only [Bool.not_eq_true', ← Bool.not_eq_true, has_phi_function_iff] at hx ⊢
  exact fun h1 => hx (h _ _ h1)

theorem missing_phis_lt (g g1 : CFG) (pairs : List (Nat × Nat))
    (h : ∀ b v, v ∈ g.phi_targets b → v ∈ g1.phi_targets b) (f v : Nat)
    (hp : (f, v) ∈ pairs) (h0 : v ∉ g.phi_targets f) (h1 : v ∈ g1.phi_targets f) :
    g1.missing_phis pairs < g.missing_phis pairs := by
  apply filter_length_lt_of_imp _ _ _ _ (f, v) hp
  · simp only [Bool.not_eq_true', ← Bool.not_eq_true, has_phi_function_iff]
    exact h0
  · simp only [Bool.not_eq_false', has_phi_function_iff]
    exact h1
  · intro x _ hx
    simp only [Bool.not_eq_true', ← Bool.not_eq_true, has_phi_function_iff] at hx ⊢
    exact fun h1 => hx (h _ _ h1)

theorem add_phis_spec (f : Nat) (dl : List Nat) :
    ∀ (g : CFG) (a : Bool), f ∈ g.get_all_bbs →
      ∃ extra, (CFG.add_phis f dl g a).1.get_all_bbs = g.get_all_bbs
        ∧ (CFG.add_phis f dl g a).1.edges = g.edges
        ∧ (∀ b, b ≠ f → (CFG.add_phis f dl g a).1.phi_targets b = g.phi_targets b)
        ∧ (CFG.add_phis f dl g a).1.phi_targets f = g.phi_targets f ++ extra
        ∧ (∀ v ∈ extra, v ∈ dl ∧ v ∉ g.phi_targets f)
        ∧ (∀ v ∈ dl, v ∈ (CFG.add_phis f dl g a).1.phi_targets f)
        ∧ (CFG.add_phis f dl g a).2 = (a || !extra.isEmpty) := by
  induction dl with
  | nil =>
    intro g a _
    exact ⟨[], rfl, rfl, fun _ _ => rfl, by simp [CFG.add_phis], by simp, by simp,
      by simp [CFG.add_phis]⟩
  | cons v rest ih =>
    intro g a hf
    by_cases hv : g.has_phi_function f v = true
    · obtain ⟨extra, h1, h2, h3, h4, h5, h6, h7⟩ := ih g a hf
      have e : CFG.add_phis f (v :: rest) g a = CFG.add_phis f rest g a := by
        simp only [CFG.add_phis, hv, if_true]
      rw [e]
      refine ⟨extra, h1, h2, h3, h4, ?_, ?_, h7⟩
      · intro x hx
        exact ⟨List.mem_cons_of_mem _ (h5 x hx).1, (h5 x hx).2⟩
      · intro x hx
        rcases List.mem_cons.1 hx with rfl | hx
        · rw [h4]
          exact List.mem_append_left _ ((has_phi_function_iff g f x).1 hv)
        · exact h6 x hx
    · have hf2 : f ∈ (g.add_phi_function f v).get_all_bbs := by
        rw [add_phi_function_get_all_bbs]; exact hf
      obtain ⟨extra, h1, h2, h3, h4, h5, h6, h7⟩ := ih (g.add_phi_function f v) true hf2
      have e : CFG.add_phis f (v :: rest) g a
          = CFG.add_phis f rest (g.add_phi_function f v) true := by
        simp only [CFG.add_phis, hv, Bool.false_eq_true, if_false]
      rw [e]
      have hself := add_phi_targets_self g f v hf
      refine ⟨v :: extra, ?_, ?_, ?_, ?_, ?_, ?_, ?_⟩
      · rw [h1, add_phi_function_get_all_bbs]
      · rw [h2, add_phi_function_edges]
      · intro b hb
        rw [h3 b hb, add_phi_targets_ne g f v b hb]
      · rw [h4, hself, List.append_assoc, List.singleton_append]
      · intro x hx
        rcases List.mem_cons.1 hx with rfl | hx
        · exact ⟨List.mem_cons_self _ _, fun h => hv ((has_phi_function_iff g f x).2 h)⟩
        · refine ⟨List.mem_cons_of_mem _ (h5 x hx).1, fun h => (h5 x hx).2 ?_⟩
          rw [hself]
          exact List.mem_append_left _ h
      · intro x hx
        rcases List.mem_cons.1 hx with rfl | hx
        · rw [h4, hself]
          simp
        · exact h6 x hx
      · rw [h7]
        simp

theorem visit_frontier_spec (defs : Nat → List Nat) (bb : Nat) (pairs : List (Nat × Nat))
    (fs : List Nat) :
    ∀ (g : CFG) (pushed0 : List Nat), (∀ f ∈ fs, f ∈ g.get_all_bbs) →
      (∀ f ∈ fs, ∀ v ∈ g.def_list defs bb, (f, v) ∈ pairs) →
      ∃ pushed, (CFG.visit_frontier defs bb fs g pushed0).2 = pushed0 ++ pushed
        ∧ (CFG.visit_frontier defs bb fs g pushed0).1.get_all_bbs = g.get_all_bbs
        ∧ (CFG.visit_frontier defs bb fs g pushed0).1.edges = g.edges
        ∧ (∀ b v, v ∈ g.phi_targets b →
            v ∈ (CFG.visit_frontier defs bb fs g pushed0).1.phi_targets b)
        ∧ (∀ b, b ∉ pushed →
            (CFG.visit_frontier defs bb fs g pushed0).1.phi_targets b = g.phi_targets b)
        ∧ (∀ f ∈ pushed, f ∈ fs)
        ∧ (∀ f ∈ fs, ∀ v ∈ g.def_list defs bb,
            v ∈ (CFG.visit_frontier defs bb fs g pushed0).1.phi_targets f)
        ∧ (∀ b v, v ∈ (CFG.visit_frontier defs bb fs g pushed0).1.phi_targets b →
            v ∈ g.phi_targets b ∨ (b ∈ fs ∧ v ∈ g.def_list defs bb))
        ∧ pushed.length + (CFG.visit_frontier defs bb fs g pushed0).1.missing_phis pairs
            ≤ g.missing_phis pairs := by
  induction fs with
  | nil =>
    intro g pushed0 _ _
    exact ⟨[], by simp [CFG.visit_frontier], rfl, rfl, fun _ _ h => h, fun _ _ => rfl,
      by simp, by simp, fun _ _ h => Or.inl h, by simp [CFG.visit_frontier]⟩
  | cons f rest ih =>
    intro g pushed0 hfs hpairs
    have hf := hfs f (List.mem_cons_self _ _)
    obtain ⟨extra, a1, a2, a3, a4, a5, a6, a7⟩ :=
      add_phis_spec f (g.def_list defs bb) g false hf
    generalize hg' : CFG.add_phis f (g.def_list defs bb) g false = r at a1 a2 a3 a4 a5 a6 a7
    obtain ⟨g', a⟩ := r
    simp only at a1 a2 a3 a4 a5 a6 a7
    have hmono : ∀ b v, v ∈ g.phi_targets b → v ∈ g'.phi_targets b := by
      intro b v hv
      by_cases hb : b = f
      · subst hb
        rw [a4]
        exact List.mem_append_left _ hv
      · rw [a3 b hb]
        exact hv
    have hback : ∀ b v, v ∈ g'.phi_targets b →
        v ∈ g.phi_targets b ∨ (b = f ∧ v ∈ g.def_list defs bb) := by
      intro b v hv
      by_cases hb : b = f
      · subst hb
        rw [a4] at hv
        rcases List.mem_append.1 hv with h | h
        · exact Or.inl h
        · exact Or.inr ⟨rfl, (a5 v h).1⟩
      · rw [a3 b hb] at hv
        exact Or.inl hv
    have hD : ∀ v, v ∈ g'.def_list defs bb → v ∈ g.def_list defs bb := by
      intro v hv
      rw [def_list_eq] at hv
      rcases List.mem_append.1 hv with h | h
      · rw [def_list_eq]
        exact List.mem_append_left _ h
      · rcases hback bb v h with h1 | h1
        · rw [def_list_eq]
          exact List.mem_append_right _ h1
        · exact h1.2
    have hD2 : ∀ v, v ∈ g.def_list defs bb → v ∈ g'.def_list defs bb := by
      intro v hv
      rw [def_list_eq] at hv ⊢
      rcases List.mem_append.1 hv with h | h
      · exact List.mem_append_left _ h
      · exact List.mem_append_right _ (hmono bb v h)
    obtain ⟨pushed', b1, b2, b3, b4, b5, b6, b7, b8, b9⟩ :=
      ih g' (if a then pushed0 ++ [f] else pushed0)
        (fun x hx => by rw [a1]; exact hfs x (List.mem_cons_of_mem _ hx))
        (fun x hx v hv => hpairs x (List.mem_cons_of_mem _ hx) v (hD v hv))
    have e : CFG.visit_frontier defs bb (f :: rest) g pushed0
        = CFG.visit_frontier defs bb rest g' (if a then pushed0 ++ [f] else pushed0) := by
      simp only [CFG.visit_frontier, hg']
    rw [e]
    have hmiss : (if a then 1 else 0) + g'.missing_phis pairs ≤ g.missing_phis pairs := by
      cases a with
      | false =>
        simp only [Bool.false_eq_true, if_false, Nat.zero_add]
        exact missing_phis_le g g' pairs hmono
      | true =>
        simp only [if_true]
        cases extra with
        | nil => simp at a7
        | cons v ex =>
          have hv := a5 v (List.mem_cons_self _ _)
          have := missing_phis_lt g g' pairs hmono f v
            (hpairs f (List.mem_cons_self _ _) v hv.1) hv.2
            (by rw [a4]; simp)
          omega
    refine ⟨(if a then [f] else []) ++ pushed', ?_, ?_, ?_, ?_, ?_, ?_, ?_, ?_, ?_⟩
    · rw [b1]
      cases a <;> simp
    · rw [b2, a1]
    · rw [b3, a2]
    · intro b v hv
      exact b4 b v (hmono b v hv)
    · intro b hb
      have hb1 : b ∉ pushed' := fun h => hb (List.mem_append_right _ h)
      rw [b5 b hb1]
      by_cases hbf : b = f
      · subst hbf
        cases a with
        | true => exact absurd (List.mem_append_left _ (by simp)) hb
        | false =>
          cases extra with
          | nil => rw [a4, List.append_nil]
          | cons v ex => simp at a7
      · exact a3 b hbf
    · intro x hx
      rcases List.mem_append.1 hx with h | h
      · cases a with
        | true =>
          simp only [if_true, List.mem_singleton] at h
          subst h
          exact List.mem_cons_self _ _
        | false => simp at h
      · exact List.mem_cons_of_mem _ (b6 x h)
    · intro x hx v hv
      rcases List.mem_cons.1 hx with rfl | hx
      · exact b4 x v (a6 v hv)
      · exact b7 x hx v (hD2 v hv)
    · intro b v hv
      rcases b8 b v hv with h | ⟨h1, h2⟩
      · rcases hback b v h with h3 | ⟨h3, h4⟩
        · exact Or.inl h3
        · exact Or.inr ⟨by rw [h3]; exact List.mem_cons_self _ _, h4⟩
      · exact Or.inr ⟨List.mem_cons_of_mem _ h1, hD v h2⟩
    · have hl : ((if a then [f] else []) ++ pushed').length
          = (if a then 1 else 0) + pushed'.length := by
        cases a with
        | true => simp; omega
        | false => simp
      rw [hl]
      omega

theorem worklist_step (g0 : CFG) (df defs : Nat → List Nat) (g : CFG) (bb : Nat)
    (rest : List Nat) (hdf : ∀ b ∈ g0.get_all_bbs, ∀ f ∈ df b, f ∈ g0.get_all_bbs)
    (h : Worklist_inv g0 df defs g (bb :: rest)) :
    Worklist_inv g0 df defs (CFG.visit_frontier defs bb (df bb) g []).1
        (rest ++ (CFG.visit_frontier defs bb (df bb) g []).2)
      ∧ ((CFG.visit_frontier defs bb (df bb) g []).2).length
          + (CFG.visit_frontier defs bb (df bb) g []).1.missing_phis
              (g0.get_all_bbs.product (g0.defined_vars defs))
        ≤ g.missing_phis (g0.get_all_bbs.product (g0.defined_vars defs)) := by
  obtain ⟨i1, i2, i3, i4, i5, i6, i7⟩ := h
  have hbb : bb ∈ g0.get_all_bbs := i3 bb (List.mem_cons_self _ _)
  obtain ⟨pushed, b1, b2, b3, b4, b5, b6, b7, b8, b9⟩ :=
    visit_frontier_spec defs bb (g0.get_all_bbs.product (g0.defined_vars defs)) (df bb) g []
      (fun f hf => by rw [i1]; exact hdf bb hbb f hf)
      (fun f hf v hv => List.mem_product.2 ⟨hdf bb hbb f hf, i4 bb hbb v hv⟩)
  generalize CFG.visit_frontier defs bb (df bb) g [] = r at b1 b2 b3 b4 b5 b6 b7 b8 b9 ⊢
  obtain ⟨g1, pushed1⟩ := r
  simp only [List.nil_append] at b1 b2 b3 b4 b5 b6 b7 b8 b9 ⊢
  subst b1
  have hDmono : ∀ b v, v ∈ g.def_list defs b → v ∈ g1.def_list defs b := by
    intro b v hv
    rw [def_list_eq] at hv ⊢
    rcases List.mem_append.1 hv with h | h
    · exact List.mem_append_left _ h
    · exact List.mem_append_right _ (b4 b v h)
  have hDback : ∀ v, v ∈ g1.def_list defs bb → v ∈ g.def_list defs bb := by
    intro v hv
    rw [def_list_eq] at hv
    rcases List.mem_append.1 hv with h | h
    · rw [def_list_eq]
      exact List.mem_append_left _ h
    · rcases b8 bb v h with h1 | h1
      · rw [def_list_eq]
        exact List.mem_append_right _ h1
      · exact h1.2
  refine ⟨⟨b2.trans i1, b3.trans i2, ?_, ?_, ?_, ?_, fun b v hv => b4 b v (i7 b v hv)⟩, by
    simpa using b9⟩
  · intro b hb
    rcases List.mem_append.1 hb with h | h
    · exact i3 b (List.mem_cons_of_mem _ h)
    · exact hdf bb hbb b (b6 b h)
  · intro b hb v hv
    rw [def_list_eq] at hv
    rcases List.mem_append.1 hv with h | h
    · exact i4 b hb v (by rw [def_list_eq]; exact List.mem_append_left _ h)
    · rcases b8 b v h with h1 | h1
      · exact i4 b hb v (by rw [def_list_eq]; exact List.mem_append_right _ h1)
      · exact i4 bb hbb v h1.2
  · intro b hb
    by_cases hbb2 : b = bb
    · subst hbb2
      right
      intro v hv f hf
      exact b7 f hf v (hDback v hv)
    · by_cases hp : b ∈ pushed1
      · exact Or.inl (List.mem_append_right _ hp)
      · rcases i5 b hb with h | h
        · rcases List.mem_cons.1 h with h1 | h1
          · exact absurd h1 hbb2
          · exact Or.inl (List.mem_append_left _ h1)
        · right
          intro v hv f hf
          have hv2 : v ∈ g.def_list defs b := by
            rw [def_list_eq] at hv ⊢
            rw [b5 b hp] at hv
            exact hv
          exact b4 f v (h v hv2 f hf)
  · intro f v hv
    rcases b8 f v hv with h | h
    · rcases i6 f v h with h1 | ⟨b, hb, hf, hd⟩
      · exact Or.inl h1
      · exact Or.inr ⟨b, hb, hf, hDmono b v hd⟩
    · exact Or.inr ⟨bb, hbb, h.1, hDmono bb v h.2⟩

theorem phi_worklist_spec (g0 : CFG) (df defs : Nat → List Nat)
    (hdf : ∀ b ∈ g0.get_all_bbs, ∀ f ∈ df b, f ∈ g0.get_all_bbs) (n : Nat) :
    ∀ (remaining : List Nat) (g : CFG), Worklist_inv g0 df defs g remaining →
      remaining.length + g.missing_phis (g0.get_all_bbs.product (g0.defined_vars defs)) ≤ n →
      ∃ g2, CFG.phi_worklist df defs n remaining g = .ok g2
        ∧ Worklist_inv g0 df defs g2 [] := by
  induction n with
  | zero =>
    intro remaining g hinv hn
    cases remaining with
    | nil => exact ⟨g, rfl, hinv⟩
    | cons bb rest => simp at hn
  | succ n ih =>
    intro remaining g hinv hn
    cases remaining with
    | nil => exact ⟨g, by simp [CFG.phi_worklist], hinv⟩
    | cons bb rest =>
      obtain ⟨h1, h2⟩ := worklist_step g0 df defs g bb rest hdf hinv
      obtain ⟨g2, h3, h4⟩ := ih _ _ h1 (by
        simp only [List.length_append, List.length_cons] at hn ⊢
        omega)
      refine ⟨g2, ?_, h4⟩
      simp only [CFG.phi_worklist]
      exact h3

theorem topological_out_edges_spec (g : CFG) (visit : Nat → List Nat → Except Err (List Nat))
    (gray : List Nat)
    (hvisit : ∀ w out, w ∈ g.get_all_bbs → w ∉ gray → (∀ x ∈ out, x ∈ g.get_all_bbs) →
      ∃ out2, visit w out = .ok out2 ∧ (∀ x ∈ out, x ∈ out2)
        ∧ (∀ x ∈ out2, x ∈ g.get_all_bbs))
    (es : List Edge) :
    ∀ out, (∀ e ∈ es, e.target ∈ g.get_all_bbs) → (∀ x ∈ out, x ∈ g.get_all_bbs) →
      ∃ out2, topological_out_edges visit gray es out = .ok out2 ∧ (∀ x ∈ out, x ∈ out2)
        ∧ (∀ x ∈ out2, x ∈ g.get_all_bbs) := by
  induction es with
  | nil =>
    intro out _ ho
    exact ⟨out, rfl, fun _ h => h, ho⟩
  | cons e rest ih =>
    intro out he ho
    have hrest : ∀ x ∈ rest, x.target ∈ g.get_all_bbs :=
      fun x hx => he x (List.mem_cons_of_mem _ hx)
    by_cases h1 : e.target ∈ gray
    · simp only [topological_out_edges, h1, if_true]
      exact ih out hrest ho
    · by_cases h2 : e.target ∈ out
      · simp only [topological_out_edges, h1, h2, if_true, if_false]
        exact ih out hrest ho
      · obtain ⟨out1, a1, a2, a3⟩ := hvisit e.target out (he e (List.mem_cons_self _ _)) h1 ho
        obtain ⟨out2, c1, c2, c3⟩ := ih out1 hrest a3
        refine ⟨out2, ?_, fun x hx => c2 x (a2 x hx), c3⟩
        simp only [topological_out_edges, h1, h2, if_false, a1]
        exact c1

theorem topological_visit_spec (g : CFG) (hclosed : ∀ e ∈ g.edges, e.target ∈ g.get_all_bbs)
    (n : Nat) :
    ∀ (gray : List Nat) (u : Nat) (out : List Nat), u ∈ g.get_all_bbs → u ∉ gray →
      gray.Nodup → (∀ x ∈ gray, x ∈ g.get_all_bbs) → g.get_all_bbs.length + 1 ≤ n + gray.length →
      (∀ x ∈ out, x ∈ g.get_all_bbs) →
      ∃ out2, topological_visit g n gray u out = .ok out2 ∧ (∀ x ∈ out, x ∈ out2)
        ∧ u ∈ out2 ∧ (∀ x ∈ out2, x ∈ g.get_all_bbs) := by
  induction n with
  | zero =>
    intro gray u out hu hug hn hg hlen _
    exfalso
    have h1 : (u :: gray).Nodup := List.nodup_cons.2 ⟨hug, hn⟩
    have h2 : (u :: gray) ⊆ g.get_all_bbs := by
      intro x hx
      rcases List.mem_cons.1 hx with rfl | h
      · exact hu
      · exact hg x h
    have := (List.Nodup.subperm h1 h2).length_le
    simp only [List.length_cons] at this
    omega
  | succ n ih =>
    intro gray u out hu hug hn hg hlen ho
    obtain ⟨b, hb⟩ := vb_of_mem_get_all_bbs g u hu
    have h1 : (u :: gray).Nodup := List.nodup_cons.2 ⟨hug, hn⟩
    have h2 : ∀ x ∈ u :: gray, x ∈ g.get_all_bbs := by
      intro x hx
      rcases List.mem_cons.1 hx with rfl | h
      · exact hu
      · exact hg x h
    obtain ⟨out1, a1, a2, a3⟩ := topological_out_edges_spec g
      (topological_visit g n (u :: gray)) (u :: gray)
      (fun w o hw hwg hout => by
        obtain ⟨o2, c1, c2, -, c4⟩ := ih (u :: gray) w o hw hwg h1 h2
          (by simp only [List.length_cons]; omega) hout
        exact ⟨o2, c1, c2, c4⟩)
      (g.out_edges u) out
      (fun e he => hclosed e (List.mem_of_mem_filter he)) ho
    refine ⟨out1 ++ [u], ?_, fun x hx => List.mem_append_left _ (a2 x hx), by simp, ?_⟩
    · simp only [topological_visit, hb, a1]
    · intro x hx
      rcases List.mem_append.1 hx with h | h
      · exact a3 x h
      · simp only [List.mem_singleton] at h
        rw [h]
        exact hu

theorem topological_sort_spec (g : CFG) (hclosed : ∀ e ∈ g.edges, e.target ∈ g.get_all_bbs)
    (vs : List Nat) :
    ∀ out, (∀ x ∈ vs, x ∈ g.get_all_bbs) → (∀ x ∈ out, x ∈ g.get_all_bbs) →
      ∃ out2, topological_sort g vs out = .ok out2 ∧ (∀ x ∈ out, x ∈ out2)
        ∧ (∀ x ∈ vs, x ∈ out2) ∧ (∀ x ∈ out2, x ∈ g.get_all_bbs) := by
  induction vs with
  | nil =>
    intro out _ ho
    exact ⟨out, rfl, fun _ h => h, by simp, ho⟩
  | cons u rest ih =>
    intro out hvs ho
    have hrest : ∀ x ∈ rest, x ∈ g.get_all_bbs := fun x hx => hvs x (List.mem_cons_of_mem _ hx)
    by_cases hu : u ∈ out
    · obtain ⟨out2, a1, a2, a3, a4⟩ := ih out hrest ho
      refine ⟨out2, ?_, a2, ?_, a4⟩
      · simp only [topological_sort, hu, if_true]
        exact a1
      · intro x hx
        rcases List.mem_cons.1 hx with rfl | h
        · exact a2 x hu
        · exact a3 x h
    · obtain ⟨out1, c1, c2, c3, c4⟩ := topological_visit_spec g hclosed (g.blocks.length + 1) []
        u out (hvs u (List.mem_cons_self _ _)) (by simp) List.nodup_nil (by simp)
        (by simp [CFG.get_all_bbs]) ho
      obtain ⟨out2, a1, a2, a3, a4⟩ := ih out1 hrest c4
      refine ⟨out2, ?_, fun x hx => a2 x (c2 x hx), ?_, a4⟩
      · simp only [topological_sort, hu, if_false, c1]
        exact a1
      · intro x hx
        rcases List.mem_cons.1 hx with rfl | h
        · exact a2 x c3
        · exact a3 x h

theorem get_all_bbs_top_down_spec (g : CFG)
    (hclosed : ∀ e ∈ g.edges, e.target ∈ g.get_all_bbs) :
    ∃ worklist, g.get_all_bbs_top_down = .ok worklist
      ∧ (∀ x ∈ g.get_all_bbs, x ∈ worklist) ∧ (∀ x ∈ worklist, x ∈ g.get_all_bbs) := by
  obtain ⟨out, a1, -, a3, a4⟩ := topological_sort_spec g hclosed g.get_all_bbs []
    (fun _ h => h) (by simp)
  exact ⟨out, a1, a3, a4⟩

theorem worklist_inv_start (g : CFG) (df defs : Nat → List Nat) (worklist : List Nat)
    (h1 : ∀ x ∈ g.get_all_bbs, x ∈ worklist) (h2 : ∀ x ∈ worklist, x ∈ g.get_all_bbs) :
    Worklist_inv g df defs g worklist := by
  refine ⟨rfl, rfl, h2, ?_, fun b hb => Or.inl (h1 b hb), fun f v hv => Or.inl hv,
    fun _ _ h => h⟩
  intro b hb v hv
  simp only [CFG.defined_vars, List.mem_flatMap]
  exact ⟨b, hb, hv⟩

/-- C18: phi insertion computes a closed set.  Let every edge of the graph end
at a block of the graph, and let the dominance frontier of every block consist
of blocks of the graph.  Then the worklist loop finishes, the blocks and the
edges are as before, and in the graph it leaves: for every block `b`, every
variable `v` the block defines (before SSA form, or as the target of one of its
phi nodes, those the loop added included) and every block `f` of the dominance
frontier of `b`, the block `f` has a phi node for `v`; a block `f` has a phi
node for `v` only if it had one at the start or is in the dominance frontier
of a block that defines `v`; and no phi node is lost. -/
theorem C18_phi_insertion_closed (g : CFG) (df defs : Nat → List Nat)
    (hclosed : ∀ e ∈ g.edges, e.target ∈ g.get_all_bbs)
    (hdf : ∀ b ∈ g.get_all_bbs, ∀ f ∈ df b, f ∈ g.get_all_bbs) :
    ∃ g2, g.insert_phi_functions df defs = .ok g2
      ∧ g2.get_all_bbs = g.get_all_bbs ∧ g2.edges = g.edges
      ∧ (∀ b ∈ g2.get_all_bbs, ∀ v ∈ g2.def_list defs b, ∀ f ∈ df b,
          g2.has_phi_function f v = true)
      ∧ (∀ f v, g2.has_phi_function f v = true →
          g.has_phi_function f v = true
            ∨ ∃ b ∈ g2.get_all_bbs, f ∈ df b ∧ v ∈ g2.def_list defs b)
      ∧ (∀ f v, g.has_phi_function f v = true → g2.has_phi_function f v = true) := by
  obtain ⟨worklist, hw, h1, h2⟩ := get_all_bbs_top_down_spec g hclosed
  obtain ⟨g2, h3, i1, i2, -, -, i5, i6, i7⟩ := phi_worklist_spec g df defs hdf
    (worklist.length + g.get_all_bbs.length * (g.defined_vars defs).length) worklist g
    (worklist_inv_start g df defs worklist h1 h2) (by
      have : g.missing_phis (g.get_all_bbs.product (g.defined_vars defs))
          ≤ (g.get_all_bbs.product (g.defined_vars defs)).length := List.length_filter_le _ _
      have e : (g.get_all_bbs.product (g.defined_vars defs)).length
          = g.get_all_bbs.length * (g.defined_vars defs).length := List.length_product _ _
      rw [e] at this
      omega)
  refine ⟨g2, ?_, i1, i2, ?_, ?_, ?_⟩
  · simp only [CFG.insert_phi_functions, hw]
    exact h3
  · intro b hb v hv f hf
    rw [i1] at hb
    rcases i5 b hb with h | h
    · simp at h
    · exact (has_phi_function_iff g2 f v).2 (h v hv f hf)
  · intro f v hv
    rcases i6 f v ((has_phi_function_iff g2 f v).1 hv) with h | ⟨b, hb, hf, hd⟩
    · exact Or.inl ((has_phi_function_iff g f v).2 h)
    · exact Or.inr ⟨b, by rw [i1]; exact hb, hf, hd⟩
  · intro f v hv
    exact (has_phi_function_iff g2 f v).2 (i7 f v ((has_phi_function_iff g f v).1 hv))

/-- Phi insertion on the diamond `phi_join_graph`, where the blocks 3 and 4
define the variables 11 and 12 and have the join block 5 as their dominance
frontier. -/
theorem C18_phi_insertion_closed_witness :
    (∀ e ∈ phi_join_graph.edges, e.target ∈ phi_join_graph.get_all_bbs)
      ∧ (∀ b ∈ phi_join_graph.get_all_bbs,
          ∀ f ∈ (fun b => if b = 3 ∨ b = 4 then [5] else []) b, f ∈ phi_join_graph.get_all_bbs)
      ∧ ∃ g2, phi_join_graph.insert_phi_functions (fun b => if b = 3 ∨ b = 4 then [5] else [])
            (fun b => if b = 3 then [11] else if b = 4 then [12] else []) = .ok g2
        ∧ g2.get_all_bbs = phi_join_graph.get_all_bbs ∧ g2.edges = phi_join_graph.edges
        ∧ (∀ b ∈ g2.get_all_bbs,
            ∀ v ∈ g2.def_list (fun b => if b = 3 then [11] else if b = 4 then [12] else []) b,
            ∀ f ∈ (fun b => if b = 3 ∨ b = 4 then [5] else []) b,
              g2.has_phi_function f v = true)
        ∧ (∀ f v, g2.has_phi_function f v = true →
            phi_join_graph.has_phi_function f v = true
              ∨ ∃ b ∈ g2.get_all_bbs, f ∈ (fun b => if b = 3 ∨ b = 4 then [5] else []) b
                ∧ v ∈ g2.def_list
                    (fun b => if b = 3 then [11] else if b = 4 then [12] else []) b)
        ∧ (∀ f v, phi_join_graph.has_phi_function f v = true →
            g2.has_phi_function f v = true) :=
  ⟨by decide, by decide,
    C18_phi_insertion_closed phi_join_graph (fun b => if b = 3 ∨ b = 4 then [5] else [])
      (fun b => if b = 3 then [11] else if b = 4 then [12] else []) (by decide) (by decide)⟩

/-! ## Label references in the linearized output -/

theorem plain_ref_count (s : Statement) (m : Nat) (h : s.is_control = false) :
    s.ref_count m = 0 := by
  cases s <;> simp [Statement.is_control] at h <;> rfl

theorem chunk_ref_vertex (g : CFG) (labels : List (Nat × Nat)) (hp : g.statements_plain = true)
    (v : Nat) (c : List Statement) (hc : Chunk g labels v c) (s : Statement) (hs : s ∈ c)
    (m : Nat) (hm : s.ref_count m ≠ 0) : ∃ n, labels.lookup n = some m := by
  cases hc with
  | exit bb hb hk => simp at hs
  | jump bb lv n ln hb hk hlv hn hln =>
    simp only [List.mem_cons, List.mem_singleton, List.not_mem_nil, or_false] at hs
    rcases hs with rfl | rfl
    · simp [Statement.ref_count] at hm
    · simp only [Statement.ref_count, ne_eq, ite_eq_right_iff, one_ne_zero, imp_false,
        not_not, beq_iff_eq] at hm
      subst hm
      exact ⟨n, hln⟩
  | stmt bb s0 lv n ln hb hk hlv hn hln =>
    simp only [List.mem_cons, List.mem_singleton, List.not_mem_nil, or_false] at hs
    rcases hs with rfl | rfl | rfl
    · simp [Statement.ref_count] at hm
    · exact absurd (plain_ref_count s m (statements_plain_block g hp v bb s hb hk)) hm
    · simp only [Statement.ref_count, ne_eq, ite_eq_right_iff, one_ne_zero, imp_false,
        not_not, beq_iff_eq] at hm
      subst hm
      exact ⟨n, hln⟩
  | branch bb c0 t0 f0 lv t f lt lf hb hk hlv ht hf hlt hlf =>
    simp only [List.mem_cons, List.mem_singleton, List.not_mem_nil, or_false] at hs
    rcases hs with rfl | rfl
    · simp [Statement.ref_count] at hm
    · by_cases h1 : lt = m
      · subst h1
        exact ⟨t, hlt⟩
      · by_cases h2 : lf = m
        · subst h2
          exact ⟨f, hlf⟩
        · exfalso
          apply hm
          simp [Statement.ref_count, h1, h2]

theorem forall₂_chunk_of_mem (g : CFG) (labels : List (Nat × Nat)) (order : List Nat)
    (cs : List (List Statement)) (h : List.Forall₂ (Chunk g labels) order cs)
    (c : List Statement) (hc : c ∈ cs) : ∃ v ∈ order, Chunk g labels v c := by
  induction h with
  | nil => simp at hc
  | cons hd _ ih =>
    rcases List.mem_cons.1 hc with rfl | h
    · exact ⟨_, List.mem_cons_self _ _, hd⟩
    · obtain ⟨v, hv, hch⟩ := ih h
      exact ⟨v, List.mem_cons_of_mem _ hv, hch⟩

/-- In the list pushed by the search, the label of every vertex is declared:
by the chunk of the vertex, or at the very end for the exit block. -/
theorem vertex_label_declared (g : CFG) (labels : List (Nat × Nat)) (he : g.exit_only = true)
    (order : List Nat) (cs : List (List Statement)) (lx : Nat)
    (hc : List.Forall₂ (Chunk g labels) order cs) (hx : labels.lookup g.exit = some lx)
    (n m : Nat) (hn : n ∈ order) (hm : labels.lookup n = some m) :
    Statement.Label m ∈ cs.flatten ++ [.Label lx] := by
  obtain ⟨c, hcm, hch⟩ := forall₂_chunk_mem g labels order cs hc n hn
  have hfl : ∀ s ∈ c, s ∈ cs.flatten ++ [Statement.Label lx] := fun s hs =>
    List.mem_append_left _ (List.mem_flatten.2 ⟨c, hcm, hs⟩)
  cases hch with
  | exit bb hb hk =>
    unfold CFG.exit_only at he
    rw [List.all_eq_true] at he
    have := he bb (vb_mem g n bb hb)
    simp only [hk, BB_kind.is_exit, Bool.not_true, Bool.false_or, beq_iff_eq] at this
    rw [vb_vertex g n bb hb] at this
    rw [this, hx] at hm
    simp only [Option.some.injEq] at hm
    subst hm
    simp
  | jump bb lv n2 ln hb hk hlv hn2 hln =>
    rw [hlv] at hm
    simp only [Option.some.injEq] at hm
    subst hm
    exact hfl _ (by simp)
  | stmt bb s0 lv n2 ln hb hk hlv hn2 hln =>
    rw [hlv] at hm
    simp only [Option.some.injEq] at hm
    subst hm
    exact hfl _ (by simp)
  | branch bb c0 t0 f0 lv t f lt lf hb hk hlv ht hf hlt hlf =>
    rw [hlv] at hm
    simp only [Option.some.injEq] at hm
    subst hm
    exact hfl _ (by simp)

theorem declared_labels_count (l : List Statement) (m : Nat) :
    (declared_labels l).count m = l.count (.Label m) := by
  induction l with
  | nil => rfl
  | cons s r ih =>
    cases s with
    | Label x =>
      by_cases hx : x = m
      · subst hx
        simp [declared_labels, List.filterMap_cons] at ih ⊢
        exact ih
      · have h0 : m ≠ x := fun h => hx h.symm
        have h1 : Statement.Label m ≠ Statement.Label x := by
          intro h; injection h with h; exact h0 h
        simp only [declared_labels, List.filterMap_cons] at ih ⊢
        rw [List.count_cons_of_ne h0, List.count_cons_of_ne h1]
        exact ih
    | Goto x =>
      simp only [declared_labels, List.filterMap_cons] at ih ⊢
      rw [List.count_cons_of_ne (by simp)]
      exact ih
    | Branch a b c =>
      simp only [declared_labels, List.filterMap_cons] at ih ⊢
      rw [List.count_cons_of_ne (by simp)]
      exact ih
    | Assign_var a b =>
      simp only [declared_labels, List.filterMap_cons] at ih ⊢
      rw [List.count_cons_of_ne (by simp)]
      exact ih
    | Other a =>
      simp only [declared_labels, List.filterMap_cons] at ih ⊢
      rw [List.count_cons_of_ne (by simp)]
      exact ih

theorem remove_unused_labels_count (l : List Statement) (m : Nat)
    (h : label_counts l m ≠ 1) :
    (remove_unused_labels l).count (.Label m) = l.count (.Label m) := by
  unfold remove_unused_labels
  rw [List.count_filter]
  simp only [bne_iff_ne, ne_eq, Bool.not_eq_true', beq_eq_false_iff_ne]
  exact h

theorem referenced_label_count (g : CFG) (c0 : Nat) (raw : List Statement)
    (hp : g.statements_plain = true) (he : g.exit_is_exit = true) (hu : g.exit_only = true)
    (hr : g.linearize c0 = .ok raw) (s : Statement) (m : Nat)
    (hs : s ∈ remove_unused_labels (remove_redundant_gotos raw)) (hm : s.ref_count m ≠ 0) :
    (remove_unused_labels (remove_redundant_gotos raw)).count (.Label m) = 1 := by
  obtain ⟨order, cs, lx, hraw, hc, hx, -, hall, -⟩ := linearize_chunks g c0 raw hr
  have hs1 : s ∈ remove_redundant_gotos raw := ((mem_remove_unused_labels _ s).1 hs).1
  have hs2 : s ∈ raw := (remove_redundant_gotos_sublist raw).subset hs1
  have hs3 : s ∈ cs.flatten := by
    rw [hraw] at hs2
    rcases List.mem_append.1 hs2 with h | h
    · exact h
    · simp only [List.mem_singleton] at h
      subst h
      simp [Statement.ref_count] at hm
  obtain ⟨c, hcm, hsc⟩ := List.mem_flatten.1 hs3
  obtain ⟨v, -, hch⟩ := forall₂_chunk_of_mem g _ order cs hc c hcm
  obtain ⟨n, hn⟩ := chunk_ref_vertex g _ hp v c hch s hsc m hm
  have hno : n ∈ order := hall n (lookup_mem_vertices _ _ _ _ hn)
  have hl : Statement.Label m ∈ raw := by
    rw [hraw]
    exact vertex_label_declared g _ hu order cs lx hc hx n m hno hn
  have hl1 : Statement.Label m ∈ remove_redundant_gotos raw :=
    remove_redundant_gotos_keeps raw _ hl rfl
  have hone := declared_count_one raw (linearize_labels_nodup g c0 raw hp he hr) m hl1
  have hrefs := ref_count_le_sum (remove_redundant_gotos raw) s m hs1
  have hcnt : label_counts (remove_redundant_gotos raw) m ≠ 1 := by
    rw [label_counts_eq, hone]
    omega
  rw [remove_unused_labels_count _ m hcnt, ← declared_labels_count]
  exact hone

/-- C21: the linearized output is closed under label references.  In a graph
whose Statement blocks hold no Label, Goto or Branch and whose one Exit block
is the exit block, if `get_linear_statements` returns a list, then every label
named by a Goto of the list, or by the iftrue or the iffalse field of a Branch
of the list, is the name of exactly one Label statement of the list; and in the
list the search pushes no label is declared twice. -/
theorem C21_references_are_declared (g : CFG) (c0 : Nat) (out : List Statement)
    (hp : g.statements_plain = true) (he : g.exit_is_exit = true) (hu : g.exit_only = true)
    (h : g.get_linear_statements c0 = .ok out) :
    (∀ m, Statement.Goto m ∈ out → out.count (.Label m) = 1)
      ∧ (∀ c t f, Statement.Branch c t f ∈ out →
          out.count (.Label t) = 1 ∧ out.count (.Label f) = 1)
      ∧ (∀ raw, g.linearize c0 = .ok raw → ∀ m, raw.count (.Label m) ≤ 1) := by
  unfold CFG.get_linear_statements at h
  cases hr : g.linearize c0 with
  | error x => simp [hr] at h
  | ok raw =>
    simp only [hr, Except.ok.injEq] at h
    subst h
    refine ⟨?_, ?_, ?_⟩
    · intro m hm
      exact referenced_label_count g c0 raw hp he hu hr _ m hm (by simp [Statement.ref_count])
    · intro c t f hm
      exact ⟨referenced_label_count g c0 raw hp he hu hr _ t hm (by simp [Statement.ref_count]),
        referenced_label_count g c0 raw hp he hu hr _ f hm (by simp [Statement.ref_count])⟩
    · intro raw2 hr2 m
      simp only [Except.ok.injEq] at hr2
      subst hr2
      rw [← declared_labels_count]
      exact List.nodup_iff_count_le_one.1 (linearize_labels_nodup g c0 _ hp he hr) m

/-- The references in the linearized diamond: the Branch names the labels 13
and 14 and the Goto the label 11, each declared once. -/
theorem C21_references_are_declared_witness :
    diamond_graph.statements_plain = true ∧ diamond_graph.exit_is_exit = true
      ∧ diamond_graph.exit_only = true
      ∧ diamond_graph.get_linear_statements 10
          = .ok [.Branch 0 13 14, .Label 13, .Other 8, .Goto 11, .Label 14, .Other 9, .Label 11]
      ∧ (∀ m, Statement.Goto m
            ∈ [Statement.Branch 0 13 14, .Label 13, .Other 8, .Goto 11, .Label 14, .Other 9,
                .Label 11] →
          [Statement.Branch 0 13 14, .Label 13, .Other 8, .Goto 11, .Label 14, .Other 9,
            .Label 11].count (.Label m) = 1)
      ∧ (∀ c t f, Statement.Branch c t f
            ∈ [Statement.Branch 0 13 14, .Label 13, .Other 8, .Goto 11, .Label 14, .Other 9,
                .Label 11] →
          [Statement.Branch 0 13 14, .Label 13, .Other 8, .Goto 11, .Label 14, .Other 9,
              .Label 11].count (.Label t) = 1
            ∧ [Statement.Branch 0 13 14, .Label 13, .Other 8, .Goto 11, .Label 14, .Other 9,
                .Label 11].count (.Label f) = 1) :=
  ⟨by decide, by decide, by decide, diamond_linear,
    (C21_references_are_declared diamond_graph 10 _ (by decide) (by decide) (by decide)
      diamond_linear).1,
    (C21_references_are_declared diamond_graph 10 _ (by decide) (by decide) (by decide)
      diamond_linear).2.1⟩

end PHC
